import Mathlib

/-!
# Translator: a multilingual dictionary on an open-addressing hash table

A shallow embedding of `dictionary.cpp` and `hashtable.cpp`, and theorems about it.

Modelling conventions.

* A `std::string` is the list of its bytes, each byte given by its value as an
  `unsigned char` (`Str = List Nat`).
* `unsigned int` counters (`size`, `collisions`) are natural numbers reduced modulo `2 ^ 32`
  at every increment and decrement; `unsigned long` arithmetic in `hashCode` is reduced
  modulo `2 ^ 64`.
* `Entry** buckets` is a list of optional entries, `nullptr` being `none`.
* What the C++ code prints is returned as a result value.
* A `while` loop is a function with a fuel argument; running out of fuel is a separate
  outcome, and it is proved that it never happens when the fuel is the capacity.
-/

namespace Translator

/-- A `std::string`, as the list of its bytes. -/
abbrev Str := List Nat

/-- The function `::tolower` of the "C" locale on one byte. -/
def tolower (c : Nat) : Nat :=
  if 65 ≤ c ∧ c ≤ 90 then c + 32 else c

/-- Convert a string to lowercase (`toLower` of `dictionary.cpp`). -/
def toLower (str : Str) : Str :=
  str.map tolower

/-- The bytes of a text of ASCII characters, to write inputs down readably. -/
def ascii (s : String) : Str :=
  s.toList.map Char.toNat

/-- The repeated `std::getline(stream, piece, delim)`: the pieces read from the rest of the
stream, `acc` being the bytes of the current piece read so far. A read that extracts nothing,
not even a delimiter, fails and ends the loop. -/
def getlineAll (delim : Nat) : Str → Str → List Str
  | [], acc => if acc.isEmpty then [] else [acc]
  | c :: cs, acc =>
    if c = delim then acc :: getlineAll delim cs [] else getlineAll delim cs (acc ++ [c])

/-! ## Translation -/

/-- The class `Translation`: one language and its meanings. -/
structure Translation where
  language : Str
  meanings : List Str
  deriving DecidableEq, Repr

/-- The constructor `Translation::Translation(meanings, language)`. -/
def Translation.new (meanings language : Str) : Translation :=
  if meanings.isEmpty then { language := language, meanings := [] }
  else
    let pieces := (getlineAll 59 meanings []).filter (fun meaning => !meaning.isEmpty)
    { language := language, meanings := if pieces.isEmpty then [[]] else pieces }

/-- The method `Translation::addMeaning`. -/
def Translation.addMeaning (t : Translation) (newMeaning : Str) : Translation :=
  if newMeaning.isEmpty then t
  else if t.meanings.any (fun existing => toLower existing = toLower newMeaning) then t
  else { t with meanings := t.meanings ++ [newMeaning] }

/-! ## Entry -/

/-- The class `Entry`: a word and its translations. -/
structure Entry where
  word : Str
  originalWord : Str
  originalLine : Str
  translations : List Translation
  deleted : Bool
  deriving DecidableEq, Repr

/-- The constructor `Entry::Entry(word, meanings, language, originalLine)`. -/
def Entry.new (word meanings language originalLine : Str) : Entry :=
  if word.isEmpty then
    { word := ascii "unknown", originalWord := ascii "unknown",
      originalLine := ascii "unknown:" ++ meanings,
      translations := [Translation.new meanings language], deleted := false }
  else
    { word := toLower word, originalWord := word, originalLine := originalLine,
      translations := [Translation.new meanings language], deleted := false }

/-- The loop of `Entry::addTranslation`: the translations after the meaning was added to the
first translation of the language, or `none` when no translation has the language. -/
def addTranslationLoop (newMeanings language : Str) : List Translation → Option (List Translation)
  | [] => none
  | tr :: rest =>
    if toLower tr.language = toLower language then
      some (tr.addMeaning newMeanings :: rest)
    else
      (addTranslationLoop newMeanings language rest).map (fun ts => tr :: ts)

/-- The method `Entry::addTranslation`. -/
def Entry.addTranslation (e : Entry) (newMeanings language : Str) : Entry :=
  if language.isEmpty || newMeanings.isEmpty then e
  else
    match addTranslationLoop newMeanings language e.translations with
    | some ts => { e with translations := ts }
    | none => { e with translations := e.translations ++ [Translation.new newMeanings language] }

/-- The method `Entry::markDeleted`. -/
def Entry.markDeleted (e : Entry) : Entry :=
  { e with deleted := true }

/-! ## HashTable -/

/-- The class `HashTable`. -/
structure HashTable where
  buckets : List (Option Entry)
  size : Nat
  capacity : Nat
  collisions : Nat
  deriving DecidableEq, Repr

/-- The constructor `HashTable::HashTable(capacity)`. -/
def HashTable.new (capacity : Nat) : HashTable :=
  let capacity := if capacity ≤ 0 then 1171891 else capacity
  { buckets := List.replicate capacity none, size := 0, capacity := capacity, collisions := 0 }

/-- The slot `buckets[idx]`. -/
def HashTable.bucket (t : HashTable) (idx : Nat) : Option Entry :=
  t.buckets.getD idx none

/-- The value of a `char` converted to `unsigned long`, `char` being a signed byte and
`unsigned long` having 64 bits. -/
def charToULong (c : Nat) : Nat :=
  if c < 128 then c else 2 ^ 64 - 256 + c

/-- The loop of `HashTable::hashCode` over the bytes of the lowercased word. -/
def hashLoop (capacity : Nat) : Nat → Str → Nat
  | hash, [] => hash
  | hash, ch :: rest => hashLoop capacity ((hash * 31 + charToULong ch) % 2 ^ 64 % capacity) rest

/-- The method `HashTable::hashCode`. -/
def HashTable.hashCode (t : HashTable) (word : Str) : Nat :=
  let lowerWord := toLower word
  if lowerWord.isEmpty then 0 else hashLoop t.capacity 0 lowerWord

/-- How the probing loop of `HashTable::insert` ends. -/
inductive InsertWalk where
  | stop (idx collisions : Nat)
  | full (collisions comparisons : Nat)
  | outOfFuel
  deriving DecidableEq, Repr

/-- The `while` loop of `HashTable::insert`, from slot `idx`. -/
def insertWalk (t : HashTable) (lowerWord : Str) (originalIdx : Nat) :
    Nat → Nat → Nat → Nat → InsertWalk
  | 0, _, _, _ => InsertWalk.outOfFuel
  | fuel + 1, idx, collisions, comparisons =>
    match t.bucket idx with
    | none => InsertWalk.stop idx collisions
    | some e =>
      if toLower e.word ≠ lowerWord ∧ e.deleted = false then
        let idx := (idx + 1) % t.capacity
        let collisions := (collisions + 1) % 2 ^ 32
        let comparisons := (comparisons + 1) % 2 ^ 32
        if idx = originalIdx then InsertWalk.full collisions comparisons
        else insertWalk t lowerWord originalIdx fuel idx collisions comparisons
      else InsertWalk.stop idx collisions

/-- What `HashTable::insert` did. -/
inductive InsertOutcome where
  | invalid
  | full (comparisons : Nat)
  | created (idx : Nat)
  | merged (idx : Nat)
  | outOfFuel
  deriving DecidableEq, Repr

/-- The insertion ended in the table-full condition. -/
def InsertOutcome.isFull : InsertOutcome → Bool
  | InsertOutcome.full _ => true
  | _ => false

/-- The method `HashTable::insert`: the table afterwards and what was done. -/
def HashTable.insert (t : HashTable) (word meanings language originalLine : Str)
    (_silent : Bool) : HashTable × InsertOutcome :=
  if word.isEmpty || meanings.isEmpty || language.isEmpty then (t, InsertOutcome.invalid)
  else
    let lowerWord := toLower word
    let idx := t.hashCode lowerWord
    match insertWalk t lowerWord idx t.capacity idx t.collisions 0 with
    | InsertWalk.outOfFuel => (t, InsertOutcome.outOfFuel)
    | InsertWalk.full collisions comparisons =>
      ({ t with collisions := collisions }, InsertOutcome.full comparisons)
    | InsertWalk.stop idx collisions =>
      match t.bucket idx with
      | none =>
        ({ t with buckets := t.buckets.set idx (some (Entry.new word meanings language originalLine)),
                  size := (t.size + 1) % 2 ^ 32, collisions := collisions },
          InsertOutcome.created idx)
      | some e =>
        if e.deleted then
          ({ t with buckets := t.buckets.set idx (some (Entry.new word meanings language originalLine)),
                    size := (t.size + 1) % 2 ^ 32, collisions := collisions },
            InsertOutcome.created idx)
        else
          ({ t with buckets := t.buckets.set idx (some (e.addTranslation meanings language)),
                    collisions := collisions },
            InsertOutcome.merged idx)

/-- How the probing loop shared by `find`, `delWord`, `delTranslation` and `delMeaning`
ends. -/
inductive LookupWalk where
  | hit (idx comparisons : Nat)
  | miss (comparisons : Nat)
  | outOfFuel
  deriving DecidableEq, Repr

/-- The `while` loop of `HashTable::find`, which `delWord`, `delTranslation` and
`delMeaning` repeat: walk from slot `idx` to the first live entry of the word. -/
def lookupWalk (t : HashTable) (lowerWord : Str) (originalIdx : Nat) :
    Nat → Nat → Nat → LookupWalk
  | 0, _, _ => LookupWalk.outOfFuel
  | fuel + 1, idx, comparisons =>
    match t.bucket idx with
    | none => LookupWalk.miss comparisons
    | some e =>
      if toLower e.word = lowerWord ∧ e.deleted = false then LookupWalk.hit idx (comparisons + 1)
      else
        let idx := (idx + 1) % t.capacity
        if idx = originalIdx then LookupWalk.miss (comparisons + 1)
        else lookupWalk t lowerWord originalIdx fuel idx (comparisons + 1)

/-- What `HashTable::find` prints. -/
inductive FindResult where
  | invalid
  | found (comparisons : Nat) (translations : List Translation)
  | notFound
  | outOfFuel
  deriving DecidableEq, Repr

/-- The method `HashTable::find`. -/
def HashTable.find (t : HashTable) (word : Str) : FindResult :=
  if word.isEmpty then FindResult.invalid
  else
    let lowerWord := toLower word
    let idx := t.hashCode lowerWord
    match lookupWalk t lowerWord idx t.capacity idx 0 with
    | LookupWalk.outOfFuel => FindResult.outOfFuel
    | LookupWalk.miss _ => FindResult.notFound
    | LookupWalk.hit idx comparisons =>
      match t.bucket idx with
      | some e => FindResult.found comparisons e.translations
      | none => FindResult.notFound

/-- What the deleting methods print. -/
inductive DelResult where
  | invalid
  | deleted
  | wordNotFound
  | translationNotFound
  | meaningOrLanguageNotFound
  | outOfFuel
  deriving DecidableEq, Repr

/-- The method `HashTable::delWord`. -/
def HashTable.delWord (t : HashTable) (word : Str) : HashTable × DelResult :=
  if word.isEmpty then (t, DelResult.invalid)
  else
    let lowerWord := toLower word
    let idx := t.hashCode lowerWord
    match lookupWalk t lowerWord idx t.capacity idx 0 with
    | LookupWalk.outOfFuel => (t, DelResult.outOfFuel)
    | LookupWalk.miss _ => (t, DelResult.wordNotFound)
    | LookupWalk.hit idx _ =>
      match t.bucket idx with
      | some e =>
        ({ t with buckets := t.buckets.set idx (some e.markDeleted),
                  size := (t.size + 2 ^ 32 - 1) % 2 ^ 32 },
          DelResult.deleted)
      | none => (t, DelResult.wordNotFound)

/-- The method `HashTable::addWord`. -/
def HashTable.addWord (t : HashTable) (word meanings language : Str) :
    HashTable × InsertOutcome :=
  t.insert word meanings language (word ++ ascii ":" ++ meanings) false

/-- The inner loop of `HashTable::delTranslation`: erase the first translation of the
language, or `none` when there is none. -/
def eraseTranslation (lowerLanguage : Str) : List Translation → Option (List Translation)
  | [] => none
  | tr :: rest =>
    if toLower tr.language = lowerLanguage then some rest
    else (eraseTranslation lowerLanguage rest).map (fun ts => tr :: ts)

/-- The method `HashTable::delTranslation`. -/
def HashTable.delTranslation (t : HashTable) (word language : Str) : HashTable × DelResult :=
  if word.isEmpty || language.isEmpty then (t, DelResult.invalid)
  else
    let lowerWord := toLower word
    let lowerLanguage := toLower language
    let idx := t.hashCode lowerWord
    match lookupWalk t lowerWord idx t.capacity idx 0 with
    | LookupWalk.outOfFuel => (t, DelResult.outOfFuel)
    | LookupWalk.miss _ => (t, DelResult.wordNotFound)
    | LookupWalk.hit idx _ =>
      match t.bucket idx with
      | some e =>
        match eraseTranslation lowerLanguage e.translations with
        | some ts =>
          ({ t with buckets := t.buckets.set idx (some { e with translations := ts }) },
            DelResult.deleted)
        | none => (t, DelResult.translationNotFound)
      | none => (t, DelResult.wordNotFound)

/-- The innermost loop of `HashTable::delMeaning`: erase the first meaning equal to `meaning`
up to case, or `none` when there is none. -/
def eraseMeaning (meaning : Str) : List Str → Option (List Str)
  | [] => none
  | m :: rest =>
    if toLower m = toLower meaning then some rest
    else (eraseMeaning meaning rest).map (fun ms => m :: ms)

/-- The loop of `HashTable::delMeaning` over the translations: in the first translation of
the language that has the meaning, erase it, and erase the translation when it has no
meaning left; `none` when no translation of the language has the meaning. -/
def delMeaningLoop (meaning lowerLanguage : Str) : List Translation → Option (List Translation)
  | [] => none
  | tr :: rest =>
    if toLower tr.language = lowerLanguage then
      match eraseMeaning meaning tr.meanings with
      | some ms => some (if ms.isEmpty then rest else { tr with meanings := ms } :: rest)
      | none => (delMeaningLoop meaning lowerLanguage rest).map (fun ts => tr :: ts)
    else (delMeaningLoop meaning lowerLanguage rest).map (fun ts => tr :: ts)

/-- The method `HashTable::delMeaning`. -/
def HashTable.delMeaning (t : HashTable) (word meaning language : Str) :
    HashTable × DelResult :=
  if word.isEmpty || meaning.isEmpty || language.isEmpty then (t, DelResult.invalid)
  else
    let lowerWord := toLower word
    let lowerLanguage := toLower language
    let idx := t.hashCode lowerWord
    match lookupWalk t lowerWord idx t.capacity idx 0 with
    | LookupWalk.outOfFuel => (t, DelResult.outOfFuel)
    | LookupWalk.miss _ => (t, DelResult.wordNotFound)
    | LookupWalk.hit idx _ =>
      match t.bucket idx with
      | some e =>
        match delMeaningLoop meaning lowerLanguage e.translations with
        | some ts =>
          ({ t with buckets := t.buckets.set idx (some { e with translations := ts }) },
            DelResult.deleted)
        | none => (t, DelResult.meaningOrLanguageNotFound)
      | none => (t, DelResult.wordNotFound)

/-- The removal of the blanks and tabs at both ends of a string, as `HashTable::import`
does it with `find_first_not_of`, `find_last_not_of` and `erase`. -/
def trim (s : Str) : Str :=
  ((s.dropWhile (fun c => c = 32 ∨ c = 9)).reverse.dropWhile (fun c => c = 32 ∨ c = 9)).reverse

/-- The body of the reading loop of `HashTable::import` for one line: the table and the
count afterwards. -/
def importLine (language : Str) (acc : HashTable × Nat) (line : Str) : HashTable × Nat :=
  if line.isEmpty then acc
  else if ¬ 58 ∈ line then acc
  else
    let colonPos := line.indexOf 58
    let word := line.take colonPos
    let translation := if colonPos + 1 < line.length then line.drop (colonPos + 1) else []
    let word := trim word
    let translation := trim translation
    if word.isEmpty then acc
    else ((acc.1.insert word translation language line true).1, (acc.2 + 1) % 2 ^ 32)

/-- What `HashTable::import` prints. -/
inductive ImportResult where
  | invalid
  | cannotOpen
  | emptyFile
  | noLanguage
  | imported (count : Nat) (language : Str)
  deriving DecidableEq, Repr

/-- The method `HashTable::import`; `file` is the content of the file at `path`, or `none`
when the file cannot be opened. -/
def HashTable.importData (t : HashTable) (path : Str) (file : Option Str) :
    HashTable × ImportResult :=
  if path.isEmpty then (t, ImportResult.invalid)
  else
    match file with
    | none => (t, ImportResult.cannotOpen)
    | some content =>
      match getlineAll 10 content [] with
      | [] => (t, ImportResult.emptyFile)
      | language :: lines =>
        if language.isEmpty then (t, ImportResult.noLanguage)
        else
          let r := lines.foldl (importLine language) (t, 0)
          (r.1, ImportResult.imported r.2 language)

/-! ## Sequences of calls -/

/-- A call of one of the methods that change the table. -/
inductive Op where
  | insert (word meanings language originalLine : Str) (silent : Bool)
  | addWord (word meanings language : Str)
  | importData (path : Str) (file : Option Str)
  | delWord (word : Str)
  | delTranslation (word language : Str)
  | delMeaning (word meaning language : Str)
  deriving DecidableEq, Repr

/-- The table after one call. -/
def HashTable.apply (t : HashTable) : Op → HashTable
  | Op.insert word meanings language originalLine silent =>
    (t.insert word meanings language originalLine silent).1
  | Op.addWord word meanings language => (t.addWord word meanings language).1
  | Op.importData path file => (t.importData path file).1
  | Op.delWord word => (t.delWord word).1
  | Op.delTranslation word language => (t.delTranslation word language).1
  | Op.delMeaning word meaning language => (t.delMeaning word meaning language).1

/-- The table reached from a freshly constructed table of the requested capacity by a
sequence of calls. -/
def run (capacity : Nat) (ops : List Op) : HashTable :=
  ops.foldl HashTable.apply (HashTable.new capacity)

/-! ## Predicates on tables -/

/-- A slot holds a live entry: it is not `nullptr` and its entry is not marked deleted. -/
def isLive : Option Entry → Bool
  | some e => !e.deleted
  | none => false

/-- The number of live entries in a list of slots. -/
def liveCount (buckets : List (Option Entry)) : Nat :=
  buckets.countP isLive

/-- The table has the shape the constructor gives it: a positive capacity that fits an
`unsigned int`, and as many slots as the capacity. -/
def HashTable.WF (t : HashTable) : Prop :=
  0 < t.capacity ∧ t.capacity < 2 ^ 32 ∧ t.buckets.length = t.capacity

instance (t : HashTable) : Decidable t.WF := by
  unfold HashTable.WF
  infer_instance

/-- No two translations of the list have the same language up to case. -/
def langUnique (ts : List Translation) : Prop :=
  ts.Pairwise (fun a b => toLower a.language ≠ toLower b.language)

instance (ts : List Translation) : Decidable (langUnique ts) := by
  unfold langUnique
  infer_instance

/-- No two meanings of the list are equal up to case. -/
def meaningsUnique (ms : List Str) : Prop :=
  ms.Pairwise (fun a b => toLower a ≠ toLower b)

instance (ms : List Str) : Decidable (meaningsUnique ms) := by
  unfold meaningsUnique
  infer_instance

/-- No two distinct slots hold live entries with the same lowercased word. -/
def keysUnique (buckets : List (Option Entry)) : Prop :=
  buckets.Pairwise (fun a b => ∀ x ∈ a, ∀ y ∈ b,
    x.deleted = false → y.deleted = false → toLower x.word ≠ toLower y.word)

/-- The invariant of the reachable tables: the shape of the constructor, `size` counts the
live entries, and every entry has at most one translation per language. -/
def HashTable.Inv (t : HashTable) : Prop :=
  t.WF ∧ t.size = liveCount t.buckets ∧ ∀ e, some e ∈ t.buckets → langUnique e.translations

/-! ## Export -/

/-- The innermost loop of `HashTable::exportData`: every meaning, followed by `;` unless it
is the last one. -/
def writeMeanings : List Str → Str
  | [] => []
  | [m] => m
  | m :: m2 :: rest => m ++ ascii ";" ++ writeMeanings (m2 :: rest)

/-- The loop of `HashTable::exportData` over the translations of one entry: the lines
written, one for every translation of the language. -/
def exportTranslations (lowerLanguage originalWord : Str) : List Translation → List Str
  | [] => []
  | tr :: rest =>
    if toLower tr.language = lowerLanguage then
      (originalWord ++ ascii ":" ++ writeMeanings tr.meanings)
        :: exportTranslations lowerLanguage originalWord rest
    else exportTranslations lowerLanguage originalWord rest

/-- The body of the loop of `HashTable::exportData` over the slots: the lines written for
slot `i`. -/
def exportSlot (t : HashTable) (lowerLanguage : Str) (i : Nat) : List Str :=
  match t.bucket i with
  | some e =>
    if e.deleted = false then exportTranslations lowerLanguage e.originalWord e.translations
    else []
  | none => []

/-- The loop of `HashTable::exportData` over the slots, in the order of the given indices. -/
def exportSlots (t : HashTable) (lowerLanguage : Str) : List Nat → List Str
  | [] => []
  | i :: rest => exportSlot t lowerLanguage i ++ exportSlots t lowerLanguage rest

/-- The text of a file into which the given lines were written, each followed by
`std::endl`. -/
def writeLines : List Str → Str
  | [] => []
  | line :: rest => line ++ ascii "\n" ++ writeLines rest

/-- What `HashTable::exportData` writes and prints. -/
inductive ExportResult where
  | invalid
  | cannotOpen
  | exported (content : Str) (count : Nat)
  deriving DecidableEq, Repr

/-- The lines that `HashTable::exportData` writes after the header. -/
def HashTable.exportLines (t : HashTable) (language : Str) : List Str :=
  exportSlots t (toLower language) (List.range t.capacity)

/-- The method `HashTable::exportData`; `canOpen` tells whether the file at `filePath` can
be opened for writing. The result holds the text written to the file and the count
printed. -/
def HashTable.exportData (t : HashTable) (language filePath : Str) (canOpen : Bool) :
    ExportResult :=
  if language.isEmpty || filePath.isEmpty then ExportResult.invalid
  else if canOpen = false then ExportResult.cannotOpen
  else
    ExportResult.exported (language ++ ascii "\n" ++ writeLines (t.exportLines language))
      ((t.exportLines language).length % 2 ^ 32)

/-! ## Export, as the specification words it -/

/-- Specification: a slot gives a line in the export of a language when it holds a live
record that has a translation of the language up to case. -/
def specExports (lowerLanguage : Str) (slot : Option Entry) : Bool :=
  match slot with
  | some e => !e.deleted && e.translations.any (fun tr => toLower tr.language = lowerLanguage)
  | none => false

/-- Specification: the line of a record in the export of a language: the original word, `:`
and the meanings of its translation of the language joined by `;`. -/
def specLine (lowerLanguage : Str) (slot : Option Entry) : Str :=
  match slot with
  | some e =>
    match e.translations.find? (fun tr => toLower tr.language = lowerLanguage) with
    | some tr => e.originalWord ++ ascii ":" ++ List.intercalate (ascii ";") tr.meanings
    | none => []
  | none => []

/-- Specification: the slots that give a line in the export of a language, by increasing
index. -/
def HashTable.specExportSlots (t : HashTable) (language : Str) : List Nat :=
  (List.range t.capacity).filter (fun i => specExports (toLower language) (t.bucket i))

/-- Specification: the lines of the export of a language, one for every slot that gives a
line, by increasing slot index. -/
def HashTable.specExportLines (t : HashTable) (language : Str) : List Str :=
  (t.specExportSlots language).map (fun i => specLine (toLower language) (t.bucket i))

/-! ## Import of an exported file -/

/-- The text that `HashTable::exportData` wrote to the file, empty when it wrote none. -/
def ExportResult.content : ExportResult → Str
  | ExportResult.exported content _ => content
  | _ => []

/-- The line that `HashTable::exportData` writes for a word and the meanings of its
translation. -/
def recordLine (r : Str × List Str) : Str :=
  r.1 ++ ascii ":" ++ writeMeanings r.2

/-- A word and meanings that `import` reads back unchanged from their exported line: the word
is not empty, holds no `:` and no newline, and trimming does not change it; the written
meanings are not empty, hold no newline, are not changed by trimming, and are the same text
again after being split at `;` by the constructor of `Translation` and written anew. -/
def cleanRecord (r : Str × List Str) : Prop :=
  r.1 ≠ [] ∧ 58 ∉ r.1 ∧ 10 ∉ r.1 ∧ trim r.1 = r.1 ∧
  writeMeanings r.2 ≠ [] ∧ 10 ∉ writeMeanings r.2 ∧
  trim (writeMeanings r.2) = writeMeanings r.2 ∧
  writeMeanings (Translation.new (writeMeanings r.2) []).meanings = writeMeanings r.2

instance (r : Str × List Str) : Decidable (cleanRecord r) := by
  unfold cleanRecord
  infer_instance

/-- The table `s` holds exactly the records `done`, imported for the language: it is
well-formed, has no deleted entry, every entry has the key of a record of `done`, there are
as many entries as records, and its export for the language is the lines of `done` in some
order. -/
def importedFrom (language : Str) (s : HashTable) (done : List (Str × List Str)) : Prop :=
  s.WF ∧
  (∀ i e, s.bucket i = some e → e.deleted = false ∧ ∃ r, r ∈ done ∧ e.word = toLower r.1) ∧
  liveCount s.buckets = done.length ∧
  List.Perm (s.exportLines language) (done.map recordLine)

/-- The word and the meanings that the export line of a slot shows for a language: the
original word of the entry and the meanings of its first translation of the language. -/
def exportRecord (lowerLanguage : Str) (slot : Option Entry) : Str × List Str :=
  match slot with
  | some e =>
    match e.translations.find? (fun tr => toLower tr.language = lowerLanguage) with
    | some tr => (e.originalWord, tr.meanings)
    | none => (e.originalWord, [])
  | none => ([], [])

/-- Every entry lies on the probe sequence of its word, with no empty slot before it: the
slot of an entry is reached from the hash code of its word in fewer than `capacity` steps
that meet no empty slot. -/
def HashTable.PathInv (t : HashTable) : Prop :=
  ∀ i e, t.bucket i = some e →
    ∃ n, n < t.capacity ∧ (t.hashCode e.word + n) % t.capacity = i ∧
      ∀ k, k < n → t.bucket ((t.hashCode e.word + k) % t.capacity) ≠ none

/-- The table `s` holds exactly one live entry for each of the words `done` and nothing
else: it is well-formed, has no deleted entry, every entry has the key of a word of `done`,
and there are as many live entries as words. -/
def holdsWords (s : HashTable) (done : List Str) : Prop :=
  s.WF ∧
  (∀ i e, s.bucket i = some e → e.deleted = false ∧ ∃ k, k ∈ done ∧ e.word = toLower k) ∧
  liveCount s.buckets = done.length

/-- The loop of `find`, `delWord`, `delTranslation` and `delMeaning` with a record of the
slots it examines: the same loop as `lookupWalk`, which appends to `visited` every index
`idx` at which `buckets[idx]` is read. -/
def lookupWalkTraced (t : HashTable) (lowerWord : Str) (originalIdx : Nat) :
    Nat → Nat → Nat → List Nat → LookupWalk × List Nat
  | 0, _, _, visited => (LookupWalk.outOfFuel, visited)
  | fuel + 1, idx, comparisons, visited =>
    match t.bucket idx with
    | none => (LookupWalk.miss comparisons, visited ++ [idx])
    | some e =>
      if toLower e.word = lowerWord ∧ e.deleted = false then
        (LookupWalk.hit idx (comparisons + 1), visited ++ [idx])
      else
        let idx' := (idx + 1) % t.capacity
        if idx' = originalIdx then (LookupWalk.miss (comparisons + 1), visited ++ [idx])
        else lookupWalkTraced t lowerWord originalIdx fuel idx' (comparisons + 1)
          (visited ++ [idx])

/-- The probing loop of `HashTable::insert` with a record of the slots it examines and of the
number of times it advances: the same loop as `insertWalk`, which appends to `visited` every
index `idx` at which `buckets[idx]` is read and counts in `advances` the executions of
`idx = (idx + 1) % capacity`. -/
def insertWalkTraced (t : HashTable) (lowerWord : Str) (originalIdx : Nat) :
    Nat → Nat → Nat → Nat → List Nat → Nat → InsertWalk × List Nat × Nat
  | 0, _, _, _, visited, advances => (InsertWalk.outOfFuel, visited, advances)
  | fuel + 1, idx, collisions, comparisons, visited, advances =>
    match t.bucket idx with
    | none => (InsertWalk.stop idx collisions, visited ++ [idx], advances)
    | some e =>
      if toLower e.word ≠ lowerWord ∧ e.deleted = false then
        let idx' := (idx + 1) % t.capacity
        let collisions := (collisions + 1) % 2 ^ 32
        let comparisons := (comparisons + 1) % 2 ^ 32
        if idx' = originalIdx then
          (InsertWalk.full collisions comparisons, visited ++ [idx], advances + 1)
        else insertWalkTraced t lowerWord originalIdx fuel idx' collisions comparisons
          (visited ++ [idx]) (advances + 1)
      else (InsertWalk.stop idx collisions, visited ++ [idx], advances)

/-- The slots of `t'` keep what the slots of `t` hold: a slot that is not empty in `t` is not
empty in `t'`, and a slot whose entry, if any, has a non-empty key in `t` has the same
property in `t'`. -/
def HashTable.SlotsKept (t t' : HashTable) : Prop :=
  ∀ i, (t.bucket i ≠ none → t'.bucket i ≠ none) ∧
    ((∀ e, t.bucket i = some e → e.word ≠ []) → ∀ e, t'.bucket i = some e → e.word ≠ [])

/-- The number of times a call `insert(word, meanings, language, ..)` executes the statement
`idx = (idx + 1) % capacity` of its probing loop, each time followed by `++collisions`: none
when the call returns at its guard, else the count kept by `insertWalkTraced`. -/
def HashTable.insertAdvances (t : HashTable) (word meanings language : Str) : Nat :=
  if word.isEmpty || meanings.isEmpty || language.isEmpty then 0
  else
    let lowerWord := toLower word
    let idx := t.hashCode lowerWord
    (insertWalkTraced t lowerWord idx t.capacity idx t.collisions 0 [] 0).2.2

/-- The number of advances of the probing loop of `insert` while `HashTable::import` handles
one line: the advances of the `insert` call the line leads to, none for a line it skips. -/
def importLineAdvances (language : Str) (t : HashTable) (line : Str) : Nat :=
  if line.isEmpty then 0
  else if ¬ 58 ∈ line then 0
  else
    let colonPos := line.indexOf 58
    let word := line.take colonPos
    let translation := if colonPos + 1 < line.length then line.drop (colonPos + 1) else []
    let word := trim word
    let translation := trim translation
    if word.isEmpty then 0
    else t.insertAdvances word translation language

/-- The number of advances of the probing loop of `insert` during the reading loop of
`HashTable::import`: the sum over the lines, each on the table the earlier lines left. -/
def importAdvances (language : Str) : List Str → HashTable × Nat → Nat
  | [], _ => 0
  | line :: rest, acc =>
    importLineAdvances language acc.1 line
      + importAdvances language rest (importLine language acc line)

/-- The number of advances of the probing loop of `insert` during a call of
`HashTable::import`: none when it returns before its reading loop. -/
def HashTable.importDataAdvances (t : HashTable) (path : Str) (file : Option Str) : Nat :=
  if path.isEmpty then 0
  else
    match file with
    | none => 0
    | some content =>
      match getlineAll 10 content [] with
      | [] => 0
      | language :: lines =>
        if language.isEmpty then 0
        else importAdvances language lines (t, 0)

/-! ## Lowercasing and hashing -/

theorem tolower_tolower (c : Nat) : tolower (tolower c) = tolower c := by
  unfold tolower
  split_ifs <;> omega

theorem toLower_toLower (s : Str) : toLower (toLower s) = toLower s := by
  simp [toLower, tolower_tolower]

theorem toLower_eq_nil {s : Str} : toLower s = [] ↔ s = [] := by
  simp [toLower]

theorem hashLoop_lt (capacity : Nat) (hc : 0 < capacity) (s : Str) :
    ∀ hash, hash < capacity → hashLoop capacity hash s < capacity := by
  induction s with
  | nil => intro hash h; simpa [hashLoop] using h
  | cons ch rest ih =>
    intro hash _
    simp only [hashLoop]
    exact ih _ (Nat.mod_lt _ hc)

theorem hashCode_lt (t : HashTable) (hc : 0 < t.capacity) (w : Str) :
    t.hashCode w < t.capacity := by
  unfold HashTable.hashCode
  simp only
  split_ifs
  · exact hc
  · exact hashLoop_lt _ hc _ _ hc

theorem hashCode_toLower (t : HashTable) (w : Str) : t.hashCode (toLower w) = t.hashCode w := by
  simp [HashTable.hashCode, toLower_toLower]

/-! ## Slots -/

theorem getD_set {α : Type} (l : List α) (j : Nat) (x d : α) (hj : j < l.length) (i : Nat) :
    (l.set j x).getD i d = if i = j then x else l.getD i d := by
  simp only [List.getD_eq_getElem?_getD, List.getElem?_set]
  by_cases h : i = j
  · subst h
    simp [hj]
  · have h' : ¬ j = i := fun e => h e.symm
    simp [h, h']

theorem bucket_eq_some_mem {t : HashTable} {i : Nat} {e : Entry} (h : t.bucket i = some e) :
    some e ∈ t.buckets := by
  unfold HashTable.bucket at h
  rw [List.getD_eq_getElem?_getD] at h
  cases hq : t.buckets[i]? with
  | none => simp [hq] at h
  | some v =>
    simp [hq] at h
    subst h
    exact List.getElem?_mem hq

theorem bucket_lt {t : HashTable} {i : Nat} {e : Entry} (h : t.bucket i = some e) :
    i < t.buckets.length := by
  unfold HashTable.bucket at h
  by_contra hlt
  rw [List.getD_eq_default _ _ (Nat.le_of_not_lt hlt)] at h
  cases h

theorem countP_set {α : Type} (p : α → Bool) (l : List α) (j : Nat) (x d : α)
    (hj : j < l.length) :
    (l.set j x).countP p + (if p (l.getD j d) then 1 else 0)
      = l.countP p + (if p x then 1 else 0) := by
  induction l generalizing j with
  | nil => simp at hj
  | cons a as ih =>
    cases j with
    | zero =>
      simp only [List.set_cons_zero, List.countP_cons, List.getD_cons_zero]
      omega
    | succ j =>
      have hj' : j < as.length := by simpa using hj
      have := ih j hj'
      simp only [List.set_cons_succ, List.countP_cons, List.getD_cons_succ]
      omega

theorem liveCount_le (b : List (Option Entry)) : liveCount b ≤ b.length :=
  List.countP_le_length _

/-! ## The probing loops -/

theorem step_idx (cap orig k : Nat) : ((orig + k) % cap + 1) % cap = (orig + (k + 1)) % cap := by
  rw [Nat.mod_add_mod, Nat.add_assoc]

theorem insertWalk_ne_outOfFuel (t : HashTable) (lw : Str) (orig : Nat) (ho : orig < t.capacity) :
    ∀ fuel k idx coll comp, 0 < fuel → k + fuel = t.capacity → idx = (orig + k) % t.capacity →
      insertWalk t lw orig fuel idx coll comp ≠ InsertWalk.outOfFuel := by
  intro fuel
  induction fuel with
  | zero => intro k idx coll comp h; omega
  | succ n ih =>
    intro k idx coll comp _ hk hidx
    simp only [insertWalk]
    split
    · simp
    · split_ifs with hc hfull
      · simp
      · have hstep : (idx + 1) % t.capacity = (orig + (k + 1)) % t.capacity := by
          rw [hidx, step_idx]
        refine ih (k + 1) _ _ _ ?_ ?_ hstep
        · by_contra hn
          have h0 : n = 0 := by omega
          subst h0
          apply hfull
          rw [hstep]
          have : orig + (k + 1) = orig + t.capacity := by omega
          rw [this, Nat.add_mod_right, Nat.mod_eq_of_lt ho]
        · omega
      · simp

theorem lookupWalk_ne_outOfFuel (t : HashTable) (lw : Str) (orig : Nat) (ho : orig < t.capacity) :
    ∀ fuel k idx comp, 0 < fuel → k + fuel = t.capacity → idx = (orig + k) % t.capacity →
      lookupWalk t lw orig fuel idx comp ≠ LookupWalk.outOfFuel := by
  intro fuel
  induction fuel with
  | zero => intro k idx comp h; omega
  | succ n ih =>
    intro k idx comp _ hk hidx
    simp only [lookupWalk]
    split
    · simp
    · split_ifs with hc hfull
      · simp
      · simp
      · have hstep : (idx + 1) % t.capacity = (orig + (k + 1)) % t.capacity := by
          rw [hidx, step_idx]
        refine ih (k + 1) _ _ ?_ ?_ hstep
        · by_contra hn
          have h0 : n = 0 := by omega
          subst h0
          apply hfull
          rw [hstep]
          have : orig + (k + 1) = orig + t.capacity := by omega
          rw [this, Nat.add_mod_right, Nat.mod_eq_of_lt ho]
        · omega

/-- Where the loop of `insert` stops: at a slot of the table that is empty, or holds a deleted
entry, or holds an entry of the word. -/
theorem insertWalk_stop (t : HashTable) (lw : Str) (orig : Nat) (hc : 0 < t.capacity) :
    ∀ fuel idx coll comp j coll', idx < t.capacity →
      insertWalk t lw orig fuel idx coll comp = InsertWalk.stop j coll' →
      j < t.capacity ∧
        (t.bucket j = none ∨ ∃ e, t.bucket j = some e ∧ (e.deleted = true ∨ toLower e.word = lw)) := by
  intro fuel
  induction fuel with
  | zero => intro idx coll comp j coll' _ h; simp [insertWalk] at h
  | succ n ih =>
    intro idx coll comp j coll' hidx h
    simp only [insertWalk] at h
    split at h
    · rename_i hb
      simp only [InsertWalk.stop.injEq] at h
      obtain ⟨rfl, _⟩ := h
      exact ⟨hidx, Or.inl hb⟩
    · rename_i e hb
      split_ifs at h with hcond hfull
      · exact ih _ _ _ _ _ (Nat.mod_lt _ hc) h
      · simp only [InsertWalk.stop.injEq] at h
        obtain ⟨rfl, _⟩ := h
        refine ⟨hidx, Or.inr ⟨e, hb, ?_⟩⟩
        by_cases hd : e.deleted = true
        · exact Or.inl hd
        · right
          by_contra hne
          exact hcond ⟨hne, by simpa using hd⟩

/-- Where the lookup loop hits: at a slot of the table that holds a live entry of the word. -/
theorem lookupWalk_hit (t : HashTable) (lw : Str) (orig : Nat) (hc : 0 < t.capacity) :
    ∀ fuel idx comp j comp', idx < t.capacity →
      lookupWalk t lw orig fuel idx comp = LookupWalk.hit j comp' →
      j < t.capacity ∧ ∃ e, t.bucket j = some e ∧ toLower e.word = lw ∧ e.deleted = false := by
  intro fuel
  induction fuel with
  | zero => intro idx comp j comp' _ h; simp [lookupWalk] at h
  | succ n ih =>
    intro idx comp j comp' hidx h
    simp only [lookupWalk] at h
    split at h
    · simp at h
    · rename_i e hb
      split_ifs at h with hcond hfull
      · simp only [LookupWalk.hit.injEq] at h
        obtain ⟨rfl, _⟩ := h
        exact ⟨hidx, e, hb, hcond.1, hcond.2⟩
      · exact ih _ _ _ _ (Nat.mod_lt _ hc) h

/-- The lookup loop follows the loop of `insert`: on a table that differs from `t` only in
slot `j`, which holds a live entry of the word, the lookup loop hits at `j` whenever the loop
of `insert` on `t` stopped at `j`. -/
theorem lookupWalk_of_insertWalk (t t' : HashTable) (lw : Str) (orig j : Nat) (e' : Entry)
    (hcap : t'.capacity = t.capacity)
    (hb : ∀ i, t'.bucket i = if i = j then some e' else t.bucket i)
    (hw : toLower e'.word = lw) (hd : e'.deleted = false) :
    ∀ fuel idx coll comp coll' c,
      insertWalk t lw orig fuel idx coll comp = InsertWalk.stop j coll' →
      ∃ c', lookupWalk t' lw orig fuel idx c = LookupWalk.hit j c' := by
  intro fuel
  induction fuel with
  | zero => intro idx coll comp coll' c h; simp [insertWalk] at h
  | succ n ih =>
    intro idx coll comp coll' c h
    have hit : idx = j → ∃ c', lookupWalk t' lw orig (n + 1) idx c = LookupWalk.hit j c' := by
      intro hij
      subst hij
      refine ⟨c + 1, ?_⟩
      simp only [lookupWalk, hb, if_true]
      simp [hw, hd]
    simp only [insertWalk] at h
    split at h
    · simp only [InsertWalk.stop.injEq] at h
      exact hit h.1
    · rename_i e hbe
      split_ifs at h with hcond hfull
      · by_cases hij : idx = j
        · exact hit hij
        · obtain ⟨c', hc'⟩ := ih _ _ _ _ (c + 1) h
          refine ⟨c', ?_⟩
          simp only [lookupWalk, hb, if_neg hij, hbe]
          have hn : ¬ (toLower e.word = lw ∧ e.deleted = false) := fun hh => hcond.1 hh.1
          rw [if_neg hn, hcap, if_neg hfull]
          exact hc'
      · simp only [InsertWalk.stop.injEq] at h
        exact hit h.1

/-! ## What the methods do to a table -/

/-- The three ways `insert` ends on a well-formed table when its arguments are not empty:
table full, entry created in an empty or deleted slot, or merged into the live entry of the
word. -/
theorem insert_cases (t : HashTable) (hwf : t.WF) (w m l line : Str) (silent : Bool)
    (hw : w ≠ []) (hm : m ≠ []) (hl : l ≠ []) :
    (∃ coll comp, t.insert w m l line silent
        = ({ t with collisions := coll }, InsertOutcome.full comp)) ∨
    (∃ j coll, j < t.capacity ∧
        insertWalk t (toLower w) (t.hashCode (toLower w)) t.capacity (t.hashCode (toLower w))
          t.collisions 0 = InsertWalk.stop j coll ∧
        (t.bucket j = none ∨ ∃ e, t.bucket j = some e ∧ e.deleted = true) ∧
        t.insert w m l line silent
          = ({ t with buckets := t.buckets.set j (some (Entry.new w m l line)),
                      size := (t.size + 1) % 2 ^ 32, collisions := coll },
             InsertOutcome.created j)) ∨
    (∃ j coll e, j < t.capacity ∧
        insertWalk t (toLower w) (t.hashCode (toLower w)) t.capacity (t.hashCode (toLower w))
          t.collisions 0 = InsertWalk.stop j coll ∧
        t.bucket j = some e ∧ e.deleted = false ∧ toLower e.word = toLower w ∧
        t.insert w m l line silent
          = ({ t with buckets := t.buckets.set j (some (e.addTranslation m l)),
                      collisions := coll },
             InsertOutcome.merged j)) := by
  have hh : t.hashCode (toLower w) < t.capacity := hashCode_lt t hwf.1 _
  have hne : (w.isEmpty || m.isEmpty || l.isEmpty) = false := by
    simp [List.isEmpty_iff, hw, hm, hl]
  cases hwalk : insertWalk t (toLower w) (t.hashCode (toLower w)) t.capacity
      (t.hashCode (toLower w)) t.collisions 0 with
  | outOfFuel =>
    exact absurd hwalk (insertWalk_ne_outOfFuel t _ _ hh _ 0 _ _ _ hwf.1 (by omega)
      (by simp [Nat.mod_eq_of_lt hh]))
  | full coll comp =>
    left
    refine ⟨coll, comp, ?_⟩
    simp only [HashTable.insert, hne, hwalk]
    rfl
  | stop j coll =>
    right
    obtain ⟨hj, hslot⟩ := insertWalk_stop t _ _ hwf.1 _ _ _ _ _ _ hh hwalk
    cases hb : t.bucket j with
    | none =>
      left
      refine ⟨j, coll, hj, rfl, Or.inl hb, ?_⟩
      simp only [HashTable.insert, hne, hwalk, hb]
      rfl
    | some e =>
      by_cases hd : e.deleted = true
      · left
        refine ⟨j, coll, hj, rfl, Or.inr ⟨e, hb, hd⟩, ?_⟩
        simp only [HashTable.insert, hne, hwalk, hb, hd]
        rfl
      · right
        have hd' : e.deleted = false := by simpa using hd
        have hkey : toLower e.word = toLower w := by
          rcases hslot with h | ⟨e2, h2, h3⟩
          · rw [hb] at h; cases h
          · rw [hb] at h2
            cases h2
            rcases h3 with h3 | h3
            · exact absurd h3 hd
            · exact h3
        refine ⟨j, coll, e, hj, rfl, hb, hd', hkey, ?_⟩
        simp only [HashTable.insert, hne, hwalk, hb, hd']
        rfl

/-- The two ways the lookup loop ends on a well-formed table: a miss, or a hit at a slot
holding a live entry of the word. -/
theorem lookup_cases (t : HashTable) (hwf : t.WF) (w : Str) :
    (∃ c, lookupWalk t (toLower w) (t.hashCode (toLower w)) t.capacity
        (t.hashCode (toLower w)) 0 = LookupWalk.miss c) ∨
    (∃ j c e, lookupWalk t (toLower w) (t.hashCode (toLower w)) t.capacity
        (t.hashCode (toLower w)) 0 = LookupWalk.hit j c ∧
      j < t.capacity ∧ t.bucket j = some e ∧ toLower e.word = toLower w ∧ e.deleted = false) := by
  have hh : t.hashCode (toLower w) < t.capacity := hashCode_lt t hwf.1 _
  cases hwalk : lookupWalk t (toLower w) (t.hashCode (toLower w)) t.capacity
      (t.hashCode (toLower w)) 0 with
  | outOfFuel =>
    exact absurd hwalk (lookupWalk_ne_outOfFuel t _ _ hh _ 0 _ _ hwf.1 (by omega)
      (by simp [Nat.mod_eq_of_lt hh]))
  | miss c => exact Or.inl ⟨c, rfl⟩
  | hit j c =>
    right
    obtain ⟨hj, e, hb, hk, hd⟩ := lookupWalk_hit t _ _ hwf.1 _ _ _ _ _ hh hwalk
    exact ⟨j, c, e, rfl, hj, hb, hk, hd⟩

/-! ## Translations of an entry -/

theorem Translation.new_language (m l : Str) : (Translation.new m l).language = l := by
  unfold Translation.new
  split_ifs <;> rfl

theorem Translation.addMeaning_language (tr : Translation) (m : Str) :
    (tr.addMeaning m).language = tr.language := by
  unfold Translation.addMeaning
  split_ifs <;> rfl

theorem Entry.new_deleted (w m l line : Str) : (Entry.new w m l line).deleted = false := by
  unfold Entry.new
  split_ifs <;> rfl

theorem Entry.new_translations (w m l line : Str) :
    (Entry.new w m l line).translations = [Translation.new m l] := by
  unfold Entry.new
  split_ifs <;> rfl

theorem Entry.new_word (w m l line : Str) (hw : w ≠ []) :
    (Entry.new w m l line).word = toLower w := by
  unfold Entry.new
  simp [List.isEmpty_iff, hw]

theorem langUnique_iff (ts : List Translation) :
    langUnique ts ↔ (ts.map (fun tr => toLower tr.language)).Pairwise (fun a b => a ≠ b) := by
  unfold langUnique
  rw [List.pairwise_map]

theorem addTranslationLoop_some_langs (m l : Str) :
    ∀ ts ts', addTranslationLoop m l ts = some ts' →
      ts'.map (fun tr => toLower tr.language) = ts.map (fun tr => toLower tr.language) := by
  intro ts
  induction ts with
  | nil => intro ts' h; simp [addTranslationLoop] at h
  | cons tr rest ih =>
    intro ts' h
    simp only [addTranslationLoop] at h
    split_ifs at h with hlang
    · cases h
      simp [Translation.addMeaning_language]
    · cases hr : addTranslationLoop m l rest with
      | none => simp [hr] at h
      | some r =>
        simp only [hr, Option.map_some', Option.some.injEq] at h
        subst h
        simp [ih r hr]

theorem addTranslationLoop_none (m l : Str) :
    ∀ ts, addTranslationLoop m l ts = none →
      ∀ tr ∈ ts, toLower tr.language ≠ toLower l := by
  intro ts
  induction ts with
  | nil => intro _ tr htr; simp at htr
  | cons a rest ih =>
    intro h tr htr
    simp only [addTranslationLoop] at h
    split_ifs at h with hlang
    cases hr : addTranslationLoop m l rest with
    | some r => simp [hr] at h
    | none =>
      rcases List.mem_cons.1 htr with rfl | hmem
      · exact hlang
      · exact ih hr tr hmem

theorem addTranslationLoop_some_mem (m l : Str) :
    ∀ ts ts', addTranslationLoop m l ts = some ts' →
      ∃ tr ∈ ts', toLower tr.language = toLower l := by
  intro ts
  induction ts with
  | nil => intro ts' h; simp [addTranslationLoop] at h
  | cons a rest ih =>
    intro ts' h
    simp only [addTranslationLoop] at h
    split_ifs at h with hlang
    · cases h
      exact ⟨a.addMeaning m, List.mem_cons_self _ _, by rw [Translation.addMeaning_language]; exact hlang⟩
    · cases hr : addTranslationLoop m l rest with
      | none => simp [hr] at h
      | some r =>
        simp only [hr, Option.map_some', Option.some.injEq] at h
        subst h
        obtain ⟨tr, htr, hl⟩ := ih r hr
        exact ⟨tr, List.mem_cons_of_mem _ htr, hl⟩

theorem Entry.addTranslation_deleted (e : Entry) (m l : Str) :
    (e.addTranslation m l).deleted = e.deleted := by
  unfold Entry.addTranslation
  split_ifs
  · rfl
  · split <;> rfl

theorem Entry.addTranslation_word (e : Entry) (m l : Str) :
    (e.addTranslation m l).word = e.word := by
  unfold Entry.addTranslation
  split_ifs
  · rfl
  · split <;> rfl

theorem Entry.addTranslation_langUnique (e : Entry) (m l : Str)
    (h : langUnique e.translations) : langUnique (e.addTranslation m l).translations := by
  unfold Entry.addTranslation
  split_ifs
  · exact h
  · split
    · rename_i ts hts
      simp only
      rw [langUnique_iff, addTranslationLoop_some_langs m l _ _ hts, ← langUnique_iff]
      exact h
    · rename_i hts
      simp only
      unfold langUnique
      rw [List.pairwise_append]
      refine ⟨h, List.pairwise_singleton _ _, ?_⟩
      intro a ha b hb
      simp only [List.mem_singleton] at hb
      subst hb
      rw [Translation.new_language]
      exact addTranslationLoop_none m l _ hts a ha

theorem Entry.addTranslation_mem (e : Entry) (m l : Str) (hm : m ≠ []) (hl : l ≠ []) :
    ∃ tr ∈ (e.addTranslation m l).translations, toLower tr.language = toLower l := by
  unfold Entry.addTranslation
  rw [if_neg (by simp [List.isEmpty_iff, hm, hl])]
  split
  · rename_i ts hts
    exact addTranslationLoop_some_mem m l _ _ hts
  · exact ⟨Translation.new m l, by simp, by rw [Translation.new_language]⟩

theorem eraseTranslation_sublist (ll : Str) :
    ∀ ts ts', eraseTranslation ll ts = some ts' → ts'.Sublist ts := by
  intro ts
  induction ts with
  | nil => intro ts' h; simp [eraseTranslation] at h
  | cons a rest ih =>
    intro ts' h
    simp only [eraseTranslation] at h
    split_ifs at h with hlang
    · cases h
      exact List.sublist_cons_self _ _
    · cases hr : eraseTranslation ll rest with
      | none => simp [hr] at h
      | some r =>
        simp only [hr, Option.map_some', Option.some.injEq] at h
        subst h
        exact (ih r hr).cons₂ a

theorem delMeaningLoop_langs (mn ll : Str) :
    ∀ ts ts', delMeaningLoop mn ll ts = some ts' →
      (ts'.map (fun tr => toLower tr.language)).Sublist
        (ts.map (fun tr => toLower tr.language)) := by
  intro ts
  induction ts with
  | nil => intro ts' h; simp [delMeaningLoop] at h
  | cons a rest ih =>
    intro ts' h
    have hrec : ∀ ts', (delMeaningLoop mn ll rest).map (fun ts => a :: ts) = some ts' →
        (ts'.map (fun tr => toLower tr.language)).Sublist
          ((a :: rest).map (fun tr => toLower tr.language)) := by
      intro ts' h
      cases hr : delMeaningLoop mn ll rest with
      | none => simp [hr] at h
      | some r =>
        simp only [hr, Option.map_some', Option.some.injEq] at h
        subst h
        simpa using (ih r hr).cons₂ (toLower a.language)
    simp only [delMeaningLoop] at h
    split_ifs at h with hlang
    · split at h
      · rename_i ms hms
        simp only [Option.some.injEq] at h
        subst h
        split_ifs
        · simp
        · simp
      · exact hrec ts' h
    · exact hrec ts' h

/-! ## The invariant of the reachable tables -/

theorem liveCount_set (t : HashTable) (j : Nat) (hj : j < t.buckets.length) (x : Option Entry) :
    liveCount (t.buckets.set j x) + (if isLive (t.bucket j) then 1 else 0)
      = liveCount t.buckets + (if isLive x then 1 else 0) :=
  countP_set isLive t.buckets j x none hj

theorem inv_set (t : HashTable) (h : t.Inv) (j : Nat) (e' : Entry)
    (hl : langUnique e'.translations) (sz coll : Nat)
    (hsz : sz = liveCount (t.buckets.set j (some e'))) :
    HashTable.Inv { t with buckets := t.buckets.set j (some e'), size := sz, collisions := coll } := by
  obtain ⟨⟨h1, h2, h3⟩, _, h5⟩ := h
  refine ⟨⟨h1, h2, ?_⟩, hsz, ?_⟩
  · simpa using h3
  · intro e he
    rcases List.mem_or_eq_of_mem_set he with hmem | heq
    · exact h5 e hmem
    · cases heq
      exact hl

theorem inv_collisions (t : HashTable) (h : t.Inv) (coll : Nat) :
    HashTable.Inv { t with collisions := coll } := h

theorem new_inv (capacity : Nat) (hcap : capacity < 2 ^ 32) : (HashTable.new capacity).Inv := by
  unfold HashTable.new
  refine ⟨⟨?_, ?_, ?_⟩, ?_, ?_⟩
  · simp only
    split_ifs <;> omega
  · simp only
    split_ifs
    · norm_num
    · exact hcap
  · simp
  · simp [liveCount, List.countP_replicate, isLive]
  · intro e he
    simp [List.mem_replicate] at he

theorem insert_inv (t : HashTable) (h : t.Inv) (w m l line : Str) (silent : Bool) :
    (t.insert w m l line silent).1.Inv := by
  by_cases hne : (w.isEmpty || m.isEmpty || l.isEmpty) = true
  · simp only [HashTable.insert, hne, if_true]
    exact h
  · have hw : w ≠ [] := by intro h0; simp [h0] at hne
    have hm : m ≠ [] := by intro h0; simp [h0] at hne
    have hl : l ≠ [] := by intro h0; simp [h0] at hne
    have hlen := h.1.2.2
    rcases insert_cases t h.1 w m l line silent hw hm hl with
      ⟨coll, comp, heq⟩ | ⟨j, coll, hj, _, hslot, heq⟩ | ⟨j, coll, e, hj, _, hb, hd, _, heq⟩
    · rw [heq]
      exact inv_collisions t h coll
    · rw [heq]
      apply inv_set t h
      · rw [Entry.new_translations]
        exact List.pairwise_singleton _ _
      · have hc := liveCount_set t j (by omega) (some (Entry.new w m l line))
        have hold : isLive (t.bucket j) = false := by
          rcases hslot with h0 | ⟨e, h0, hd⟩
          · rw [h0]; rfl
          · rw [h0]; simp [isLive, hd]
        have hnew : isLive (some (Entry.new w m l line)) = true := by
          simp [isLive, Entry.new_deleted]
        rw [hold, hnew] at hc
        simp only [if_true] at hc
        have hle := liveCount_le (t.buckets.set j (some (Entry.new w m l line)))
        rw [List.length_set] at hle
        have h2 := h.1.2.1
        have hs := h.2.1
        simp only [Bool.false_eq_true, if_false] at hc
        omega
    · rw [heq]
      apply inv_set t h
      · exact Entry.addTranslation_langUnique e m l (h.2.2 e (bucket_eq_some_mem hb))
      · have hc := liveCount_set t j (by omega) (some (e.addTranslation m l))
        have hold : isLive (t.bucket j) = true := by
          rw [hb]; simp [isLive, hd]
        have hnew : isLive (some (e.addTranslation m l)) = true := by
          simp [isLive, Entry.addTranslation_deleted, hd]
        rw [hold, hnew] at hc
        have hs := h.2.1
        simp only [if_true] at hc
        omega

theorem delWord_inv (t : HashTable) (h : t.Inv) (w : Str) : (t.delWord w).1.Inv := by
  unfold HashTable.delWord
  split_ifs
  · exact h
  · simp only
    rcases lookup_cases t h.1 w with ⟨c, hwalk⟩ | ⟨j, c, e, hwalk, hj, hb, _, hd⟩
    · rw [hwalk]
      exact h
    · rw [hwalk]
      simp only [hb]
      apply inv_set t h
      · exact h.2.2 e (bucket_eq_some_mem hb)
      · have hlen := h.1.2.2
        have hc := liveCount_set t j (by omega) (some e.markDeleted)
        have hold : isLive (t.bucket j) = true := by
          rw [hb]; simp [isLive, hd]
        have hnew : isLive (some e.markDeleted) = false := by
          simp [isLive, Entry.markDeleted]
        rw [hold, hnew] at hc
        simp only [if_true, Bool.false_eq_true, if_false] at hc
        have hle := liveCount_le t.buckets
        have h2 := h.1.2.1
        have hs := h.2.1
        omega

theorem delTranslation_inv (t : HashTable) (h : t.Inv) (w l : Str) :
    (t.delTranslation w l).1.Inv := by
  unfold HashTable.delTranslation
  split_ifs
  · exact h
  · simp only
    rcases lookup_cases t h.1 w with ⟨c, hwalk⟩ | ⟨j, c, e, hwalk, hj, hb, _, hd⟩
    · rw [hwalk]
      exact h
    · rw [hwalk]
      simp only [hb]
      split
      · rename_i ts hts
        apply inv_set t h
        · exact List.Pairwise.sublist (eraseTranslation_sublist _ _ _ hts)
            (h.2.2 e (bucket_eq_some_mem hb))
        · have hlen := h.1.2.2
          have hc := liveCount_set t j (by omega) (some { e with translations := ts })
          have hold : isLive (t.bucket j) = true := by
            rw [hb]; simp [isLive, hd]
          have hnew : isLive (some { e with translations := ts }) = true := by
            simp [isLive, hd]
          rw [hold, hnew] at hc
          have hs := h.2.1
          simp only [if_true] at hc
          omega
      · exact h

theorem delMeaning_inv (t : HashTable) (h : t.Inv) (w mn l : Str) :
    (t.delMeaning w mn l).1.Inv := by
  unfold HashTable.delMeaning
  split_ifs
  · exact h
  · simp only
    rcases lookup_cases t h.1 w with ⟨c, hwalk⟩ | ⟨j, c, e, hwalk, hj, hb, _, hd⟩
    · rw [hwalk]
      exact h
    · rw [hwalk]
      simp only [hb]
      split
      · rename_i ts hts
        apply inv_set t h
        · have := h.2.2 e (bucket_eq_some_mem hb)
          rw [langUnique_iff] at this ⊢
          exact List.Pairwise.sublist (delMeaningLoop_langs _ _ _ _ hts) this
        · have hlen := h.1.2.2
          have hc := liveCount_set t j (by omega) (some { e with translations := ts })
          have hold : isLive (t.bucket j) = true := by
            rw [hb]; simp [isLive, hd]
          have hnew : isLive (some { e with translations := ts }) = true := by
            simp [isLive, hd]
          rw [hold, hnew] at hc
          have hs := h.2.1
          simp only [if_true] at hc
          omega
      · exact h

theorem importLine_inv (language : Str) (acc : HashTable × Nat) (h : acc.1.Inv) (line : Str) :
    (importLine language acc line).1.Inv := by
  unfold importLine
  split_ifs
  · exact h
  · simp only
    split_ifs <;> first | exact h | exact insert_inv _ h _ _ _ _ _
  · exact h

theorem importLines_inv (language : Str) (lines : List Str) :
    ∀ acc : HashTable × Nat, acc.1.Inv → (lines.foldl (importLine language) acc).1.Inv := by
  induction lines with
  | nil => intro acc h; exact h
  | cons line rest ih =>
    intro acc h
    exact ih _ (importLine_inv language acc h line)

theorem importData_inv (t : HashTable) (h : t.Inv) (path : Str) (file : Option Str) :
    (t.importData path file).1.Inv := by
  unfold HashTable.importData
  split_ifs
  · exact h
  · split
    · exact h
    · split
      · exact h
      · split_ifs
        · exact h
        · exact importLines_inv _ _ _ h

theorem apply_inv (t : HashTable) (h : t.Inv) (op : Op) : (t.apply op).Inv := by
  cases op with
  | insert w m l line silent => exact insert_inv t h w m l line silent
  | addWord w m l => exact insert_inv t h _ _ _ _ _
  | importData path file => exact importData_inv t h path file
  | delWord w => exact delWord_inv t h w
  | delTranslation w l => exact delTranslation_inv t h w l
  | delMeaning w m l => exact delMeaning_inv t h w m l

theorem foldl_apply_inv (ops : List Op) :
    ∀ t : HashTable, t.Inv → (ops.foldl HashTable.apply t).Inv := by
  induction ops with
  | nil => intro t h; exact h
  | cons op rest ih =>
    intro t h
    exact ih _ (apply_inv t h op)

theorem run_inv (capacity : Nat) (hcap : capacity < 2 ^ 32) (ops : List Op) :
    (run capacity ops).Inv :=
  foldl_apply_inv ops _ (new_inv capacity hcap)

theorem bucket_set (t : HashTable) (j : Nat) (hj : j < t.buckets.length) (x : Option Entry)
    (sz coll i : Nat) :
    HashTable.bucket { t with buckets := t.buckets.set j x, size := sz, collisions := coll } i
      = if i = j then x else t.bucket i :=
  getD_set t.buckets j x none hj i

/-- The two ways `delWord` ends on a well-formed table for a word that is not empty. -/
theorem delWord_cases (t : HashTable) (hwf : t.WF) (w : Str) (hw : w ≠ []) :
    ((∃ c, lookupWalk t (toLower w) (t.hashCode (toLower w)) t.capacity
        (t.hashCode (toLower w)) 0 = LookupWalk.miss c) ∧
      t.delWord w = (t, DelResult.wordNotFound)) ∨
    (∃ j c e, lookupWalk t (toLower w) (t.hashCode (toLower w)) t.capacity
        (t.hashCode (toLower w)) 0 = LookupWalk.hit j c ∧
      j < t.capacity ∧ t.bucket j = some e ∧ toLower e.word = toLower w ∧ e.deleted = false ∧
      t.delWord w = ({ t with buckets := t.buckets.set j (some e.markDeleted),
                              size := (t.size + 2 ^ 32 - 1) % 2 ^ 32 }, DelResult.deleted)) := by
  have hne : ¬ w.isEmpty = true := by simp [List.isEmpty_iff, hw]
  rcases lookup_cases t hwf w with ⟨c, hwalk⟩ | ⟨j, c, e, hwalk, hj, hb, hk, hd⟩
  · left
    refine ⟨⟨c, hwalk⟩, ?_⟩
    unfold HashTable.delWord
    rw [if_neg hne]
    simp only [hwalk]
  · right
    refine ⟨j, c, e, hwalk, hj, hb, hk, hd, ?_⟩
    unfold HashTable.delWord
    rw [if_neg hne]
    simp only [hwalk, hb]

theorem delWord_empty (t : HashTable) : t.delWord [] = (t, DelResult.invalid) := rfl

theorem hashCode_congr (t t' : HashTable) (hcap : t'.capacity = t.capacity) (w : Str) :
    t'.hashCode w = t.hashCode w := by
  unfold HashTable.hashCode
  rw [hcap]

/-- A lookup after an insertion: on a table that differs from `t` only in slot `j`, where the
loop of `insert` for `w` stopped and which now holds a live entry of `w`, `find` of any case
variant of `w` reports that entry. -/
theorem find_of_insertWalk (t t' : HashTable) (w w' : Str) (j coll0 coll : Nat) (e' : Entry)
    (hcap : t'.capacity = t.capacity)
    (hb : ∀ i, t'.bucket i = if i = j then some e' else t.bucket i)
    (hw : toLower e'.word = toLower w) (hd : e'.deleted = false)
    (hcase : toLower w' = toLower w) (hw' : w' ≠ [])
    (hwalk : insertWalk t (toLower w) (t.hashCode (toLower w)) t.capacity
      (t.hashCode (toLower w)) coll0 0 = InsertWalk.stop j coll) :
    ∃ c, t'.find w' = FindResult.found c e'.translations := by
  obtain ⟨c, hc⟩ := lookupWalk_of_insertWalk t t' (toLower w) (t.hashCode (toLower w)) j e'
    hcap hb hw hd _ _ _ _ _ 0 hwalk
  refine ⟨c, ?_⟩
  have hne : ¬ w'.isEmpty = true := by simp [List.isEmpty_iff, hw']
  unfold HashTable.find
  rw [if_neg hne]
  simp only [hcase, hashCode_congr t t' hcap, hcap, hc, hb, if_true]

theorem addTranslationLoop_append (m l : Str) (tr : Translation) (post : List Translation)
    (htr : toLower tr.language = toLower l) :
    ∀ pre : List Translation, (∀ p ∈ pre, toLower p.language ≠ toLower l) →
      addTranslationLoop m l (pre ++ tr :: post) = some (pre ++ tr.addMeaning m :: post) := by
  intro pre
  induction pre with
  | nil =>
    intro _
    simp [addTranslationLoop, htr]
  | cons a rest ih =>
    intro hpre
    have ha : toLower a.language ≠ toLower l := hpre a (List.mem_cons_self _ _)
    have hrest := ih (fun p hp => hpre p (List.mem_cons_of_mem _ hp))
    simp [addTranslationLoop, ha, hrest]

theorem Translation.addMeaning_eq (tr : Translation) (m : Str) (hm : m ≠ []) :
    tr.addMeaning m
      = { tr with meanings := if tr.meanings.any (fun x => toLower x = toLower m) then tr.meanings
                               else tr.meanings ++ [m] } := by
  unfold Translation.addMeaning
  rw [if_neg (by simp [List.isEmpty_iff, hm])]
  split_ifs <;> rfl

theorem insertWalk_here_none (t : HashTable) (lw : Str) (orig fuel idx coll comp : Nat)
    (hfuel : 0 < fuel) (hb : t.bucket idx = none) :
    insertWalk t lw orig fuel idx coll comp = InsertWalk.stop idx coll := by
  cases fuel with
  | zero => omega
  | succ n => simp [insertWalk, hb]

theorem insertWalk_here_key (t : HashTable) (lw : Str) (orig fuel idx coll comp : Nat) (e : Entry)
    (hfuel : 0 < fuel) (hb : t.bucket idx = some e) (hk : toLower e.word = lw) :
    insertWalk t lw orig fuel idx coll comp = InsertWalk.stop idx coll := by
  cases fuel with
  | zero => omega
  | succ n => simp [insertWalk, hb, hk]

theorem new_bucket (capacity i : Nat) : (HashTable.new capacity).bucket i = none := by
  unfold HashTable.new HashTable.bucket
  simp only [List.getD_eq_getElem?_getD]
  cases h : (List.replicate (if capacity ≤ 0 then 1171891 else capacity) (none : Option Entry))[i]? with
  | none => rfl
  | some v =>
    have := List.getElem?_mem h
    rw [List.mem_replicate] at this
    simp [this.2]

/-- An insertion whose start slot is empty creates the entry there. -/
theorem insert_created_of_none (t : HashTable) (hpos : 0 < t.capacity) (w m l line : Str)
    (silent : Bool) (hw : w ≠ []) (hm : m ≠ []) (hl : l ≠ [])
    (hb : t.bucket (t.hashCode (toLower w)) = none) :
    t.insert w m l line silent
      = ({ t with buckets := t.buckets.set (t.hashCode (toLower w)) (some (Entry.new w m l line)),
                  size := (t.size + 1) % 2 ^ 32, collisions := t.collisions },
         InsertOutcome.created (t.hashCode (toLower w))) := by
  have hne : (w.isEmpty || m.isEmpty || l.isEmpty) = false := by
    simp [List.isEmpty_iff, hw, hm, hl]
  simp only [HashTable.insert, hne, insertWalk_here_none _ _ _ _ _ _ _ hpos hb, hb]
  rfl

/-- An insertion whose start slot holds a live entry of the word merges into it. -/
theorem insert_merged_of_key (t : HashTable) (hpos : 0 < t.capacity) (w m l line : Str)
    (silent : Bool) (hw : w ≠ []) (hm : m ≠ []) (hl : l ≠ []) (e : Entry)
    (hb : t.bucket (t.hashCode (toLower w)) = some e) (hk : toLower e.word = toLower w)
    (hd : e.deleted = false) :
    t.insert w m l line silent
      = ({ t with buckets := t.buckets.set (t.hashCode (toLower w)) (some (e.addTranslation m l)),
                  collisions := t.collisions },
         InsertOutcome.merged (t.hashCode (toLower w))) := by
  have hne : (w.isEmpty || m.isEmpty || l.isEmpty) = false := by
    simp [List.isEmpty_iff, hw, hm, hl]
  simp only [HashTable.insert, hne, insertWalk_here_key _ _ _ _ _ _ _ e hpos hb hk, hb, hd]
  rfl

theorem new_wf (capacity : Nat) :
    0 < (HashTable.new capacity).capacity ∧
      (HashTable.new capacity).buckets.length = (HashTable.new capacity).capacity := by
  unfold HashTable.new
  refine ⟨?_, by simp⟩
  simp only
  split_ifs <;> omega



/-- Merging `X` into the entry that `insert w x l` created leaves the single meaning `x`. -/
theorem insert_X_after_x (t1 : HashTable) (hpos : 0 < t1.capacity) (w l line line' : Str)
    (silent' : Bool) (hw : w ≠ []) (hl : l ≠ [])
    (hb : t1.bucket (t1.hashCode (toLower w)) = some (Entry.new w (ascii "x") l line)) :
    (t1.insert w (ascii "X") l line' silent').1.bucket (t1.hashCode (toLower w))
      = some (Entry.mk (toLower w) w line [Translation.mk l [ascii "x"]] false) := by
  have hX : ascii "X" ≠ [] := by decide
  rw [insert_merged_of_key t1 hpos w _ l line' silent' hw hX hl
    (Entry.new w (ascii "x") l line) hb
    (by rw [Entry.new_word _ _ _ _ hw, toLower_toLower]) (Entry.new_deleted _ _ _ _)]
  simp only [bucket_set t1 _ (bucket_lt hb), if_true]
  have hnew : Entry.new w (ascii "x") l line
      = Entry.mk (toLower w) w line [Translation.mk l [ascii "x"]] false := by
    unfold Entry.new
    rw [if_neg (by simp [List.isEmpty_iff, hw])]
    rfl
  have hadd : Translation.addMeaning (Translation.mk l [ascii "x"]) (ascii "X")
      = Translation.mk l [ascii "x"] := by
    unfold Translation.addMeaning
    rw [if_neg (by decide),
      if_pos (show ([ascii "x"].any fun existing =>
        decide (toLower existing = toLower (ascii "X"))) = true by decide)]
  rw [hnew]
  unfold Entry.addTranslation
  rw [if_neg (by simp [List.isEmpty_iff, hl, hX])]
  simp only [addTranslationLoop, if_true, hadd]

/-! ## The collision counter and the full table -/

theorem mod_add_ne (cap orig j : Nat) (ho : orig < cap) (hj : 0 < j) (hj' : j < cap) :
    (orig + j) % cap ≠ orig := by
  by_cases h : orig + j < cap
  · rw [Nat.mod_eq_of_lt h]
    omega
  · rw [Nat.mod_eq_sub_mod (by omega), Nat.mod_eq_of_lt (by omega)]
    omega

/-- The collision counter after the loop of `insert`: the counter before plus the number of
advances, which is at most the fuel, modulo `2 ^ 32`. -/
theorem insertWalk_collisions (t : HashTable) (lw : Str) (orig : Nat) :
    ∀ fuel idx coll comp, coll < 2 ^ 32 →
      (∀ j c, insertWalk t lw orig fuel idx coll comp = InsertWalk.stop j c →
        ∃ k, k ≤ fuel ∧ c = (coll + k) % 2 ^ 32) ∧
      (∀ c cmp, insertWalk t lw orig fuel idx coll comp = InsertWalk.full c cmp →
        ∃ k, k ≤ fuel ∧ c = (coll + k) % 2 ^ 32) := by
  intro fuel
  induction fuel with
  | zero => intro idx coll comp _; simp [insertWalk]
  | succ n ih =>
    intro idx coll comp hlt
    have hstep : ∀ c k, k ≤ n → c = ((coll + 1) % 2 ^ 32 + k) % 2 ^ 32 →
        ∃ k, k ≤ n + 1 ∧ c = (coll + k) % 2 ^ 32 := by
      intro c k hk hc
      refine ⟨k + 1, by omega, ?_⟩
      rw [hc]
      omega
    simp only [insertWalk]
    cases hb : t.bucket idx with
    | none =>
      simp only [InsertWalk.stop.injEq, and_imp, reduceCtorEq, false_implies, implies_true,
        and_true]
      intro j c _ hc
      exact ⟨0, by omega, by rw [← hc]; omega⟩
    | some e =>
      simp only
      split_ifs with hc hfull
      · simp only [reduceCtorEq, false_implies, implies_true, true_and, InsertWalk.full.injEq,
          and_imp]
        intro c cmp hc' _
        exact ⟨1, by omega, hc'.symm⟩
      · obtain ⟨h1, h2⟩ := ih ((idx + 1) % t.capacity) ((coll + 1) % 2 ^ 32)
          ((comp + 1) % 2 ^ 32) (Nat.mod_lt _ (by norm_num))
        constructor
        · intro j c h
          obtain ⟨k, hk, hc'⟩ := h1 j c h
          exact hstep c k hk hc'
        · intro c cmp h
          obtain ⟨k, hk, hc'⟩ := h2 c cmp h
          exact hstep c k hk hc'
      · simp only [InsertWalk.stop.injEq, and_imp, reduceCtorEq, false_implies, implies_true,
          and_true]
        intro j c _ hc
        exact ⟨0, by omega, by rw [← hc]; omega⟩

/-- The loop of `insert` on a table whose slots all hold live entries of other words: it
advances through every slot and ends in the table-full condition. -/
theorem insertWalk_full_of_all_live (t : HashTable) (lw : Str) (orig : Nat)
    (ho : orig < t.capacity)
    (hall : ∀ i, i < t.capacity →
      ∃ e, t.bucket i = some e ∧ e.deleted = false ∧ toLower e.word ≠ lw) :
    ∀ fuel k coll comp, 0 < fuel → k + fuel = t.capacity →
      insertWalk t lw orig fuel ((orig + k) % t.capacity) coll comp
        = InsertWalk.full ((coll + fuel) % 2 ^ 32) ((comp + fuel) % 2 ^ 32) := by
  have hcap : 0 < t.capacity := by omega
  intro fuel
  induction fuel with
  | zero => intro k coll comp h; omega
  | succ n ih =>
    intro k coll comp _ hk
    obtain ⟨e, hb, hd, hne⟩ := hall ((orig + k) % t.capacity) (Nat.mod_lt _ hcap)
    simp only [insertWalk, hb]
    rw [if_pos ⟨hne, hd⟩, step_idx]
    by_cases hn : n = 0
    · subst hn
      have h1 : orig + (k + 1) = orig + t.capacity := by omega
      rw [h1, Nat.add_mod_right, Nat.mod_eq_of_lt ho, if_pos rfl]
    · rw [if_neg (mod_add_ne t.capacity orig (k + 1) ho (by omega) (by omega)),
        ih (k + 1) _ _ (by omega) (by omega)]
      congr 1 <;> omega

theorem insert_invalid (t : HashTable) (w m l line : Str) (silent : Bool)
    (h : w = [] ∨ m = [] ∨ l = []) : t.insert w m l line silent = (t, InsertOutcome.invalid) := by
  have hne : (w.isEmpty || m.isEmpty || l.isEmpty) = true := by
    rcases h with h | h | h <;> simp [h]
  simp only [HashTable.insert, hne, if_true]

theorem insert_capacity (t : HashTable) (w m l line : Str) (silent : Bool) :
    (t.insert w m l line silent).1.capacity = t.capacity := by
  unfold HashTable.insert
  split_ifs
  · rfl
  · simp only
    split
    · rfl
    · rfl
    · split
      · rfl
      · split_ifs <;> rfl

/-- The collision counter after `insert`: the counter before plus the number of advances of
the probing loop, at most the capacity, modulo `2 ^ 32`. -/
theorem insert_collisions (t : HashTable) (hcoll : t.collisions < 2 ^ 32) (w m l line : Str)
    (silent : Bool) :
    ∃ k, k ≤ t.capacity ∧
      (t.insert w m l line silent).1.collisions = (t.collisions + k) % 2 ^ 32 := by
  have h0 : ∃ k, k ≤ t.capacity ∧ t.collisions = (t.collisions + k) % 2 ^ 32 :=
    ⟨0, by omega, by omega⟩
  obtain ⟨h1, h2⟩ := insertWalk_collisions t (toLower w) (t.hashCode (toLower w)) t.capacity
    (t.hashCode (toLower w)) t.collisions 0 hcoll
  unfold HashTable.insert
  split_ifs
  · exact h0
  · simp only
    split
    · exact h0
    · rename_i c cmp hwalk
      exact h2 c cmp hwalk
    · rename_i j c hwalk
      have := h1 j c hwalk
      split
      · exact this
      · split_ifs <;> exact this

/-- The insertion into a table whose slots all hold live entries of other words: table full,
nothing written, and the collision counter advanced by the capacity. -/
theorem insert_full_of_all_live (t : HashTable) (hwf : t.WF) (w m l line : Str) (silent : Bool)
    (hw : w ≠ []) (hm : m ≠ []) (hl : l ≠ [])
    (hall : ∀ i, i < t.capacity →
      ∃ e, t.bucket i = some e ∧ e.deleted = false ∧ toLower e.word ≠ toLower w) :
    t.insert w m l line silent
      = ({ t with collisions := (t.collisions + t.capacity) % 2 ^ 32 },
         InsertOutcome.full t.capacity) := by
  have hne : (w.isEmpty || m.isEmpty || l.isEmpty) = false := by
    simp [List.isEmpty_iff, hw, hm, hl]
  have hh : t.hashCode (toLower w) < t.capacity := hashCode_lt t hwf.1 _
  have hwalk := insertWalk_full_of_all_live t (toLower w) (t.hashCode (toLower w)) hh hall
    t.capacity 0 t.collisions 0 hwf.1 (by omega)
  rw [Nat.add_zero, Nat.mod_eq_of_lt hh] at hwalk
  simp only [HashTable.insert, hne, hwalk]
  have h2 := hwf.2.1
  simp only [Bool.false_eq_true, if_false, Nat.zero_add, Nat.mod_eq_of_lt h2]

/-- Repeating an insertion that finds the table full only moves the collision counter. -/
theorem foldl_full_inserts (t : HashTable) (hwf : t.WF) (w m l line : Str) (silent : Bool)
    (hw : w ≠ []) (hm : m ≠ []) (hl : l ≠ [])
    (hall : ∀ i, i < t.capacity →
      ∃ e, t.bucket i = some e ∧ e.deleted = false ∧ toLower e.word ≠ toLower w) :
    ∀ n c, c < 2 ^ 32 →
      (List.replicate n (Op.insert w m l line silent)).foldl HashTable.apply
          { t with collisions := c }
        = { t with collisions := (c + n * t.capacity) % 2 ^ 32 } := by
  intro n
  induction n with
  | zero =>
    intro c hc
    simp only [List.replicate_zero, List.foldl_nil, Nat.zero_mul, Nat.add_zero,
      Nat.mod_eq_of_lt hc]
  | succ n ih =>
    intro c hc
    rw [List.replicate_succ, List.foldl_cons]
    have hstep : HashTable.apply { t with collisions := c } (Op.insert w m l line silent)
        = { t with collisions := (c + t.capacity) % 2 ^ 32 } := by
      simp only [HashTable.apply]
      rw [insert_full_of_all_live { t with collisions := c } hwf w m l line silent hw hm hl hall]
    rw [hstep, ih _ (Nat.mod_lt _ (by norm_num))]
    congr 1
    rw [Nat.mod_add_mod]
    congr 1
    rw [Nat.succ_mul]
    omega

theorem importLine_collisions (language : Str) (acc : HashTable × Nat) (line : Str)
    (hcoll : acc.1.collisions < 2 ^ 32) :
    (importLine language acc line).1.capacity = acc.1.capacity ∧
    ∃ k, k ≤ acc.1.capacity ∧
      (importLine language acc line).1.collisions = (acc.1.collisions + k) % 2 ^ 32 := by
  have h0 : acc.1.capacity = acc.1.capacity ∧
      ∃ k, k ≤ acc.1.capacity ∧ acc.1.collisions = (acc.1.collisions + k) % 2 ^ 32 :=
    ⟨rfl, 0, by omega, by omega⟩
  unfold importLine
  split_ifs
  · exact h0
  · simp only
    split_ifs <;>
      first
        | exact h0
        | exact ⟨insert_capacity _ _ _ _ _ _, insert_collisions _ hcoll _ _ _ _ _⟩
  · exact h0

theorem importLines_collisions (language : Str) (lines : List Str) :
    ∀ acc : HashTable × Nat, acc.1.collisions + lines.length * acc.1.capacity < 2 ^ 32 →
      (lines.foldl (importLine language) acc).1.capacity = acc.1.capacity ∧
      acc.1.collisions ≤ (lines.foldl (importLine language) acc).1.collisions ∧
      (lines.foldl (importLine language) acc).1.collisions
        ≤ acc.1.collisions + lines.length * acc.1.capacity := by
  induction lines with
  | nil => intro acc _; simp
  | cons line rest ih =>
    intro acc h
    rw [List.length_cons, Nat.succ_mul] at h
    obtain ⟨hcap, k, hk, hc⟩ := importLine_collisions language acc line (by omega)
    rw [Nat.mod_eq_of_lt (by omega)] at hc
    obtain ⟨h1, h2, h3⟩ := ih (importLine language acc line) (by rw [hcap, hc]; omega)
    rw [List.foldl_cons, List.length_cons, Nat.succ_mul]
    rw [hcap] at h1 h3
    exact ⟨h1, by omega, by omega⟩

theorem importData_collisions (t : HashTable) (path content : Str)
    (h : t.collisions + (getlineAll 10 content []).length * t.capacity < 2 ^ 32) :
    t.collisions ≤ (t.importData path (some content)).1.collisions := by
  unfold HashTable.importData
  split_ifs
  · exact Nat.le_refl _
  · simp only
    split
    · exact Nat.le_refl _
    · rename_i language lines hl
      split_ifs
      · exact Nat.le_refl _
      · rw [hl, List.length_cons, Nat.succ_mul] at h
        exact (importLines_collisions language lines (t, 0) (by simp only; omega)).2.1

/-! ## The deleting methods -/

theorem exists_first {α : Type} (p : α → Prop) [DecidablePred p] :
    ∀ l : List α, (∃ x, x ∈ l ∧ p x) →
      ∃ pre y post, l = pre ++ y :: post ∧ p y ∧ ∀ z, z ∈ pre → ¬ p z := by
  intro l
  induction l with
  | nil => intro h; obtain ⟨x, hx, _⟩ := h; simp at hx
  | cons a rest ih =>
    intro h
    by_cases ha : p a
    · exact ⟨[], a, rest, rfl, ha, by simp⟩
    · obtain ⟨x, hx, hpx⟩ := h
      rcases List.mem_cons.1 hx with rfl | hmem
      · exact absurd hpx ha
      · obtain ⟨pre, y, post, hl, hy, hpre⟩ := ih ⟨x, hmem, hpx⟩
        refine ⟨a :: pre, y, post, by rw [hl]; rfl, hy, ?_⟩
        intro z hz
        rcases List.mem_cons.1 hz with rfl | hz
        · exact ha
        · exact hpre z hz

theorem eraseTranslation_none (ll : Str) :
    ∀ ts : List Translation, (∀ tr, tr ∈ ts → toLower tr.language ≠ ll) →
      eraseTranslation ll ts = none := by
  intro ts
  induction ts with
  | nil => intro _; rfl
  | cons a rest ih =>
    intro h
    simp only [eraseTranslation]
    rw [if_neg (h a (List.mem_cons_self _ _)), ih (fun tr htr => h tr (List.mem_cons_of_mem _ htr))]
    rfl

theorem eraseTranslation_append (ll : Str) (tr : Translation) (post : List Translation)
    (htr : toLower tr.language = ll) :
    ∀ pre : List Translation, (∀ p, p ∈ pre → toLower p.language ≠ ll) →
      eraseTranslation ll (pre ++ tr :: post) = some (pre ++ post) := by
  intro pre
  induction pre with
  | nil => intro _; simp [eraseTranslation, htr]
  | cons a rest ih =>
    intro h
    have ha := h a (List.mem_cons_self _ _)
    have hr := ih (fun p hp => h p (List.mem_cons_of_mem _ hp))
    simp [eraseTranslation, ha, hr]

theorem eraseMeaning_none (m : Str) :
    ∀ ms : List Str, (∀ x, x ∈ ms → toLower x ≠ toLower m) → eraseMeaning m ms = none := by
  intro ms
  induction ms with
  | nil => intro _; rfl
  | cons a rest ih =>
    intro h
    simp only [eraseMeaning]
    rw [if_neg (h a (List.mem_cons_self _ _)), ih (fun x hx => h x (List.mem_cons_of_mem _ hx))]
    rfl

theorem eraseMeaning_append (m y : Str) (mpost : List Str) (hy : toLower y = toLower m) :
    ∀ mpre : List Str, (∀ z, z ∈ mpre → toLower z ≠ toLower m) →
      eraseMeaning m (mpre ++ y :: mpost) = some (mpre ++ mpost) := by
  intro mpre
  induction mpre with
  | nil => intro _; simp [eraseMeaning, hy]
  | cons a rest ih =>
    intro h
    have ha := h a (List.mem_cons_self _ _)
    have hr := ih (fun p hp => h p (List.mem_cons_of_mem _ hp))
    simp [eraseMeaning, ha, hr]

theorem delMeaningLoop_none (m ll : Str) :
    ∀ ts : List Translation,
      (∀ tr, tr ∈ ts → toLower tr.language = ll → ∀ x, x ∈ tr.meanings → toLower x ≠ toLower m) →
      delMeaningLoop m ll ts = none := by
  intro ts
  induction ts with
  | nil => intro _; rfl
  | cons a rest ih =>
    intro h
    have hr := ih (fun tr htr => h tr (List.mem_cons_of_mem _ htr))
    simp only [delMeaningLoop]
    split_ifs with hlang
    · rw [eraseMeaning_none m _ (h a (List.mem_cons_self _ _) hlang), hr]
      rfl
    · rw [hr]
      rfl

theorem delMeaningLoop_append (m ll : Str) (tr : Translation) (post : List Translation)
    (ms : List Str) (htr : toLower tr.language = ll) (hms : eraseMeaning m tr.meanings = some ms) :
    ∀ pre : List Translation,
      (∀ p, p ∈ pre → toLower p.language = ll →
        ∀ x, x ∈ p.meanings → toLower x ≠ toLower m) →
      delMeaningLoop m ll (pre ++ tr :: post)
        = some (pre ++ (if ms.isEmpty then post else { tr with meanings := ms } :: post)) := by
  intro pre
  induction pre with
  | nil => intro _; simp [delMeaningLoop, htr, hms]
  | cons a rest ih =>
    intro h
    have hr := ih (fun p hp => h p (List.mem_cons_of_mem _ hp))
    rw [List.cons_append, List.cons_append]
    by_cases hlang : toLower a.language = ll
    · rw [delMeaningLoop, if_pos hlang,
        eraseMeaning_none m _ (h a (List.mem_cons_self _ _) hlang), hr]
      rfl
    · rw [delMeaningLoop, if_neg hlang, hr]
      rfl

theorem delTranslation_miss (t : HashTable) (w l : Str) (c : Nat)
    (hwalk : lookupWalk t (toLower w) (t.hashCode (toLower w)) t.capacity
      (t.hashCode (toLower w)) 0 = LookupWalk.miss c) :
    (t.delTranslation w l).1 = t ∧
      (w ≠ [] → l ≠ [] → t.delTranslation w l = (t, DelResult.wordNotFound)) := by
  unfold HashTable.delTranslation
  split_ifs with h
  · refine ⟨rfl, ?_⟩
    intro hw hl
    simp [List.isEmpty_iff, hw, hl] at h
  · simp [hwalk]

theorem delMeaning_miss (t : HashTable) (w m l : Str) (c : Nat)
    (hwalk : lookupWalk t (toLower w) (t.hashCode (toLower w)) t.capacity
      (t.hashCode (toLower w)) 0 = LookupWalk.miss c) :
    (t.delMeaning w m l).1 = t ∧
      (w ≠ [] → m ≠ [] → l ≠ [] → t.delMeaning w m l = (t, DelResult.wordNotFound)) := by
  unfold HashTable.delMeaning
  split_ifs with h
  · refine ⟨rfl, ?_⟩
    intro hw hm hl
    simp [List.isEmpty_iff, hw, hm, hl] at h
  · simp [hwalk]

theorem delTranslation_hit (t : HashTable) (w l : Str) (j c : Nat) (e : Entry)
    (hw : w ≠ []) (hl : l ≠ [])
    (hwalk : lookupWalk t (toLower w) (t.hashCode (toLower w)) t.capacity
      (t.hashCode (toLower w)) 0 = LookupWalk.hit j c)
    (hb : t.bucket j = some e) :
    t.delTranslation w l
      = match eraseTranslation (toLower l) e.translations with
        | some ts =>
          ({ t with buckets := t.buckets.set j (some { e with translations := ts }) },
            DelResult.deleted)
        | none => (t, DelResult.translationNotFound) := by
  unfold HashTable.delTranslation
  rw [if_neg (by simp [List.isEmpty_iff, hw, hl])]
  simp only [hwalk, hb]

theorem delMeaning_hit (t : HashTable) (w m l : Str) (j c : Nat) (e : Entry)
    (hw : w ≠ []) (hm : m ≠ []) (hl : l ≠ [])
    (hwalk : lookupWalk t (toLower w) (t.hashCode (toLower w)) t.capacity
      (t.hashCode (toLower w)) 0 = LookupWalk.hit j c)
    (hb : t.bucket j = some e) :
    t.delMeaning w m l
      = match delMeaningLoop m (toLower l) e.translations with
        | some ts =>
          ({ t with buckets := t.buckets.set j (some { e with translations := ts }) },
            DelResult.deleted)
        | none => (t, DelResult.meaningOrLanguageNotFound) := by
  unfold HashTable.delMeaning
  rw [if_neg (by simp [List.isEmpty_iff, hw, hm, hl])]
  simp only [hwalk, hb]

/-- On a well-formed table without a live entry of the word, the lookup loop misses. -/
theorem lookup_miss_of_no_live (t : HashTable) (hwf : t.WF) (w : Str)
    (hno : ∀ i e, t.bucket i = some e → e.deleted = false → toLower e.word ≠ toLower w) :
    ∃ c, lookupWalk t (toLower w) (t.hashCode (toLower w)) t.capacity
      (t.hashCode (toLower w)) 0 = LookupWalk.miss c := by
  rcases lookup_cases t hwf w with h | ⟨j, c, e, _, _, hb, hk, hd⟩
  · exact h
  · exact absurd hk (hno j e hb hd)

theorem langUnique_split (ts : List Translation) (h : langUnique ts) (tr : Translation)
    (htr : tr ∈ ts) (ll : Str) (hlang : toLower tr.language = ll) :
    ∃ pre post, ts = pre ++ tr :: post ∧
      (∀ p, p ∈ pre → toLower p.language ≠ ll) ∧ (∀ p, p ∈ post → toLower p.language ≠ ll) := by
  obtain ⟨pre, post, hts⟩ := List.append_of_mem htr
  subst hts
  unfold langUnique at h
  rw [List.pairwise_append, List.pairwise_cons] at h
  obtain ⟨_, ⟨hpost, _⟩, hpre⟩ := h
  refine ⟨pre, post, rfl, ?_, ?_⟩
  · intro p hp
    rw [← hlang]
    exact hpre p hp tr (List.mem_cons_self _ _)
  · intro p hp
    rw [← hlang]
    exact fun heq => hpost p hp heq.symm

/-- The lookup loop reads only the word and the deleted flag of the entries. -/
theorem lookupWalk_congr (t t' : HashTable) (lw : Str) (orig : Nat)
    (hcap : t'.capacity = t.capacity)
    (hb : ∀ i, (t'.bucket i).map (fun e => (e.word, e.deleted))
      = (t.bucket i).map (fun e => (e.word, e.deleted))) :
    ∀ fuel idx comp, lookupWalk t' lw orig fuel idx comp = lookupWalk t lw orig fuel idx comp := by
  intro fuel
  induction fuel with
  | zero => intro idx comp; rfl
  | succ n ih =>
    intro idx comp
    have h := hb idx
    simp only [lookupWalk]
    cases h1 : t.bucket idx with
    | none =>
      cases h2 : t'.bucket idx with
      | none => rfl
      | some e' => rw [h1, h2] at h; cases h
    | some e =>
      cases h2 : t'.bucket idx with
      | none => rw [h1, h2] at h; cases h
      | some e' =>
        rw [h1, h2] at h
        simp only [Option.map_some', Option.some.injEq, Prod.mk.injEq] at h
        simp only [h.1, h.2, hcap, ih]

/-- After the entry that the lookup finds was replaced by one with the same word and deleted
flag, `find` gives the translations of the new entry after the same number of
comparisons. -/
theorem find_after_edit (t : HashTable) (w : Str) (hw : w ≠ []) (j c : Nat) (e e' : Entry)
    (hwalk : lookupWalk t (toLower w) (t.hashCode (toLower w)) t.capacity
      (t.hashCode (toLower w)) 0 = LookupWalk.hit j c)
    (hb : t.bucket j = some e) (hword : e'.word = e.word) (hdel : e'.deleted = e.deleted)
    (sz coll : Nat) :
    HashTable.find { t with buckets := t.buckets.set j (some e'), size := sz, collisions := coll } w
      = FindResult.found c e'.translations := by
  have hjl := bucket_lt hb
  have hcongr := lookupWalk_congr t
    { t with buckets := t.buckets.set j (some e'), size := sz, collisions := coll }
    (toLower w) (t.hashCode (toLower w)) rfl
    (by
      intro i
      rw [bucket_set t j hjl]
      by_cases hij : i = j
      · subst hij
        rw [if_pos rfl, hb]
        simp [hword, hdel]
      · rw [if_neg hij])
    t.capacity (t.hashCode (toLower w)) 0
  unfold HashTable.find
  rw [if_neg (by simp [List.isEmpty_iff, hw])]
  have hh : HashTable.hashCode
      { t with buckets := t.buckets.set j (some e'), size := sz, collisions := coll } (toLower w)
      = t.hashCode (toLower w) := rfl
  simp only [hh]
  rw [hcongr, hwalk]
  simp only [bucket_set t j hjl, if_true]

theorem find_of_hit (t : HashTable) (w : Str) (hw : w ≠ []) (j c : Nat) (e : Entry)
    (hwalk : lookupWalk t (toLower w) (t.hashCode (toLower w)) t.capacity
      (t.hashCode (toLower w)) 0 = LookupWalk.hit j c)
    (hb : t.bucket j = some e) :
    t.find w = FindResult.found c e.translations := by
  unfold HashTable.find
  rw [if_neg (by simp [List.isEmpty_iff, hw])]
  simp only [hwalk, hb]

/-! ## Export -/

theorem writeMeanings_eq_intercalate (ms : List Str) :
    writeMeanings ms = List.intercalate (ascii ";") ms := by
  induction ms with
  | nil => rfl
  | cons m rest ih =>
    cases rest with
    | nil => simp [writeMeanings, List.intercalate]
    | cons m2 rest2 =>
      rw [writeMeanings, ih]
      simp [List.intercalate, List.intersperse]

theorem exportTranslations_none (ll w : Str) :
    ∀ ts : List Translation, (∀ tr, tr ∈ ts → toLower tr.language ≠ ll) →
      exportTranslations ll w ts = [] := by
  intro ts
  induction ts with
  | nil => intro _; rfl
  | cons a rest ih =>
    intro h
    rw [exportTranslations, if_neg (h a (List.mem_cons_self _ _)),
      ih (fun tr htr => h tr (List.mem_cons_of_mem _ htr))]

/-- The lines written for one entry whose translations have distinct languages: one line when
a translation has the language, none otherwise. -/
theorem exportTranslations_unique (ll w : Str) :
    ∀ ts : List Translation, langUnique ts →
      exportTranslations ll w ts
        = if ts.any (fun tr => toLower tr.language = ll) then
            [match ts.find? (fun tr => toLower tr.language = ll) with
              | some tr => w ++ ascii ":" ++ List.intercalate (ascii ";") tr.meanings
              | none => []]
          else [] := by
  intro ts
  induction ts with
  | nil => intro _; rfl
  | cons a rest ih =>
    intro h
    unfold langUnique at h
    rw [List.pairwise_cons] at h
    by_cases ha : toLower a.language = ll
    · have hrest : ∀ tr, tr ∈ rest → toLower tr.language ≠ ll := by
        intro tr htr heq
        exact h.1 tr htr (ha.trans heq.symm)
      rw [exportTranslations, if_pos ha, exportTranslations_none ll w rest hrest,
        writeMeanings_eq_intercalate]
      simp [ha]
    · rw [exportTranslations, if_neg ha, ih h.2]
      simp [ha]

theorem exportSlot_eq (t : HashTable) (ll : Str) (i : Nat)
    (hlu : ∀ e, t.bucket i = some e → langUnique e.translations) :
    exportSlot t ll i = if specExports ll (t.bucket i) then [specLine ll (t.bucket i)] else [] := by
  unfold exportSlot specExports specLine
  cases hb : t.bucket i with
  | none => simp
  | some e =>
    simp only
    by_cases hd : e.deleted = false
    · rw [if_pos hd, exportTranslations_unique ll e.originalWord e.translations (hlu e hb)]
      simp [hd]
    · rw [if_neg hd]
      simp at hd
      simp [hd]

theorem exportSlots_eq (t : HashTable) (ll : Str)
    (hlu : ∀ i e, t.bucket i = some e → langUnique e.translations) :
    ∀ is : List Nat,
      exportSlots t ll is
        = (is.filter (fun i => specExports ll (t.bucket i))).map
            (fun i => specLine ll (t.bucket i)) := by
  intro is
  induction is with
  | nil => rfl
  | cons i rest ih =>
    rw [exportSlots, ih, exportSlot_eq t ll i (hlu i), List.filter_cons]
    split_ifs <;> simp

/-! ## Reading back what was written -/

theorem ascii_newline : ascii "\n" = [10] := by decide

theorem ascii_colon : ascii ":" = [58] := by decide

theorem ascii_semicolon : ascii ";" = [59] := by decide

theorem getlineAll_no_delim (d : Nat) :
    ∀ (s acc : Str), d ∉ s →
      getlineAll d s acc = if (acc ++ s).isEmpty then [] else [acc ++ s] := by
  intro s
  induction s with
  | nil => intro acc _; simp [getlineAll]
  | cons c cs ih =>
    intro acc h
    rw [List.mem_cons, not_or] at h
    rw [getlineAll, if_neg (fun hc => h.1 hc.symm), ih _ h.2]
    simp

theorem getlineAll_append (d : Nat) (rest : Str) :
    ∀ (s acc : Str), d ∉ s →
      getlineAll d (s ++ d :: rest) acc = (acc ++ s) :: getlineAll d rest [] := by
  intro s
  induction s with
  | nil => intro acc _; simp [getlineAll]
  | cons c cs ih =>
    intro acc h
    rw [List.mem_cons, not_or] at h
    rw [List.cons_append, getlineAll, if_neg (fun hc => h.1 hc.symm), ih _ h.2]
    simp

/-- Reading a written file line by line gives back the lines, when no line holds a
newline. -/
theorem getlineAll_writeLines :
    ∀ lines : List Str, (∀ line, line ∈ lines → 10 ∉ line) →
      getlineAll 10 (writeLines lines) [] = lines := by
  intro lines
  induction lines with
  | nil => intro _; rfl
  | cons line rest ih =>
    intro h
    rw [writeLines, ascii_newline, List.append_assoc, List.singleton_append,
      getlineAll_append 10 _ line [] (h line (List.mem_cons_self _ _)),
      ih (fun l hl => h l (List.mem_cons_of_mem _ hl))]
    rfl

/-- Splitting the written meanings at `;` gives back the meanings, when none of them is
empty or holds a `;`. -/
theorem getlineAll_writeMeanings :
    ∀ ms : List Str, (∀ m, m ∈ ms → m ≠ [] ∧ 59 ∉ m) →
      getlineAll 59 (writeMeanings ms) [] = ms := by
  intro ms
  induction ms with
  | nil => intro _; rfl
  | cons m rest ih =>
    intro h
    have hm := h m (List.mem_cons_self _ _)
    cases rest with
    | nil =>
      rw [writeMeanings, getlineAll_no_delim 59 m [] hm.2]
      simp [hm.1]
    | cons m2 rest2 =>
      rw [writeMeanings, ascii_semicolon, List.append_assoc, List.singleton_append,
        getlineAll_append 59 _ m [] hm.2, ih (fun x hx => h x (List.mem_cons_of_mem _ hx))]
      rfl

theorem writeMeanings_ne_nil (m : Str) (rest : List Str) (hm : m ≠ []) :
    writeMeanings (m :: rest) ≠ [] := by
  cases rest with
  | nil => simpa [writeMeanings] using hm
  | cons m2 rest2 => simp [writeMeanings, hm]

/-- The translation constructed from the written meanings has these meanings, when there is
at least one and none of them is empty or holds a `;`. -/
theorem Translation.new_writeMeanings (ms : List Str) (l : Str) (hne : ms ≠ [])
    (h : ∀ m, m ∈ ms → m ≠ [] ∧ 59 ∉ m) :
    Translation.new (writeMeanings ms) l = { language := l, meanings := ms } := by
  cases ms with
  | nil => exact absurd rfl hne
  | cons m rest =>
    have hw := writeMeanings_ne_nil m rest (h m (List.mem_cons_self _ _)).1
    unfold Translation.new
    rw [if_neg (by simp [List.isEmpty_iff, hw]), getlineAll_writeMeanings _ h]
    have hf : List.filter (fun meaning : Str => !meaning.isEmpty) (m :: rest) = m :: rest := by
      rw [List.filter_eq_self]
      intro x hx
      simp [List.isEmpty_iff, (h x hx).1]
    simp only [hf]
    rfl

/-- Reading back a written line: `import` splits the line `w:mt` into the word `w` and the
meanings text `mt` and inserts them, when `w` has no `:`, neither is empty, and trimming
changes neither. -/
theorem importLine_record (language w mt : Str) (acc : HashTable × Nat)
    (hw : w ≠ []) (hcolon : 58 ∉ w) (htw : trim w = w) (hmt : mt ≠ []) (htm : trim mt = mt) :
    importLine language acc (w ++ ascii ":" ++ mt)
      = ((acc.1.insert w mt language (w ++ ascii ":" ++ mt) true).1, (acc.2 + 1) % 2 ^ 32) := by
  have hidx : List.indexOf 58 (w ++ ascii ":" ++ mt) = w.length := by
    rw [ascii_colon, List.append_assoc, List.indexOf_append_of_not_mem hcolon,
      List.singleton_append, List.indexOf_cons_self]
    rfl
  have hlen : (w ++ ascii ":" ++ mt).length = w.length + 1 + mt.length := by
    rw [ascii_colon]
    simp
    omega
  have hmpos : 0 < mt.length := List.length_pos.2 hmt
  have htake : List.take w.length (w ++ ascii ":" ++ mt) = w := by
    rw [List.append_assoc, List.take_left]
  have hdrop : List.drop (w.length + 1) (w ++ ascii ":" ++ mt) = mt := by
    rw [ascii_colon]
    exact List.drop_left' (by simp)
  have hmem : 58 ∈ w ++ ascii ":" ++ mt := by
    rw [ascii_colon]
    simp
  unfold importLine
  rw [if_neg (by simp [List.isEmpty_iff, hw]), if_neg (not_not.2 hmem)]
  simp only [hidx, htake, htw]
  rw [if_neg (by simp [List.isEmpty_iff, hw]),
    if_pos (show w.length + 1 < (w ++ ascii ":" ++ mt).length by rw [hlen]; omega), hdrop, htm]

/-! ## Insertion into a table with a free slot -/

theorem probe_surjective (cap orig i : Nat) (ho : orig < cap) (hi : i < cap) :
    ∃ k, k < cap ∧ (orig + k) % cap = i := by
  by_cases h : orig ≤ i
  · refine ⟨i - orig, by omega, ?_⟩
    rw [show orig + (i - orig) = i by omega, Nat.mod_eq_of_lt hi]
  · refine ⟨i + cap - orig, by omega, ?_⟩
    rw [show orig + (i + cap - orig) = i + cap by omega, Nat.add_mod_right, Nat.mod_eq_of_lt hi]

/-- When the loop of `insert` ends in the table-full condition, every slot it passed holds an
entry. -/
theorem insertWalk_full_all (t : HashTable) (lw : Str) (orig : Nat) (ho : orig < t.capacity) :
    ∀ fuel k coll comp c cmp, k + fuel = t.capacity →
      insertWalk t lw orig fuel ((orig + k) % t.capacity) coll comp = InsertWalk.full c cmp →
      ∀ k', k ≤ k' → k' < t.capacity → ∃ e, t.bucket ((orig + k') % t.capacity) = some e := by
  intro fuel
  induction fuel with
  | zero => intro k coll comp c cmp _ h; simp [insertWalk] at h
  | succ n ih =>
    intro k coll comp c cmp hk h k' hk1 hk2
    simp only [insertWalk] at h
    cases hb : t.bucket ((orig + k) % t.capacity) with
    | none => simp [hb] at h
    | some e =>
      simp only [hb] at h
      split_ifs at h with hcond hfull
      · rw [step_idx] at hfull
        have hk3 : k + 1 = t.capacity := by
          by_contra hne
          exact mod_add_ne t.capacity orig (k + 1) ho (by omega) (by omega) hfull
        have : k' = k := by omega
        subst this
        exact ⟨e, hb⟩
      · by_cases hkk : k' = k
        · subst hkk
          exact ⟨e, hb⟩
        · rw [step_idx] at h
          exact ih (k + 1) _ _ c cmp (by omega) h k' (by omega) hk2

/-- An insertion into a well-formed table that has an empty slot does not find the table
full. -/
theorem insert_not_full (t : HashTable) (hwf : t.WF) (w m l line : Str) (silent : Bool)
    (i : Nat) (hi : i < t.capacity) (hnone : t.bucket i = none) :
    (t.insert w m l line silent).2.isFull = false := by
  have hh : t.hashCode (toLower w) < t.capacity := hashCode_lt t hwf.1 _
  unfold HashTable.insert
  split_ifs
  · rfl
  · simp only
    split
    · rfl
    · rename_i c cmp hwalk
      exfalso
      obtain ⟨k, hk, hki⟩ := probe_surjective t.capacity _ i hh hi
      have hwalk' : insertWalk t (toLower w) (t.hashCode (toLower w)) t.capacity
          ((t.hashCode (toLower w) + 0) % t.capacity) t.collisions 0 = InsertWalk.full c cmp := by
        rw [Nat.add_zero, Nat.mod_eq_of_lt hh]
        exact hwalk
      obtain ⟨e, he⟩ := insertWalk_full_all t _ _ hh t.capacity 0 _ _ c cmp (by omega) hwalk'
        k (by omega) hk
      rw [hki, hnone] at he
      cases he
    · split
      · rfl
      · split_ifs <;> rfl

theorem liveCount_eq_length (b : List (Option Entry))
    (h : ∀ i, i < b.length → ∃ e, b.getD i none = some e ∧ e.deleted = false) :
    liveCount b = b.length := by
  unfold liveCount
  rw [List.countP_eq_length]
  intro slot hslot
  obtain ⟨i, hi, hget⟩ := List.getElem_of_mem hslot
  obtain ⟨e, he, hd⟩ := h i hi
  rw [List.getD_eq_getElem?_getD, List.getElem?_eq_getElem hi, Option.getD_some, hget] at he
  rw [he]
  simp [isLive, hd]

/-- A well-formed table with fewer live entries than slots, and no deleted entry, has an
empty slot. -/
theorem exists_none_slot (t : HashTable) (hwf : t.WF)
    (hlive : ∀ i e, t.bucket i = some e → e.deleted = false)
    (hcount : liveCount t.buckets < t.capacity) :
    ∃ i, i < t.capacity ∧ t.bucket i = none := by
  by_contra hno
  have hall : ∀ i, i < t.buckets.length → ∃ e, t.buckets.getD i none = some e ∧ e.deleted = false := by
    intro i hi
    cases hb : t.bucket i with
    | none => exact absurd ⟨i, by rw [← hwf.2.2]; exact hi, hb⟩ hno
    | some e => exact ⟨e, hb, hlive i e hb⟩
  have := liveCount_eq_length t.buckets hall
  rw [this, hwf.2.2] at hcount
  omega

/-! ## Import of an exported file -/

theorem exportSlot_set_ne (s : HashTable) (ll : Str) (j : Nat) (hj : j < s.buckets.length)
    (x : Option Entry) (sz coll i : Nat) (hi : i ≠ j) :
    exportSlot { s with buckets := s.buckets.set j x, size := sz, collisions := coll } ll i
      = exportSlot s ll i := by
  unfold exportSlot
  rw [bucket_set s j hj, if_neg hi]

theorem exportSlots_set_not_mem (s : HashTable) (ll : Str) (j : Nat) (hj : j < s.buckets.length)
    (x : Option Entry) (sz coll : Nat) :
    ∀ is : List Nat, j ∉ is →
      exportSlots { s with buckets := s.buckets.set j x, size := sz, collisions := coll } ll is
        = exportSlots s ll is := by
  intro is
  induction is with
  | nil => intro _; rfl
  | cons i rest ih =>
    intro h
    rw [List.mem_cons, not_or] at h
    rw [exportSlots, exportSlots, ih h.2,
      exportSlot_set_ne s ll j hj x sz coll i (fun e => h.1 e.symm)]

/-- Writing an entry into an empty slot adds its lines to the export, at some place. -/
theorem exportSlots_set (s : HashTable) (ll : Str) (j : Nat) (hj : j < s.buckets.length)
    (hnone : s.bucket j = none) (x : Option Entry) (sz coll : Nat) :
    ∀ is : List Nat, is.Nodup → j ∈ is →
      List.Perm
        (exportSlots { s with buckets := s.buckets.set j x, size := sz, collisions := coll } ll is)
        (exportSlot { s with buckets := s.buckets.set j x, size := sz, collisions := coll } ll j
          ++ exportSlots s ll is) := by
  intro is
  induction is with
  | nil => intro _ h; simp at h
  | cons i rest ih =>
    intro hnd hmem
    rw [List.nodup_cons] at hnd
    by_cases hij : i = j
    · subst hij
      have hs : exportSlot s ll i = [] := by
        unfold exportSlot
        rw [hnone]
      rw [exportSlots, exportSlots, exportSlots_set_not_mem s ll i hj x sz coll rest hnd.1, hs,
        List.nil_append]
    · have hmem' : j ∈ rest := by
        rcases List.mem_cons.1 hmem with h | h
        · exact absurd h.symm hij
        · exact h
      rw [exportSlots, exportSlots, exportSlot_set_ne s ll j hj x sz coll i hij]
      refine ((ih hnd.2 hmem').append_left (exportSlot s ll i)).trans ?_
      rw [← List.append_assoc, ← List.append_assoc]
      exact List.Perm.append_right _ List.perm_append_comm

theorem Translation.new_meanings_language (s l : Str) :
    (Translation.new s l).meanings = (Translation.new s []).meanings := by
  unfold Translation.new
  split_ifs <;> rfl

theorem exportSlot_new (s : HashTable) (language : Str) (j : Nat) (hj : j < s.buckets.length)
    (r : Str × List Str) (hr : cleanRecord r) (line : Str) (sz coll : Nat) :
    exportSlot
        { s with
          buckets := s.buckets.set j (some (Entry.new r.1 (writeMeanings r.2) language line)),
          size := sz, collisions := coll }
      (toLower language) j = [recordLine r] := by
  obtain ⟨hw, _, _, _, _, _, _, hsplit⟩ := hr
  unfold exportSlot
  rw [bucket_set s j hj, if_pos rfl]
  simp only [Entry.new_deleted, if_true, Entry.new_translations, exportTranslations,
    Translation.new_language]
  rw [Translation.new_meanings_language, hsplit]
  unfold Entry.new recordLine
  rw [if_neg (by simp [List.isEmpty_iff, hw])]

theorem importedFrom_insert (language : Str) (hl : language ≠ []) (s : HashTable)
    (done : List (Str × List Str)) (r : Str × List Str) (hQ : importedFrom language s done)
    (hr : cleanRecord r) (hnew : ∀ r', r' ∈ done → toLower r'.1 ≠ toLower r.1)
    (hroom : done.length < s.capacity) (line : Str) (silent : Bool) :
    importedFrom language (s.insert r.1 (writeMeanings r.2) language line silent).1
      (done ++ [r]) := by
  obtain ⟨hwf, hent, hcount, hperm⟩ := hQ
  have hw : r.1 ≠ [] := hr.1
  have hmt : writeMeanings r.2 ≠ [] := hr.2.2.2.2.1
  obtain ⟨i0, hi0, hnone0⟩ := exists_none_slot s hwf (fun i e hb => (hent i e hb).1)
    (by rw [hcount]; exact hroom)
  have hnf := insert_not_full s hwf r.1 (writeMeanings r.2) language line silent i0 hi0 hnone0
  rcases insert_cases s hwf r.1 (writeMeanings r.2) language line silent hw hmt hl with
    ⟨coll, comp, heq⟩ | ⟨j, coll, hj, _, hslot, heq⟩ | ⟨j, coll, e, _, _, hb, _, hk, _⟩
  · rw [heq] at hnf
    cases hnf
  · have hjl : j < s.buckets.length := by rw [hwf.2.2]; exact hj
    have hnone : s.bucket j = none := by
      rcases hslot with h | ⟨e, hb, hd⟩
      · exact h
      · rw [(hent j e hb).1] at hd
        cases hd
    rw [heq]
    refine ⟨⟨hwf.1, hwf.2.1, ?_⟩, ?_, ?_, ?_⟩
    · simp only [List.length_set]
      exact hwf.2.2
    · intro i e hb
      rw [bucket_set s j hjl] at hb
      by_cases hij : i = j
      · rw [if_pos hij] at hb
        cases hb
        exact ⟨Entry.new_deleted _ _ _ _, r, List.mem_append_right _ (List.mem_singleton.2 rfl),
          Entry.new_word _ _ _ _ hw⟩
      · rw [if_neg hij] at hb
        obtain ⟨hd, r', hr', hkey⟩ := hent i e hb
        exact ⟨hd, r', List.mem_append_left _ hr', hkey⟩
    · have hc := liveCount_set s j hjl (some (Entry.new r.1 (writeMeanings r.2) language line))
      rw [hnone] at hc
      simp only [isLive, Entry.new_deleted, Bool.not_false, if_true, Bool.false_eq_true,
        if_false, Nat.add_zero] at hc
      simp only [List.length_append, List.length_singleton]
      rw [hc, hcount]
    · have h1 := exportSlots_set s (toLower language) j hjl hnone
        (some (Entry.new r.1 (writeMeanings r.2) language line))
        ((s.size + 1) % 2 ^ 32) coll (List.range s.capacity) (List.nodup_range _)
        (List.mem_range.2 hj)
      rw [exportSlot_new s language j hjl r hr line] at h1
      rw [List.map_append, List.map_singleton]
      exact h1.trans (((hperm.cons (recordLine r))).trans
        (List.perm_append_singleton _ _).symm)
  · obtain ⟨_, r', hr', hkey⟩ := hent j e hb
    rw [hkey, toLower_toLower] at hk
    exact absurd hk (hnew r' hr')

theorem not_mem_writeMeanings (c : Nat) (hc : c ≠ 59) :
    ∀ ms : List Str, (∀ m, m ∈ ms → c ∉ m) → c ∉ writeMeanings ms := by
  intro ms
  induction ms with
  | nil => intro _; simp [writeMeanings]
  | cons m rest ih =>
    intro h
    have hm := h m (List.mem_cons_self _ _)
    cases rest with
    | nil => simpa [writeMeanings] using hm
    | cons m2 rest2 =>
      have hr := ih (fun x hx => h x (List.mem_cons_of_mem _ hx))
      rw [writeMeanings, ascii_semicolon]
      simp only [List.mem_append, List.mem_singleton, not_or]
      exact ⟨⟨hm, hc⟩, hr⟩

theorem importedFrom_foldl (language : Str) (hl : language ≠ []) :
    ∀ (recs : List (Str × List Str)) (s : HashTable) (n : Nat) (done : List (Str × List Str)),
      importedFrom language s done →
      (∀ r, r ∈ recs → cleanRecord r) →
      (∀ r, r ∈ recs → ∀ r', r' ∈ done → toLower r'.1 ≠ toLower r.1) →
      recs.Pairwise (fun a b => toLower a.1 ≠ toLower b.1) →
      done.length + recs.length ≤ s.capacity →
      importedFrom language ((recs.map recordLine).foldl (importLine language) (s, n)).1
        (done ++ recs) := by
  intro recs
  induction recs with
  | nil =>
    intro s n done hQ _ _ _ _
    simpa using hQ
  | cons r rest ih =>
    intro s n done hQ hclean hnew hpw hlen
    rw [List.pairwise_cons] at hpw
    rw [List.length_cons] at hlen
    have hr := hclean r (List.mem_cons_self _ _)
    have hmt : writeMeanings r.2 ≠ [] := hr.2.2.2.2.1
    have hstep := importedFrom_insert language hl s done r hQ hr
      (hnew r (List.mem_cons_self _ _)) (by omega) (recordLine r) true
    rw [List.map_cons, List.foldl_cons]
    have hline : importLine language (s, n) (recordLine r)
        = ((s.insert r.1 (writeMeanings r.2) language (recordLine r) true).1,
            (n + 1) % 2 ^ 32) :=
      importLine_record language r.1 (writeMeanings r.2) (s, n) hr.1 hr.2.1 hr.2.2.2.1 hmt
        hr.2.2.2.2.2.2.1
    rw [hline]
    have := ih (s.insert r.1 (writeMeanings r.2) language (recordLine r) true).1
      ((n + 1) % 2 ^ 32) (done ++ [r]) hstep
      (fun x hx => hclean x (List.mem_cons_of_mem _ hx))
      (by
        intro x hx r' hr'
        rcases List.mem_append.1 hr' with h | h
        · exact hnew x (List.mem_cons_of_mem _ hx) r' h
        · rw [List.mem_singleton.1 h]
          exact hpw.1 x hx)
      hpw.2
      (by rw [insert_capacity, List.length_append, List.length_singleton]; omega)
    rwa [List.append_assoc, List.singleton_append] at this

theorem exportSlots_new (capacity : Nat) (ll : Str) :
    ∀ is : List Nat, exportSlots (HashTable.new capacity) ll is = [] := by
  intro is
  induction is with
  | nil => rfl
  | cons i rest ih =>
    rw [exportSlots, ih]
    unfold exportSlot
    rw [new_bucket]
    rfl

theorem importedFrom_new (language : Str) (capacity : Nat) (hcap : capacity < 2 ^ 32) :
    importedFrom language (HashTable.new capacity) [] := by
  obtain ⟨hwf, hsize, _⟩ := new_inv capacity hcap
  refine ⟨hwf, ?_, ?_, ?_⟩
  · intro i e hb
    rw [new_bucket] at hb
    cases hb
  · rw [← hsize]
    rfl
  · unfold HashTable.exportLines
    rw [exportSlots_new]
    exact List.Perm.refl _

/-- A record is clean when its word is not empty, holds no `:` and no newline and is not
changed by trimming, it has a meaning, no meaning is empty or holds a `;` or a newline, and
the written meanings are not changed by trimming. -/
theorem cleanRecord_of_meanings (r : Str × List Str)
    (hw : r.1 ≠ [] ∧ 58 ∉ r.1 ∧ 10 ∉ r.1 ∧ trim r.1 = r.1) (hne : r.2 ≠ [])
    (hm : ∀ m, m ∈ r.2 → m ≠ [] ∧ 59 ∉ m ∧ 10 ∉ m)
    (ht : trim (writeMeanings r.2) = writeMeanings r.2) : cleanRecord r := by
  refine ⟨hw.1, hw.2.1, hw.2.2.1, hw.2.2.2, ?_,
    not_mem_writeMeanings 10 (by decide) r.2 (fun m h => (hm m h).2.2), ht, ?_⟩
  · cases hrm : r.2 with
    | nil => exact absurd hrm hne
    | cons m rest =>
      exact writeMeanings_ne_nil m rest (hm m (by rw [hrm]; exact List.mem_cons_self _ _)).1
  · rw [Translation.new_writeMeanings r.2 [] hne (fun m h => ⟨(hm m h).1, (hm m h).2.1⟩)]

/-- The round trip of clean records: importing the exported text of records with pairwise
different words (up to case) into a fresh table with room for them, and exporting the
language again, gives the lines of the records in some order. -/
theorem roundTrip_records (capacity : Nat) (hcap : capacity < 2 ^ 32) (language path : Str)
    (hl : language ≠ []) (hln : 10 ∉ language) (hp : path ≠ [])
    (recs : List (Str × List Str)) (hclean : ∀ r, r ∈ recs → cleanRecord r)
    (hpw : recs.Pairwise (fun a b => toLower a.1 ≠ toLower b.1))
    (hlen : recs.length ≤ (HashTable.new capacity).capacity) :
    List.Perm
      (((HashTable.new capacity).importData path
        (some (language ++ ascii "\n" ++ writeLines (recs.map recordLine)))).1.exportLines
          language)
      (recs.map recordLine) := by
  have hlines : ∀ line, line ∈ recs.map recordLine → 10 ∉ line := by
    intro line hline
    obtain ⟨r, hr, rfl⟩ := List.mem_map.1 hline
    obtain ⟨_, _, hw10, _, _, hm10, _, _⟩ := hclean r hr
    unfold recordLine
    rw [ascii_colon]
    simp only [List.mem_append, List.mem_singleton, not_or]
    exact ⟨⟨hw10, by decide⟩, hm10⟩
  have hparse : getlineAll 10 (language ++ ascii "\n" ++ writeLines (recs.map recordLine)) []
      = language :: recs.map recordLine := by
    rw [ascii_newline, List.append_assoc, List.singleton_append,
      getlineAll_append 10 _ language [] hln, getlineAll_writeLines _ hlines]
    rfl
  unfold HashTable.importData
  rw [if_neg (by simp [List.isEmpty_iff, hp])]
  simp only [hparse]
  rw [if_neg (by simp [List.isEmpty_iff, hl])]
  have h := importedFrom_foldl language hl recs (HashTable.new capacity) 0 []
    (importedFrom_new language capacity hcap) hclean (fun _ _ r' hr' => by simp at hr') hpw
    (by simpa using hlen)
  rw [List.nil_append] at h
  exact h.2.2.2

theorem specLine_eq_recordLine (ll : Str) (slot : Option Entry)
    (h : specExports ll slot = true) :
    specLine ll slot = recordLine (exportRecord ll slot) := by
  unfold specExports at h
  unfold specLine exportRecord recordLine
  cases slot with
  | none => simp at h
  | some e =>
    simp only [Bool.and_eq_true, List.any_eq_true] at h
    obtain ⟨_, tr, htr, hp⟩ := h
    cases hf : e.translations.find? (fun tr => toLower tr.language = ll) with
    | none =>
      rw [List.find?_eq_none] at hf
      exact absurd hp (hf tr htr)
    | some tr' =>
      simp only [hf, writeMeanings_eq_intercalate]

theorem exportData_content (t : HashTable) (language path : Str) (hl : language ≠ [])
    (hp : path ≠ []) :
    (t.exportData language path true).content
      = language ++ ascii "\n" ++ writeLines (t.exportLines language) := by
  unfold HashTable.exportData
  rw [if_neg (by simp [List.isEmpty_iff, hl, hp]), if_neg (by simp)]
  rfl

theorem new_capacity (capacity : Nat) (h : 0 < capacity) :
    (HashTable.new capacity).capacity = capacity := by
  unfold HashTable.new
  simp only
  rw [if_neg (by omega)]

/-! ## Entries stay reachable by the lookup -/

/-- The slot where the loop of `insert` stops is reached from the start without meeting an
empty slot. -/
theorem insertWalk_path (t : HashTable) (lw : Str) (orig : Nat) :
    ∀ fuel k coll comp j c, k + fuel = t.capacity →
      insertWalk t lw orig fuel ((orig + k) % t.capacity) coll comp = InsertWalk.stop j c →
      ∃ n, k ≤ n ∧ n < t.capacity ∧ (orig + n) % t.capacity = j ∧
        ∀ k', k ≤ k' → k' < n → t.bucket ((orig + k') % t.capacity) ≠ none := by
  intro fuel
  induction fuel with
  | zero => intro k coll comp j c _ h; simp [insertWalk] at h
  | succ n ih =>
    intro k coll comp j c hk h
    have here : (orig + k) % t.capacity = j →
        ∃ n, k ≤ n ∧ n < t.capacity ∧ (orig + n) % t.capacity = j ∧
          ∀ k', k ≤ k' → k' < n → t.bucket ((orig + k') % t.capacity) ≠ none :=
      fun hj => ⟨k, Nat.le_refl _, by omega, hj, fun k' h1 h2 => by omega⟩
    simp only [insertWalk] at h
    cases hb : t.bucket ((orig + k) % t.capacity) with
    | none =>
      simp only [hb, InsertWalk.stop.injEq] at h
      exact here h.1
    | some e =>
      simp only [hb] at h
      split_ifs at h with hcond hfull
      · rw [step_idx] at h
        obtain ⟨m, hm1, hm2, hm3, hm4⟩ := ih (k + 1) _ _ j c (by omega) h
        refine ⟨m, by omega, hm2, hm3, ?_⟩
        intro k' h1 h2
        by_cases hkk : k' = k
        · subst hkk
          rw [hb]
          exact fun h => Option.noConfusion h
        · exact hm4 k' (by omega) h2
      · simp only [InsertWalk.stop.injEq] at h
        exact here h.1

/-- The lookup loop finds a live entry of the word when one lies on the probe sequence with
no empty slot before it. -/
theorem lookupWalk_complete (t : HashTable) (lw : Str) (orig : Nat) (ho : orig < t.capacity)
    (n : Nat) (hn : n < t.capacity) (e : Entry)
    (hbn : t.bucket ((orig + n) % t.capacity) = some e) (hk : toLower e.word = lw)
    (hd : e.deleted = false)
    (hpath : ∀ k, k < n → t.bucket ((orig + k) % t.capacity) ≠ none) :
    ∀ fuel k comp, k + fuel = t.capacity → k ≤ n →
      ∃ j c, lookupWalk t lw orig fuel ((orig + k) % t.capacity) comp = LookupWalk.hit j c := by
  intro fuel
  induction fuel with
  | zero => intro k comp h1 h2; omega
  | succ m ih =>
    intro k comp h1 h2
    simp only [lookupWalk]
    by_cases hkn : k = n
    · subst hkn
      rw [hbn]
      simp only
      rw [if_pos ⟨hk, hd⟩]
      exact ⟨_, _, rfl⟩
    · cases hb : t.bucket ((orig + k) % t.capacity) with
      | none => exact absurd hb (hpath k (by omega))
      | some e2 =>
        simp only
        split_ifs with hcond hfull
        · exact ⟨_, _, rfl⟩
        · rw [step_idx] at hfull
          exact absurd hfull (mod_add_ne t.capacity orig (k + 1) ho (by omega) (by omega))
        · rw [step_idx]
          exact ih (k + 1) _ (by omega) (by omega)

theorem pathInv_set (t : HashTable) (hp : t.PathInv) (j : Nat) (hjl : j < t.buckets.length)
    (e' : Entry) (sz coll : Nat)
    (hpath : ∃ n, n < t.capacity ∧ (t.hashCode e'.word + n) % t.capacity = j ∧
      ∀ k, k < n → t.bucket ((t.hashCode e'.word + k) % t.capacity) ≠ none) :
    HashTable.PathInv
      { t with buckets := t.buckets.set j (some e'), size := sz, collisions := coll } := by
  have hset : ∀ x, t.bucket x ≠ none →
      HashTable.bucket
        { t with buckets := t.buckets.set j (some e'), size := sz, collisions := coll } x
          ≠ none := by
    intro x hx
    rw [bucket_set t j hjl]
    split_ifs
    · exact fun h => Option.noConfusion h
    · exact hx
  intro i e hb
  rw [bucket_set t j hjl] at hb
  by_cases hij : i = j
  · rw [if_pos hij] at hb
    cases hb
    obtain ⟨n, hn, hnj, hpre⟩ := hpath
    exact ⟨n, hn, by rw [hij]; exact hnj, fun k hk => hset _ (hpre k hk)⟩
  · rw [if_neg hij] at hb
    obtain ⟨n, hn, hni, hpre⟩ := hp i e hb
    exact ⟨n, hn, hni, fun k hk => hset _ (hpre k hk)⟩

theorem pathInv_set_same (t : HashTable) (hp : t.PathInv) (j : Nat) (e e' : Entry)
    (hb : t.bucket j = some e) (hword : e'.word = e.word) (sz coll : Nat) :
    HashTable.PathInv
      { t with buckets := t.buckets.set j (some e'), size := sz, collisions := coll } := by
  apply pathInv_set t hp j (bucket_lt hb)
  rw [hword]
  exact hp j e hb

theorem new_pathInv (capacity : Nat) : (HashTable.new capacity).PathInv := by
  intro i e hb
  rw [new_bucket] at hb
  cases hb

theorem insert_pathInv (t : HashTable) (hwf : t.WF) (hp : t.PathInv) (w m l line : Str)
    (silent : Bool) : (t.insert w m l line silent).1.PathInv := by
  by_cases hne : (w.isEmpty || m.isEmpty || l.isEmpty) = true
  · simp only [HashTable.insert, hne, if_true]
    exact hp
  · have hw : w ≠ [] := by intro h0; simp [h0] at hne
    have hm : m ≠ [] := by intro h0; simp [h0] at hne
    have hl : l ≠ [] := by intro h0; simp [h0] at hne
    have hh : t.hashCode (toLower w) < t.capacity := hashCode_lt t hwf.1 _
    rcases insert_cases t hwf w m l line silent hw hm hl with
      ⟨coll, comp, heq⟩ | ⟨j, coll, hj, hwalk, _, heq⟩ | ⟨j, coll, e, _, _, hb, _, _, heq⟩
    · rw [heq]
      exact hp
    · rw [heq]
      apply pathInv_set t hp j (by rw [hwf.2.2]; exact hj)
      rw [Entry.new_word _ _ _ _ hw]
      have hwalk' : insertWalk t (toLower w) (t.hashCode (toLower w)) t.capacity
          ((t.hashCode (toLower w) + 0) % t.capacity) t.collisions 0
            = InsertWalk.stop j coll := by
        rw [Nat.add_zero, Nat.mod_eq_of_lt hh]
        exact hwalk
      obtain ⟨n, _, hn, hnj, hpre⟩ := insertWalk_path t _ _ t.capacity 0 _ _ j coll (by omega)
        hwalk'
      exact ⟨n, hn, hnj, fun k hk => hpre k (by omega) hk⟩
    · rw [heq]
      exact pathInv_set_same t hp j e _ hb (Entry.addTranslation_word e m l) _ _

theorem delWord_pathInv (t : HashTable) (hwf : t.WF) (hp : t.PathInv) (w : Str) :
    (t.delWord w).1.PathInv := by
  unfold HashTable.delWord
  split_ifs
  · exact hp
  · simp only
    rcases lookup_cases t hwf w with ⟨c, hwalk⟩ | ⟨j, c, e, hwalk, _, hb, _, _⟩
    · rw [hwalk]
      exact hp
    · rw [hwalk]
      simp only [hb]
      refine pathInv_set_same t hp j e _ hb ?_ _ _
      rfl

theorem delTranslation_pathInv (t : HashTable) (hwf : t.WF) (hp : t.PathInv) (w l : Str) :
    (t.delTranslation w l).1.PathInv := by
  unfold HashTable.delTranslation
  split_ifs
  · exact hp
  · simp only
    rcases lookup_cases t hwf w with ⟨c, hwalk⟩ | ⟨j, c, e, hwalk, _, hb, _, _⟩
    · rw [hwalk]
      exact hp
    · rw [hwalk]
      simp only [hb]
      split
      · refine pathInv_set_same t hp j e _ hb ?_ _ _
        rfl
      · exact hp

theorem delMeaning_pathInv (t : HashTable) (hwf : t.WF) (hp : t.PathInv) (w m l : Str) :
    (t.delMeaning w m l).1.PathInv := by
  unfold HashTable.delMeaning
  split_ifs
  · exact hp
  · simp only
    rcases lookup_cases t hwf w with ⟨c, hwalk⟩ | ⟨j, c, e, hwalk, _, hb, _, _⟩
    · rw [hwalk]
      exact hp
    · rw [hwalk]
      simp only [hb]
      split
      · refine pathInv_set_same t hp j e _ hb ?_ _ _
        rfl
      · exact hp

theorem importLine_pathInv (language : Str) (acc : HashTable × Nat) (h : acc.1.Inv)
    (hp : acc.1.PathInv) (line : Str) : (importLine language acc line).1.PathInv := by
  unfold importLine
  split_ifs
  · exact hp
  · simp only
    split_ifs <;> first | exact hp | exact insert_pathInv _ h.1 hp _ _ _ _ _
  · exact hp

theorem importLines_pathInv (language : Str) (lines : List Str) :
    ∀ acc : HashTable × Nat, acc.1.Inv → acc.1.PathInv →
      (lines.foldl (importLine language) acc).1.PathInv := by
  induction lines with
  | nil => intro acc _ hp; exact hp
  | cons line rest ih =>
    intro acc h hp
    exact ih _ (importLine_inv language acc h line) (importLine_pathInv language acc h hp line)

theorem importData_pathInv (t : HashTable) (h : t.Inv) (hp : t.PathInv) (path : Str)
    (file : Option Str) : (t.importData path file).1.PathInv := by
  unfold HashTable.importData
  split_ifs
  · exact hp
  · split
    · exact hp
    · split
      · exact hp
      · split_ifs
        · exact hp
        · exact importLines_pathInv _ _ _ h hp

theorem apply_pathInv (t : HashTable) (h : t.Inv) (hp : t.PathInv) (op : Op) :
    (t.apply op).PathInv := by
  cases op with
  | insert w m l line silent => exact insert_pathInv t h.1 hp w m l line silent
  | addWord w m l => exact insert_pathInv t h.1 hp _ _ _ _ _
  | importData path file => exact importData_pathInv t h hp path file
  | delWord w => exact delWord_pathInv t h.1 hp w
  | delTranslation w l => exact delTranslation_pathInv t h.1 hp w l
  | delMeaning w m l => exact delMeaning_pathInv t h.1 hp w m l

theorem foldl_apply_pathInv (ops : List Op) :
    ∀ t : HashTable, t.Inv → t.PathInv → (ops.foldl HashTable.apply t).PathInv := by
  induction ops with
  | nil => intro t _ hp; exact hp
  | cons op rest ih =>
    intro t h hp
    exact ih _ (apply_inv t h op) (apply_pathInv t h hp op)

theorem run_pathInv (capacity : Nat) (hcap : capacity < 2 ^ 32) (ops : List Op) :
    (run capacity ops).PathInv :=
  foldl_apply_pathInv ops _ (new_inv capacity hcap) (new_pathInv capacity)

/-- On a reachable table the lookup for a word finds a live entry of the word whenever some
slot holds one. -/
theorem lookup_hit_of_live (t : HashTable) (hwf : t.WF) (hp : t.PathInv) (w : Str)
    (i : Nat) (x : Entry) (hb : t.bucket i = some x) (hd : x.deleted = false)
    (hk : toLower x.word = toLower w) :
    ∃ j c e, lookupWalk t (toLower w) (t.hashCode (toLower w)) t.capacity
        (t.hashCode (toLower w)) 0 = LookupWalk.hit j c ∧
      j < t.capacity ∧ t.bucket j = some e ∧ toLower e.word = toLower w ∧ e.deleted = false := by
  have hh : t.hashCode (toLower w) < t.capacity := hashCode_lt t hwf.1 _
  have hhash : t.hashCode x.word = t.hashCode (toLower w) := by
    rw [← hashCode_toLower t x.word, hk]
  obtain ⟨n, hn, hni, hpre⟩ := hp i x hb
  rw [hhash] at hni hpre
  obtain ⟨j, c, hhit⟩ := lookupWalk_complete t (toLower w) (t.hashCode (toLower w)) hh n hn x
    (by rw [hni]; exact hb) hk hd hpre t.capacity 0 0 (by omega) (by omega)
  rw [Nat.add_zero, Nat.mod_eq_of_lt hh] at hhit
  obtain ⟨hj, e, hbe, hke, hde⟩ := lookupWalk_hit t _ _ hwf.1 _ _ _ _ _ hh hhit
  exact ⟨j, c, e, hhit, hj, hbe, hke, hde⟩

/-- What `delTranslation` does to the entry that the lookup finds, on a table with the
invariant of the reachable tables. -/
theorem delTranslation_found (t : HashTable) (hinv : t.Inv) (w l : Str) (hw : w ≠ [])
    (hl : l ≠ []) (j c : Nat) (e : Entry)
    (hwalk : lookupWalk t (toLower w) (t.hashCode (toLower w)) t.capacity
      (t.hashCode (toLower w)) 0 = LookupWalk.hit j c)
    (hb : t.bucket j = some e) :
    (∀ tr, tr ∈ e.translations → toLower tr.language = toLower l →
      ∃ pre post, e.translations = pre ++ tr :: post ∧
        (∀ p, p ∈ pre ++ post → toLower p.language ≠ toLower l) ∧
        t.delTranslation w l
          = ({ t with buckets := t.buckets.set j (some { e with translations := pre ++ post }) },
             DelResult.deleted) ∧
        (t.delTranslation w l).1.size = t.size ∧
        (t.delTranslation w l).1.find w = FindResult.found c (pre ++ post)) ∧
    ((∀ tr, tr ∈ e.translations → toLower tr.language ≠ toLower l) →
      t.delTranslation w l = (t, DelResult.translationNotFound)) := by
  obtain ⟨_, _, hlang⟩ := hinv
  constructor
  · intro tr htr hl'
    obtain ⟨pre, post, hts, hpre, hpost⟩ :=
      langUnique_split e.translations (hlang e (bucket_eq_some_mem hb)) tr htr (toLower l) hl'
    have heq : t.delTranslation w l
        = ({ t with buckets := t.buckets.set j (some { e with translations := pre ++ post }) },
           DelResult.deleted) := by
      rw [delTranslation_hit t w l j c e hw hl hwalk hb, hts,
        eraseTranslation_append (toLower l) tr post hl' pre hpre]
    refine ⟨pre, post, hts, ?_, heq, ?_, ?_⟩
    · intro p hp
      rcases List.mem_append.1 hp with h | h
      · exact hpre p h
      · exact hpost p h
    · rw [heq]
    · rw [heq]
      exact find_after_edit t w hw j c e { e with translations := pre ++ post } hwalk hb rfl rfl
        t.size t.collisions
  · intro hno
    rw [delTranslation_hit t w l j c e hw hl hwalk hb, eraseTranslation_none _ _ hno]

/-- What `delMeaning` does to the entry that the lookup finds, on a table with the invariant
of the reachable tables. -/
theorem delMeaning_found (t : HashTable) (hinv : t.Inv) (w m l : Str) (hw : w ≠ [])
    (hm : m ≠ []) (hl : l ≠ []) (j c : Nat) (e : Entry)
    (hwalk : lookupWalk t (toLower w) (t.hashCode (toLower w)) t.capacity
      (t.hashCode (toLower w)) 0 = LookupWalk.hit j c)
    (hb : t.bucket j = some e)
    (tr : Translation) (htr : tr ∈ e.translations) (hlang : toLower tr.language = toLower l)
    (x : Str) (hx : x ∈ tr.meanings) (hxm : toLower x = toLower m) :
    ∃ pre post mpre y mpost,
      e.translations = pre ++ tr :: post ∧
      (∀ p, p ∈ pre ++ post → toLower p.language ≠ toLower l) ∧
      tr.meanings = mpre ++ y :: mpost ∧
      toLower y = toLower m ∧ (∀ z, z ∈ mpre → toLower z ≠ toLower m) ∧
      t.delMeaning w m l
        = ({ t with
              buckets := t.buckets.set j
                (some { e with translations :=
                  pre ++ (if (mpre ++ mpost).isEmpty then post
                          else { tr with meanings := mpre ++ mpost } :: post) }) },
           DelResult.deleted) ∧
      (t.delMeaning w m l).1.size = t.size := by
  obtain ⟨_, _, hlu⟩ := hinv
  obtain ⟨pre, post, hts, hpre, hpost⟩ :=
    langUnique_split e.translations (hlu e (bucket_eq_some_mem hb)) tr htr (toLower l) hlang
  obtain ⟨mpre, y, mpost, hms, hy, hmpre⟩ :=
    exists_first (fun z => toLower z = toLower m) tr.meanings ⟨x, hx, hxm⟩
  have heq : t.delMeaning w m l
      = ({ t with
            buckets := t.buckets.set j
              (some { e with translations :=
                pre ++ (if (mpre ++ mpost).isEmpty then post
                        else { tr with meanings := mpre ++ mpost } :: post) }) },
         DelResult.deleted) := by
    have herase : eraseMeaning m tr.meanings = some (mpre ++ mpost) := by
      rw [hms]
      exact eraseMeaning_append m y mpost hy mpre hmpre
    rw [delMeaning_hit t w m l j c e hw hm hl hwalk hb, hts,
      delMeaningLoop_append m (toLower l) tr post (mpre ++ mpost) hlang herase pre
        (fun p hp hpl => absurd hpl (hpre p hp))]
  refine ⟨pre, post, mpre, y, mpost, hts, ?_, hms, hy, hmpre, heq, ?_⟩
  · intro p hp
    rcases List.mem_append.1 hp with h | h
    · exact hpre p h
    · exact hpost p h
  · rw [heq]

/-! ## Inserting different words -/

theorem holdsWords_insert (s : HashTable) (done : List Str) (w m l line : Str) (silent : Bool)
    (hQ : holdsWords s done) (hw : w ≠ []) (hm : m ≠ []) (hl : l ≠ [])
    (hnew : ∀ k, k ∈ done → toLower k ≠ toLower w) (hroom : done.length < s.capacity) :
    holdsWords (s.insert w m l line silent).1 (done ++ [w]) := by
  obtain ⟨hwf, hent, hcount⟩ := hQ
  obtain ⟨i0, hi0, hnone0⟩ := exists_none_slot s hwf (fun i e hb => (hent i e hb).1)
    (by rw [hcount]; exact hroom)
  have hnf := insert_not_full s hwf w m l line silent i0 hi0 hnone0
  rcases insert_cases s hwf w m l line silent hw hm hl with
    ⟨coll, comp, heq⟩ | ⟨j, coll, hj, _, hslot, heq⟩ | ⟨j, coll, e, _, _, hb, _, hk, _⟩
  · rw [heq] at hnf
    cases hnf
  · have hjl : j < s.buckets.length := by rw [hwf.2.2]; exact hj
    have hnone : s.bucket j = none := by
      rcases hslot with h | ⟨e, hb, hd⟩
      · exact h
      · rw [(hent j e hb).1] at hd
        cases hd
    rw [heq]
    refine ⟨⟨hwf.1, hwf.2.1, ?_⟩, ?_, ?_⟩
    · simp only [List.length_set]
      exact hwf.2.2
    · intro i e hb
      rw [bucket_set s j hjl] at hb
      by_cases hij : i = j
      · rw [if_pos hij] at hb
        cases hb
        exact ⟨Entry.new_deleted _ _ _ _, w, List.mem_append_right _ (List.mem_singleton.2 rfl),
          Entry.new_word _ _ _ _ hw⟩
      · rw [if_neg hij] at hb
        obtain ⟨hd, k, hk, hkey⟩ := hent i e hb
        exact ⟨hd, k, List.mem_append_left _ hk, hkey⟩
    · have hc := liveCount_set s j hjl (some (Entry.new w m l line))
      rw [hnone] at hc
      simp only [isLive, Entry.new_deleted, Bool.not_false, if_true, Bool.false_eq_true,
        if_false, Nat.add_zero] at hc
      simp only [List.length_append, List.length_singleton]
      rw [hc, hcount]
  · obtain ⟨_, k, hk', hkey⟩ := hent j e hb
    rw [hkey, toLower_toLower] at hk
    exact absurd hk (hnew k hk')

theorem holdsWords_foldl :
    ∀ (ws : List (Str × Str × Str)) (s : HashTable) (done : List Str),
      holdsWords s done →
      (∀ x, x ∈ ws → x.1 ≠ [] ∧ x.2.1 ≠ [] ∧ x.2.2 ≠ []) →
      (∀ x, x ∈ ws → ∀ k, k ∈ done → toLower k ≠ toLower x.1) →
      ws.Pairwise (fun a b => toLower a.1 ≠ toLower b.1) →
      done.length + ws.length ≤ s.capacity →
      holdsWords ((ws.map (fun x => Op.addWord x.1 x.2.1 x.2.2)).foldl HashTable.apply s)
        (done ++ ws.map (fun x => x.1)) := by
  intro ws
  induction ws with
  | nil =>
    intro s done hQ _ _ _ _
    simpa using hQ
  | cons x rest ih =>
    intro s done hQ hne hnew hpw hlen
    rw [List.pairwise_cons] at hpw
    rw [List.length_cons] at hlen
    obtain ⟨hw, hm, hl⟩ := hne x (List.mem_cons_self _ _)
    have hstep : holdsWords (s.apply (Op.addWord x.1 x.2.1 x.2.2)) (done ++ [x.1]) :=
      holdsWords_insert s done x.1 x.2.1 x.2.2 _ false hQ hw hm hl
        (hnew x (List.mem_cons_self _ _)) (by omega)
    have hcap : (s.apply (Op.addWord x.1 x.2.1 x.2.2)).capacity = s.capacity :=
      insert_capacity _ _ _ _ _ _
    rw [List.map_cons, List.foldl_cons, List.map_cons]
    have := ih (s.apply (Op.addWord x.1 x.2.1 x.2.2)) (done ++ [x.1]) hstep
      (fun y hy => hne y (List.mem_cons_of_mem _ hy))
      (by
        intro y hy k hk
        rcases List.mem_append.1 hk with h | h
        · exact hnew y (List.mem_cons_of_mem _ hy) k h
        · rw [List.mem_singleton.1 h]
          exact hpw.1 y hy)
      hpw.2
      (by rw [hcap, List.length_append, List.length_singleton]; omega)
    rwa [List.append_assoc, List.singleton_append] at this

theorem holdsWords_new (capacity : Nat) (hcap : capacity < 2 ^ 32) :
    holdsWords (HashTable.new capacity) [] := by
  obtain ⟨hwf, hsize, _⟩ := new_inv capacity hcap
  refine ⟨hwf, ?_, ?_⟩
  · intro i e hb
    rw [new_bucket] at hb
    cases hb
  · rw [← hsize]
    rfl

/-- Inserting words that differ pairwise up to case into a fresh table with room for them
gives as many live entries as words. -/
theorem size_of_distinct_inserts (capacity : Nat) (hcap : capacity < 2 ^ 32)
    (ws : List (Str × Str × Str))
    (hne : ∀ x, x ∈ ws → x.1 ≠ [] ∧ x.2.1 ≠ [] ∧ x.2.2 ≠ [])
    (hpw : ws.Pairwise (fun a b => toLower a.1 ≠ toLower b.1))
    (hlen : ws.length ≤ (HashTable.new capacity).capacity) :
    (run capacity (ws.map (fun x => Op.addWord x.1 x.2.1 x.2.2))).size = ws.length ∧
    liveCount (run capacity (ws.map (fun x => Op.addWord x.1 x.2.1 x.2.2))).buckets
      = ws.length := by
  have h := holdsWords_foldl ws (HashTable.new capacity) [] (holdsWords_new capacity hcap) hne
    (fun _ _ k hk => by simp at hk) hpw (by simpa using hlen)
  have hinv := run_inv capacity hcap (ws.map (fun x => Op.addWord x.1 x.2.1 x.2.2))
  unfold run at hinv ⊢
  rw [hinv.2.1, h.2.2]
  simp

/-- The insertion when the probing loop stopped at an empty or deleted slot. -/
theorem insert_of_stop_free (t : HashTable) (w m l line : Str) (silent : Bool)
    (hw : w ≠ []) (hm : m ≠ []) (hl : l ≠ []) (j coll : Nat)
    (hwalk : insertWalk t (toLower w) (t.hashCode (toLower w)) t.capacity
      (t.hashCode (toLower w)) t.collisions 0 = InsertWalk.stop j coll)
    (hslot : t.bucket j = none ∨ ∃ e, t.bucket j = some e ∧ e.deleted = true) :
    t.insert w m l line silent
      = ({ t with buckets := t.buckets.set j (some (Entry.new w m l line)),
                  size := (t.size + 1) % 2 ^ 32, collisions := coll },
         InsertOutcome.created j) := by
  have hne : (w.isEmpty || m.isEmpty || l.isEmpty) = false := by
    simp [List.isEmpty_iff, hw, hm, hl]
  rcases hslot with hb | ⟨e, hb, hd⟩
  · simp only [HashTable.insert, hne, hwalk, hb]
    rfl
  · simp only [HashTable.insert, hne, hwalk, hb, hd]
    rfl

/-- The insertion when the probing loop stopped at a live entry. -/
theorem insert_of_stop_live (t : HashTable) (w m l line : Str) (silent : Bool)
    (hw : w ≠ []) (hm : m ≠ []) (hl : l ≠ []) (j coll : Nat) (e : Entry)
    (hwalk : insertWalk t (toLower w) (t.hashCode (toLower w)) t.capacity
      (t.hashCode (toLower w)) t.collisions 0 = InsertWalk.stop j coll)
    (hb : t.bucket j = some e) (hd : e.deleted = false) :
    t.insert w m l line silent
      = ({ t with buckets := t.buckets.set j (some (e.addTranslation m l)),
                  collisions := coll },
         InsertOutcome.merged j) := by
  have hne : (w.isEmpty || m.isEmpty || l.isEmpty) = false := by
    simp [List.isEmpty_iff, hw, hm, hl]
  simp only [HashTable.insert, hne, hwalk, hb, hd]
  rfl

theorem Entry.new_eq (w m l line : Str) (hw : w ≠ []) :
    Entry.new w m l line
      = { word := toLower w, originalWord := w, originalLine := line,
          translations := [Translation.new m l], deleted := false } := by
  unfold Entry.new
  rw [if_neg (by simp [List.isEmpty_iff, hw])]

theorem Entry.addTranslation_originalWord (e : Entry) (m l : Str) :
    (e.addTranslation m l).originalWord = e.originalWord := by
  unfold Entry.addTranslation
  split_ifs
  · rfl
  · split <;> rfl

/-! ## Insertion stops at the first deleted slot -/

/-- Two different steps of one probe sequence, both below the capacity, are different slots. -/
theorem probe_injective (cap orig k n : Nat) (hk : k < n) (hn : n < cap) :
    (orig + k) % cap ≠ (orig + n) % cap := by
  have hcap : 0 < cap := by omega
  have h1 : (orig + n) % cap = ((orig + k) % cap + (n - k)) % cap := by
    rw [Nat.mod_add_mod]
    congr 1
    omega
  rw [h1]
  exact fun h => mod_add_ne cap ((orig + k) % cap) (n - k) (Nat.mod_lt _ hcap) (by omega)
    (by omega) h.symm

/-- The loop of `insert` passes the live entries of other words and stops at the first slot
that is empty, deleted or holds the word. -/
theorem insertWalk_prefix (t : HashTable) (lw : Str) (orig k : Nat) (ho : orig < t.capacity)
    (hk : k < t.capacity)
    (hbefore : ∀ i, i < k → ∃ e, t.bucket ((orig + i) % t.capacity) = some e ∧
      e.deleted = false ∧ toLower e.word ≠ lw)
    (hstop : ∀ e, t.bucket ((orig + k) % t.capacity) = some e →
      e.deleted = true ∨ toLower e.word = lw) :
    ∀ d i coll comp, i + d = k →
      ∃ c, insertWalk t lw orig (t.capacity - i) ((orig + i) % t.capacity) coll comp
        = InsertWalk.stop ((orig + k) % t.capacity) c := by
  intro d
  induction d with
  | zero =>
    intro i coll comp hi
    have hik : i = k := by omega
    subst hik
    obtain ⟨f, hf⟩ : ∃ f, t.capacity - i = f + 1 := ⟨t.capacity - i - 1, by omega⟩
    rw [hf]
    cases hb : t.bucket ((orig + i) % t.capacity) with
    | none => exact ⟨coll, by simp only [insertWalk, hb]⟩
    | some e =>
      refine ⟨coll, ?_⟩
      simp only [insertWalk, hb]
      rw [if_neg]
      rintro ⟨h1, h2⟩
      rcases hstop e hb with h | h
      · rw [h2] at h; cases h
      · exact h1 h
  | succ d ih =>
    intro i coll comp hi
    obtain ⟨e, hb, hd, hne⟩ := hbefore i (by omega)
    obtain ⟨f, hf⟩ : ∃ f, t.capacity - i = f + 1 := ⟨t.capacity - i - 1, by omega⟩
    have hf' : t.capacity - (i + 1) = f := by omega
    obtain ⟨c, hc⟩ := ih (i + 1) ((coll + 1) % 2 ^ 32) ((comp + 1) % 2 ^ 32) (by omega)
    refine ⟨c, ?_⟩
    rw [hf]
    simp only [insertWalk, hb]
    rw [if_pos ⟨hne, hd⟩, step_idx, if_neg (mod_add_ne t.capacity orig (i + 1) ho (by omega)
      (by omega))]
    rw [← hf', hc]

/-! ## Deleting one word and looking up another -/

/-- The slot where the lookup loop reports a hit holds a live entry of the word, on every
table. -/
theorem lookupWalk_hit_entry (t : HashTable) (lw : Str) (orig : Nat) :
    ∀ fuel idx comp j comp',
      lookupWalk t lw orig fuel idx comp = LookupWalk.hit j comp' →
      ∃ e, t.bucket j = some e ∧ toLower e.word = lw ∧ e.deleted = false := by
  intro fuel
  induction fuel with
  | zero => intro idx comp j comp' h; simp [lookupWalk] at h
  | succ n ih =>
    intro idx comp j comp' h
    simp only [lookupWalk] at h
    split at h
    · simp at h
    · rename_i e hb
      split_ifs at h with hcond hfull
      · simp only [LookupWalk.hit.injEq] at h
        obtain ⟨rfl, _⟩ := h
        exact ⟨e, hb, hcond.1, hcond.2⟩
      · exact ih _ _ _ _ h

/-- The lookup loop for a word only sees, in each slot, whether it is empty and whether it
holds a live entry of the word. -/
theorem lookupWalk_congr_match (t t' : HashTable) (lw : Str) (orig : Nat)
    (hcap : t'.capacity = t.capacity)
    (hb : ∀ i, (t'.bucket i).map (fun e => decide (toLower e.word = lw ∧ e.deleted = false))
      = (t.bucket i).map (fun e => decide (toLower e.word = lw ∧ e.deleted = false))) :
    ∀ fuel idx comp, lookupWalk t' lw orig fuel idx comp = lookupWalk t lw orig fuel idx comp := by
  intro fuel
  induction fuel with
  | zero => intro idx comp; rfl
  | succ n ih =>
    intro idx comp
    have h := hb idx
    simp only [lookupWalk]
    cases h1 : t.bucket idx with
    | none =>
      cases h2 : t'.bucket idx with
      | none => rfl
      | some e' => rw [h1, h2] at h; cases h
    | some e =>
      cases h2 : t'.bucket idx with
      | none => rw [h1, h2] at h; cases h
      | some e' =>
        rw [h1, h2] at h
        simp only [Option.map_some', Option.some.injEq, decide_eq_decide] at h
        simp only [hcap, ih]
        by_cases hc : toLower e.word = lw ∧ e.deleted = false
        · rw [if_pos hc, if_pos (h.2 hc)]
        · rw [if_neg hc, if_neg (fun x => hc (h.1 x))]

/-- The method `find` for a word that is not empty. -/
theorem find_eq (t : HashTable) (v : Str) (hv : ¬ v.isEmpty = true) :
    t.find v
      = match lookupWalk t (toLower v) (t.hashCode (toLower v)) t.capacity
          (t.hashCode (toLower v)) 0 with
        | LookupWalk.outOfFuel => FindResult.outOfFuel
        | LookupWalk.miss _ => FindResult.notFound
        | LookupWalk.hit idx comparisons =>
          match t.bucket idx with
          | some e => FindResult.found comparisons e.translations
          | none => FindResult.notFound := by
  unfold HashTable.find
  rw [if_neg hv]

/-- The method `delWord` for a word that is not empty. -/
theorem delWord_eq (t : HashTable) (w : Str) (hw : ¬ w.isEmpty = true) :
    t.delWord w
      = match lookupWalk t (toLower w) (t.hashCode (toLower w)) t.capacity
          (t.hashCode (toLower w)) 0 with
        | LookupWalk.outOfFuel => (t, DelResult.outOfFuel)
        | LookupWalk.miss _ => (t, DelResult.wordNotFound)
        | LookupWalk.hit idx _ =>
          match t.bucket idx with
          | some e =>
            ({ t with buckets := t.buckets.set idx (some e.markDeleted),
                      size := (t.size + 2 ^ 32 - 1) % 2 ^ 32 },
              DelResult.deleted)
          | none => (t, DelResult.wordNotFound) := by
  unfold HashTable.delWord
  rw [if_neg hw]

/-- Marking a live entry of another word deleted changes no `find`. -/
theorem find_after_markDeleted (t : HashTable) (v : Str) (j : Nat) (e : Entry) (sz : Nat)
    (hb : t.bucket j = some e) (hk : toLower e.word ≠ toLower v) :
    HashTable.find { t with buckets := t.buckets.set j (some e.markDeleted), size := sz } v
      = t.find v := by
  have hj : j < t.buckets.length := bucket_lt hb
  have hbk : ∀ i, HashTable.bucket
      { t with buckets := t.buckets.set j (some e.markDeleted), size := sz } i
      = if i = j then some e.markDeleted else t.bucket i :=
    fun i => bucket_set t j hj (some e.markDeleted) sz t.collisions i
  have hwalk : ∀ fuel idx comp,
      lookupWalk { t with buckets := t.buckets.set j (some e.markDeleted), size := sz }
        (toLower v) (t.hashCode (toLower v)) fuel idx comp
      = lookupWalk t (toLower v) (t.hashCode (toLower v)) fuel idx comp := by
    refine lookupWalk_congr_match t _ (toLower v) _ rfl ?_
    intro i
    rw [hbk]
    by_cases hi : i = j
    · subst hi
      rw [if_pos rfl, hb]
      simp only [Option.map_some', Option.some.injEq, decide_eq_decide]
      constructor
      · rintro ⟨h1, _⟩
        exact absurd h1 hk
      · rintro ⟨h1, _⟩
        exact absurd h1 hk
    · rw [if_neg hi]
  by_cases hv : v.isEmpty = true
  · unfold HashTable.find
    rw [if_pos hv, if_pos hv]
  · rw [find_eq _ v hv, find_eq t v hv]
    show (match lookupWalk
        { t with buckets := t.buckets.set j (some e.markDeleted), size := sz }
        (toLower v) (t.hashCode (toLower v)) t.capacity (t.hashCode (toLower v)) 0 with
      | LookupWalk.outOfFuel => FindResult.outOfFuel
      | LookupWalk.miss _ => FindResult.notFound
      | LookupWalk.hit idx comparisons =>
        match HashTable.bucket
          { t with buckets := t.buckets.set j (some e.markDeleted), size := sz } idx with
        | some e => FindResult.found comparisons e.translations
        | none => FindResult.notFound)
      = (match lookupWalk t (toLower v) (t.hashCode (toLower v)) t.capacity
          (t.hashCode (toLower v)) 0 with
      | LookupWalk.outOfFuel => FindResult.outOfFuel
      | LookupWalk.miss _ => FindResult.notFound
      | LookupWalk.hit idx comparisons =>
        match t.bucket idx with
        | some e => FindResult.found comparisons e.translations
        | none => FindResult.notFound)
    rw [hwalk]
    cases hres : lookupWalk t (toLower v) (t.hashCode (toLower v)) t.capacity
        (t.hashCode (toLower v)) 0 with
    | outOfFuel => rfl
    | miss c => rfl
    | hit i c =>
      obtain ⟨x, hx, hxk, _⟩ := lookupWalk_hit_entry t _ _ _ _ _ _ _ hres
      have hij : i ≠ j := by
        intro h
        subst h
        rw [hb] at hx
        cases hx
        exact hk hxk
      simp only [hbk, if_neg hij]

/-- Deleting a word changes no `find` of a different word, on every table. -/
theorem find_after_delWord_other (t : HashTable) (w v : Str)
    (hne : toLower w ≠ toLower v) : (t.delWord w).1.find v = t.find v := by
  by_cases hw : w.isEmpty = true
  · unfold HashTable.delWord
    rw [if_pos hw]
  · rw [delWord_eq t w hw]
    cases hres : lookupWalk t (toLower w) (t.hashCode (toLower w)) t.capacity
        (t.hashCode (toLower w)) 0 with
    | outOfFuel => rfl
    | miss c => rfl
    | hit j c =>
      obtain ⟨x, hx, hxk, _⟩ := lookupWalk_hit_entry t _ _ _ _ _ _ _ hres
      simp only [hx]
      exact find_after_markDeleted t v j x _ hx (by rw [hxk]; exact hne)

/-! ## The probing loops end within `capacity` steps -/

theorem lookupWalkTraced_fst (t : HashTable) (lw : Str) (orig : Nat) :
    ∀ fuel idx comp vis,
      (lookupWalkTraced t lw orig fuel idx comp vis).1 = lookupWalk t lw orig fuel idx comp := by
  intro fuel
  induction fuel with
  | zero => intro idx comp vis; rfl
  | succ n ih =>
    intro idx comp vis
    simp only [lookupWalkTraced, lookupWalk]
    cases t.bucket idx with
    | none => rfl
    | some e =>
      simp only
      by_cases h1 : toLower e.word = lw ∧ e.deleted = false
      · rw [if_pos h1, if_pos h1]
      · rw [if_neg h1, if_neg h1]
        by_cases h2 : (idx + 1) % t.capacity = orig
        · rw [if_pos h2, if_pos h2]
        · rw [if_neg h2, if_neg h2]
          exact ih _ _ _

theorem insertWalkTraced_fst (t : HashTable) (lw : Str) (orig : Nat) :
    ∀ fuel idx coll comp vis adv,
      (insertWalkTraced t lw orig fuel idx coll comp vis adv).1
        = insertWalk t lw orig fuel idx coll comp := by
  intro fuel
  induction fuel with
  | zero => intro idx coll comp vis adv; rfl
  | succ n ih =>
    intro idx coll comp vis adv
    simp only [insertWalkTraced, insertWalk]
    cases t.bucket idx with
    | none => rfl
    | some e =>
      simp only
      by_cases h1 : toLower e.word ≠ lw ∧ e.deleted = false
      · rw [if_pos h1, if_pos h1]
        by_cases h2 : (idx + 1) % t.capacity = orig
        · rw [if_pos h2, if_pos h2]
        · rw [if_neg h2, if_neg h2]
          exact ih _ _ _ _ _
      · rw [if_neg h1, if_neg h1]

theorem range_succ_map (f : Nat → Nat) (m : Nat) :
    (List.range (m + 1)).map f = f 0 :: (List.range m).map (fun i => f (i + 1)) := by
  rw [List.range_succ_eq_map, List.map_cons, List.map_map]
  rfl

/-- The slots the lookup loop examines are consecutive slots of the probe sequence, at most
as many as the fuel. -/
theorem lookupWalkTraced_snd (t : HashTable) (lw : Str) (orig : Nat) :
    ∀ fuel k idx comp vis, idx = (orig + k) % t.capacity →
      ∃ m, m ≤ fuel ∧ (0 < fuel → 0 < m) ∧
        (lookupWalkTraced t lw orig fuel idx comp vis).2
          = vis ++ (List.range m).map (fun i => (orig + (k + i)) % t.capacity) := by
  intro fuel
  induction fuel with
  | zero =>
    intro k idx comp vis _
    exact ⟨0, Nat.le_refl _, fun h => h, by simp [lookupWalkTraced]⟩
  | succ n ih =>
    intro k idx comp vis hidx
    have one : vis ++ [idx]
        = vis ++ (List.range 1).map (fun i => (orig + (k + i)) % t.capacity) := by
      rw [hidx]; rfl
    simp only [lookupWalkTraced]
    cases t.bucket idx with
    | none => exact ⟨1, by omega, fun _ => by omega, one⟩
    | some e =>
      simp only
      by_cases h1 : toLower e.word = lw ∧ e.deleted = false
      · rw [if_pos h1]
        exact ⟨1, by omega, fun _ => by omega, one⟩
      · rw [if_neg h1]
        by_cases h2 : (idx + 1) % t.capacity = orig
        · rw [if_pos h2]
          exact ⟨1, by omega, fun _ => by omega, one⟩
        · rw [if_neg h2]
          obtain ⟨m, hm, _, heq⟩ := ih (k + 1) ((idx + 1) % t.capacity) (comp + 1)
            (vis ++ [idx]) (by rw [hidx, step_idx])
          refine ⟨m + 1, by omega, fun _ => by omega, ?_⟩
          rw [heq, range_succ_map, List.append_assoc, hidx]
          simp only [List.singleton_append, Nat.add_zero, Nat.add_assoc, Nat.add_comm 1]

/-- The slots the loop of `insert` examines are consecutive slots of the probe sequence, at
most as many as the fuel, and it advances at most once per examined slot. -/
theorem insertWalkTraced_snd (t : HashTable) (lw : Str) (orig : Nat) :
    ∀ fuel k idx coll comp vis adv, idx = (orig + k) % t.capacity →
      ∃ m a, m ≤ fuel ∧ (0 < fuel → 0 < m) ∧ a ≤ m ∧
        (insertWalkTraced t lw orig fuel idx coll comp vis adv).2
          = (vis ++ (List.range m).map (fun i => (orig + (k + i)) % t.capacity), adv + a) := by
  intro fuel
  induction fuel with
  | zero =>
    intro k idx coll comp vis adv _
    exact ⟨0, 0, Nat.le_refl _, fun h => h, Nat.le_refl _, by simp [insertWalkTraced]⟩
  | succ n ih =>
    intro k idx coll comp vis adv hidx
    have one : vis ++ [idx]
        = vis ++ (List.range 1).map (fun i => (orig + (k + i)) % t.capacity) := by
      rw [hidx]; rfl
    simp only [insertWalkTraced]
    cases t.bucket idx with
    | none => exact ⟨1, 0, by omega, fun _ => by omega, by omega, by rw [one]; rfl⟩
    | some e =>
      simp only
      by_cases h1 : toLower e.word ≠ lw ∧ e.deleted = false
      · rw [if_pos h1]
        by_cases h2 : (idx + 1) % t.capacity = orig
        · rw [if_pos h2]
          exact ⟨1, 1, by omega, fun _ => by omega, by omega, by rw [one]⟩
        · rw [if_neg h2]
          obtain ⟨m, a, hm, _, ha, heq⟩ := ih (k + 1) ((idx + 1) % t.capacity)
            ((coll + 1) % 2 ^ 32) ((comp + 1) % 2 ^ 32) (vis ++ [idx]) (adv + 1)
            (by rw [hidx, step_idx])
          refine ⟨m + 1, a + 1, by omega, fun _ => by omega, by omega, ?_⟩
          rw [heq, range_succ_map, List.append_assoc, hidx]
          simp only [List.singleton_append, Nat.add_zero, Nat.add_assoc, Nat.add_comm 1]
      · rw [if_neg h1]
        exact ⟨1, 0, by omega, fun _ => by omega, by omega, by rw [one]; rfl⟩

/-- More fuel does not change the result of a lookup loop that ended. -/
theorem lookupWalk_fuel_add (t : HashTable) (lw : Str) (orig : Nat) :
    ∀ fuel idx comp, lookupWalk t lw orig fuel idx comp ≠ LookupWalk.outOfFuel →
      ∀ n, lookupWalk t lw orig (fuel + n) idx comp = lookupWalk t lw orig fuel idx comp := by
  intro fuel
  induction fuel with
  | zero => intro idx comp h; exact absurd rfl h
  | succ f ih =>
    intro idx comp h n
    rw [Nat.add_right_comm]
    simp only [lookupWalk] at h ⊢
    cases hb : t.bucket idx with
    | none => rfl
    | some e =>
      rw [hb] at h
      simp only at h ⊢
      by_cases h1 : toLower e.word = lw ∧ e.deleted = false
      · rw [if_pos h1, if_pos h1]
      · rw [if_neg h1] at h
        rw [if_neg h1, if_neg h1]
        by_cases h2 : (idx + 1) % t.capacity = orig
        · rw [if_pos h2, if_pos h2]
        · rw [if_neg h2] at h
          rw [if_neg h2, if_neg h2]
          exact ih _ _ h n

/-- More fuel does not change the result of a loop of `insert` that ended. -/
theorem insertWalk_fuel_add (t : HashTable) (lw : Str) (orig : Nat) :
    ∀ fuel idx coll comp, insertWalk t lw orig fuel idx coll comp ≠ InsertWalk.outOfFuel →
      ∀ n, insertWalk t lw orig (fuel + n) idx coll comp
        = insertWalk t lw orig fuel idx coll comp := by
  intro fuel
  induction fuel with
  | zero => intro idx coll comp h; exact absurd rfl h
  | succ f ih =>
    intro idx coll comp h n
    rw [Nat.add_right_comm]
    simp only [insertWalk] at h ⊢
    cases hb : t.bucket idx with
    | none => rfl
    | some e =>
      rw [hb] at h
      simp only at h ⊢
      by_cases h1 : toLower e.word ≠ lw ∧ e.deleted = false
      · rw [if_pos h1] at h
        rw [if_pos h1, if_pos h1]
        by_cases h2 : (idx + 1) % t.capacity = orig
        · rw [if_pos h2, if_pos h2]
        · rw [if_neg h2] at h
          rw [if_neg h2, if_neg h2]
          exact ih _ _ _ h n
      · rw [if_neg h1, if_neg h1]

/-- The lookup loop started at the hash code with fuel `capacity` ends. -/
theorem lookupWalk_ends (t : HashTable) (hc : 0 < t.capacity) (w : Str) :
    lookupWalk t (toLower w) (t.hashCode (toLower w)) t.capacity (t.hashCode (toLower w)) 0
      ≠ LookupWalk.outOfFuel :=
  lookupWalk_ne_outOfFuel t _ _ (hashCode_lt t hc _) t.capacity 0 _ 0 hc (by omega)
    (by rw [Nat.add_zero, Nat.mod_eq_of_lt (hashCode_lt t hc _)])

/-- The loop of `insert` started at the hash code with fuel `capacity` ends. -/
theorem insertWalk_ends (t : HashTable) (hc : 0 < t.capacity) (w : Str) :
    insertWalk t (toLower w) (t.hashCode (toLower w)) t.capacity (t.hashCode (toLower w))
      t.collisions 0 ≠ InsertWalk.outOfFuel :=
  insertWalk_ne_outOfFuel t _ _ (hashCode_lt t hc _) t.capacity 0 _ _ 0 hc (by omega)
    (by rw [Nat.add_zero, Nat.mod_eq_of_lt (hashCode_lt t hc _)])

theorem find_ne_outOfFuel (t : HashTable) (hc : 0 < t.capacity) (w : Str) :
    t.find w ≠ FindResult.outOfFuel := by
  have hwalk := lookupWalk_ends t hc w
  intro h
  unfold HashTable.find at h
  split_ifs at h
  simp only at h
  split at h
  · rename_i heq
    exact hwalk heq
  · cases h
  · split at h <;> cases h

theorem delWord_ne_outOfFuel (t : HashTable) (hc : 0 < t.capacity) (w : Str) :
    (t.delWord w).2 ≠ DelResult.outOfFuel := by
  have hwalk := lookupWalk_ends t hc w
  intro h
  unfold HashTable.delWord at h
  split_ifs at h
  simp only at h
  split at h
  · rename_i heq
    exact hwalk heq
  · cases h
  · split at h <;> cases h

theorem delTranslation_ne_outOfFuel (t : HashTable) (hc : 0 < t.capacity) (w l : Str) :
    (t.delTranslation w l).2 ≠ DelResult.outOfFuel := by
  have hwalk := lookupWalk_ends t hc w
  intro h
  unfold HashTable.delTranslation at h
  split_ifs at h
  simp only at h
  split at h
  · rename_i heq
    exact hwalk heq
  · cases h
  · split at h
    · split at h <;> cases h
    · cases h

theorem delMeaning_ne_outOfFuel (t : HashTable) (hc : 0 < t.capacity) (w m l : Str) :
    (t.delMeaning w m l).2 ≠ DelResult.outOfFuel := by
  have hwalk := lookupWalk_ends t hc w
  intro h
  unfold HashTable.delMeaning at h
  split_ifs at h
  simp only at h
  split at h
  · rename_i heq
    exact hwalk heq
  · cases h
  · split at h
    · split at h <;> cases h
    · cases h

theorem insert_ne_outOfFuel (t : HashTable) (hc : 0 < t.capacity) (w m l line : Str)
    (silent : Bool) : (t.insert w m l line silent).2 ≠ InsertOutcome.outOfFuel := by
  have hwalk := insertWalk_ends t hc w
  intro h
  unfold HashTable.insert at h
  split_ifs at h
  simp only at h
  split at h
  · rename_i heq
    exact hwalk heq
  · cases h
  · split at h
    · cases h
    · split_ifs at h

/-- The traced lookup loop started at the hash code: the result of `lookupWalk` and the
first `m` slots of the probe sequence, with `1 ≤ m ≤ capacity`. -/
theorem lookupWalkTraced_run (t : HashTable) (hc : 0 < t.capacity) (lw : Str) :
    ∃ m, 1 ≤ m ∧ m ≤ t.capacity ∧
      lookupWalkTraced t lw (t.hashCode lw) t.capacity (t.hashCode lw) 0 []
        = (lookupWalk t lw (t.hashCode lw) t.capacity (t.hashCode lw) 0,
           (List.range m).map (fun i => (t.hashCode lw + i) % t.capacity)) := by
  obtain ⟨m, hm, hpos, heq⟩ := lookupWalkTraced_snd t lw (t.hashCode lw) t.capacity 0
    (t.hashCode lw) 0 []
    (by rw [Nat.add_zero, Nat.mod_eq_of_lt (hashCode_lt t hc _)])
  refine ⟨m, hpos hc, hm, ?_⟩
  refine Prod.ext (lookupWalkTraced_fst t lw _ _ _ _ _) ?_
  rw [heq]
  simp only [List.nil_append, Nat.zero_add]

/-- The traced loop of `insert` started at the hash code: the result of `insertWalk`, the
first `m` slots of the probe sequence and the number `a` of advances, with
`1 ≤ m ≤ capacity` and `a ≤ m`. -/
theorem insertWalkTraced_run (t : HashTable) (hc : 0 < t.capacity) (lw : Str) :
    ∃ m a, 1 ≤ m ∧ m ≤ t.capacity ∧ a ≤ m ∧
      insertWalkTraced t lw (t.hashCode lw) t.capacity (t.hashCode lw) t.collisions 0 [] 0
        = (insertWalk t lw (t.hashCode lw) t.capacity (t.hashCode lw) t.collisions 0,
           (List.range m).map (fun i => (t.hashCode lw + i) % t.capacity), a) := by
  obtain ⟨m, a, hm, hpos, ha, heq⟩ := insertWalkTraced_snd t lw (t.hashCode lw) t.capacity 0
    (t.hashCode lw) t.collisions 0 [] 0
    (by rw [Nat.add_zero, Nat.mod_eq_of_lt (hashCode_lt t hc _)])
  refine ⟨m, a, hpos hc, hm, ha, ?_⟩
  refine Prod.ext (insertWalkTraced_fst t lw _ _ _ _ _ _ _) ?_
  rw [heq]
  simp only [List.nil_append, Nat.zero_add]

/-! ## No slot is emptied -/

theorem slotsKept_refl (t : HashTable) : t.SlotsKept t :=
  fun _ => ⟨fun h => h, fun h => h⟩

theorem slotsKept_trans {a b c : HashTable} (h1 : a.SlotsKept b) (h2 : b.SlotsKept c) :
    a.SlotsKept c :=
  fun i => ⟨fun h => (h2 i).1 ((h1 i).1 h), fun h => (h2 i).2 ((h1 i).2 h)⟩

/-- Writing an entry with a non-empty key into a slot keeps the slots. -/
theorem slotsKept_set_new (t : HashTable) (j : Nat) (hjl : j < t.buckets.length) (e' : Entry)
    (hw : e'.word ≠ []) (sz coll : Nat) :
    t.SlotsKept { t with buckets := t.buckets.set j (some e'), size := sz, collisions := coll } := by
  intro i
  rw [bucket_set t j hjl]
  by_cases hi : i = j
  · rw [if_pos hi]
    refine ⟨fun _ h => Option.noConfusion h, fun _ e he => ?_⟩
    cases he
    exact hw
  · rw [if_neg hi]
    exact ⟨fun h => h, fun h => h⟩

/-- Replacing an entry by one with the same key keeps the slots. -/
theorem slotsKept_set_same (t : HashTable) (j : Nat) (e e' : Entry) (hb : t.bucket j = some e)
    (hw : e'.word = e.word) (sz coll : Nat) :
    t.SlotsKept { t with buckets := t.buckets.set j (some e'), size := sz, collisions := coll } := by
  intro i
  rw [bucket_set t j (bucket_lt hb)]
  by_cases hi : i = j
  · rw [if_pos hi]
    subst hi
    refine ⟨fun _ h => Option.noConfusion h, fun h x hx => ?_⟩
    cases hx
    rw [hw]
    exact h e hb
  · rw [if_neg hi]
    exact ⟨fun h => h, fun h => h⟩

theorem insert_slotsKept (t : HashTable) (hwf : t.WF) (w m l line : Str) (silent : Bool) :
    t.SlotsKept (t.insert w m l line silent).1 := by
  by_cases hne : (w.isEmpty || m.isEmpty || l.isEmpty) = true
  · simp only [HashTable.insert, hne, if_true]
    exact slotsKept_refl t
  · have hw : w ≠ [] := by intro h0; simp [h0] at hne
    have hm : m ≠ [] := by intro h0; simp [h0] at hne
    have hl : l ≠ [] := by intro h0; simp [h0] at hne
    rcases insert_cases t hwf w m l line silent hw hm hl with
      ⟨coll, comp, heq⟩ | ⟨j, coll, hj, _, _, heq⟩ | ⟨j, coll, e, _, _, hb, _, _, heq⟩
    · rw [heq]
      exact fun _ => ⟨fun h => h, fun h => h⟩
    · rw [heq]
      refine slotsKept_set_new t j (by rw [hwf.2.2]; exact hj) _ ?_ _ _
      rw [Entry.new_word _ _ _ _ hw]
      exact fun h => hw (toLower_eq_nil.1 h)
    · rw [heq]
      exact slotsKept_set_same t j e _ hb (Entry.addTranslation_word e m l) _ _

theorem delWord_slotsKept (t : HashTable) (hwf : t.WF) (w : Str) :
    t.SlotsKept (t.delWord w).1 := by
  unfold HashTable.delWord
  split_ifs
  · exact slotsKept_refl t
  · simp only
    rcases lookup_cases t hwf w with ⟨c, hwalk⟩ | ⟨j, c, e, hwalk, _, hb, _, _⟩
    · rw [hwalk]
      exact slotsKept_refl t
    · rw [hwalk]
      simp only [hb]
      refine slotsKept_set_same t j e _ hb ?_ _ _
      rfl

theorem delTranslation_slotsKept (t : HashTable) (hwf : t.WF) (w l : Str) :
    t.SlotsKept (t.delTranslation w l).1 := by
  unfold HashTable.delTranslation
  split_ifs
  · exact slotsKept_refl t
  · simp only
    rcases lookup_cases t hwf w with ⟨c, hwalk⟩ | ⟨j, c, e, hwalk, _, hb, _, _⟩
    · rw [hwalk]
      exact slotsKept_refl t
    · rw [hwalk]
      simp only [hb]
      split
      · refine slotsKept_set_same t j e _ hb ?_ _ _
        rfl
      · exact slotsKept_refl t

theorem delMeaning_slotsKept (t : HashTable) (hwf : t.WF) (w m l : Str) :
    t.SlotsKept (t.delMeaning w m l).1 := by
  unfold HashTable.delMeaning
  split_ifs
  · exact slotsKept_refl t
  · simp only
    rcases lookup_cases t hwf w with ⟨c, hwalk⟩ | ⟨j, c, e, hwalk, _, hb, _, _⟩
    · rw [hwalk]
      exact slotsKept_refl t
    · rw [hwalk]
      simp only [hb]
      split
      · refine slotsKept_set_same t j e _ hb ?_ _ _
        rfl
      · exact slotsKept_refl t

theorem importLine_slotsKept (language : Str) (acc : HashTable × Nat) (h : acc.1.Inv)
    (line : Str) : acc.1.SlotsKept (importLine language acc line).1 := by
  unfold importLine
  split_ifs
  · exact slotsKept_refl _
  · simp only
    split_ifs <;> first | exact slotsKept_refl _ | exact insert_slotsKept _ h.1 _ _ _ _ _
  · exact slotsKept_refl _

theorem importLines_slotsKept (language : Str) (lines : List Str) :
    ∀ acc : HashTable × Nat, acc.1.Inv →
      acc.1.SlotsKept (lines.foldl (importLine language) acc).1 := by
  induction lines with
  | nil => intro acc _; exact slotsKept_refl _
  | cons line rest ih =>
    intro acc h
    exact slotsKept_trans (importLine_slotsKept language acc h line)
      (ih _ (importLine_inv language acc h line))

theorem importData_slotsKept (t : HashTable) (h : t.Inv) (path : Str) (file : Option Str) :
    t.SlotsKept (t.importData path file).1 := by
  unfold HashTable.importData
  split_ifs
  · exact slotsKept_refl t
  · split
    · exact slotsKept_refl t
    · split
      · exact slotsKept_refl t
      · split_ifs
        · exact slotsKept_refl t
        · exact importLines_slotsKept _ _ (t, 0) h

theorem apply_slotsKept (t : HashTable) (h : t.Inv) (op : Op) : t.SlotsKept (t.apply op) := by
  cases op with
  | insert w m l line silent => exact insert_slotsKept t h.1 w m l line silent
  | addWord w m l => exact insert_slotsKept t h.1 _ _ _ _ _
  | importData path file => exact importData_slotsKept t h path file
  | delWord w => exact delWord_slotsKept t h.1 w
  | delTranslation w l => exact delTranslation_slotsKept t h.1 w l
  | delMeaning w m l => exact delMeaning_slotsKept t h.1 w m l

theorem foldl_apply_slotsKept (ops : List Op) :
    ∀ t : HashTable, t.Inv → t.SlotsKept (ops.foldl HashTable.apply t) := by
  induction ops with
  | nil => intro t _; exact slotsKept_refl t
  | cons op rest ih =>
    intro t h
    exact slotsKept_trans (apply_slotsKept t h op) (ih _ (apply_inv t h op))

/-- Every entry of a reachable table has a non-empty key. -/
theorem run_word_ne_nil (capacity : Nat) (hcap : capacity < 2 ^ 32) (ops : List Op) (i : Nat)
    (e : Entry) (hb : (run capacity ops).bucket i = some e) : e.word ≠ [] := by
  refine ((foldl_apply_slotsKept ops _ (new_inv capacity hcap)) i).2 ?_ e hb
  intro x hx
  rw [new_bucket] at hx
  cases hx

/-- On a reachable table `find` succeeds for the key of every live entry: it reports the
translations of a live entry with that key. -/
theorem run_find_live (capacity : Nat) (hcap : capacity < 2 ^ 32) (ops : List Op) (i : Nat)
    (e : Entry) (hb : (run capacity ops).bucket i = some e) (hd : e.deleted = false) :
    ∃ j c x, (run capacity ops).bucket j = some x ∧ x.deleted = false ∧
      toLower x.word = toLower e.word ∧
      (run capacity ops).find e.word = FindResult.found c x.translations := by
  have hinv := run_inv capacity hcap ops
  obtain ⟨j, c, x, hwalk, _, hbx, hkx, hdx⟩ := lookup_hit_of_live _ hinv.1
    (run_pathInv capacity hcap ops) e.word i e hb hd rfl
  exact ⟨j, c, x, hbx, hdx, hkx,
    find_of_hit _ e.word (run_word_ne_nil capacity hcap ops i e hb) j c x hwalk hbx⟩

/-! ## The collision counter counts the advances -/

/-- The counter that the loop of `insert` returns is the counter before plus the number of
advances the traced loop records, modulo `2 ^ 32`. -/
theorem insertWalkTraced_collisions (t : HashTable) (lw : Str) (orig : Nat) :
    ∀ fuel idx coll comp vis adv, coll < 2 ^ 32 →
      ∃ a, a ≤ fuel ∧
        (insertWalkTraced t lw orig fuel idx coll comp vis adv).2.2 = adv + a ∧
        (∀ j c, insertWalk t lw orig fuel idx coll comp = InsertWalk.stop j c →
          c = (coll + a) % 2 ^ 32) ∧
        (∀ c cmp, insertWalk t lw orig fuel idx coll comp = InsertWalk.full c cmp →
          c = (coll + a) % 2 ^ 32) := by
  intro fuel
  induction fuel with
  | zero =>
    intro idx coll comp vis adv _
    exact ⟨0, Nat.le_refl _, rfl, fun j c h => by simp [insertWalk] at h,
      fun c cmp h => by simp [insertWalk] at h⟩
  | succ n ih =>
    intro idx coll comp vis adv hlt
    simp only [insertWalkTraced, insertWalk]
    cases t.bucket idx with
    | none =>
      refine ⟨0, by omega, rfl, ?_, ?_⟩
      · intro j c h
        simp only [InsertWalk.stop.injEq] at h
        rw [← h.2, Nat.add_zero, Nat.mod_eq_of_lt hlt]
      · intro c cmp h
        cases h
    | some e =>
      simp only
      by_cases h1 : toLower e.word ≠ lw ∧ e.deleted = false
      · rw [if_pos h1, if_pos h1]
        by_cases h2 : (idx + 1) % t.capacity = orig
        · rw [if_pos h2, if_pos h2]
          refine ⟨1, by omega, rfl, ?_, ?_⟩
          · intro j c h
            cases h
          · intro c cmp h
            simp only [InsertWalk.full.injEq] at h
            exact h.1.symm
        · rw [if_neg h2, if_neg h2]
          obtain ⟨a, ha, hadv, hs, hf⟩ := ih ((idx + 1) % t.capacity) ((coll + 1) % 2 ^ 32)
            ((comp + 1) % 2 ^ 32) (vis ++ [idx]) (adv + 1) (Nat.mod_lt _ (by norm_num))
          refine ⟨a + 1, by omega, by rw [hadv]; omega, ?_, ?_⟩
          · intro j c h
            rw [hs j c h]
            omega
          · intro c cmp h
            rw [hf c cmp h]
            omega
      · rw [if_neg h1, if_neg h1]
        refine ⟨0, by omega, rfl, ?_, ?_⟩
        · intro j c h
          simp only [InsertWalk.stop.injEq] at h
          rw [← h.2, Nat.add_zero, Nat.mod_eq_of_lt hlt]
        · intro c cmp h
          cases h

/-- The advances of the traced loop of `insert` pass live entries of other words only, and
the loop stops before `capacity` advances only at a slot that is empty, deleted or holds the
word: the number of advances is the number of leading slots of the probe sequence that hold
live entries of other words, at most the capacity. -/
theorem insertWalkTraced_advances (t : HashTable) (lw : Str) (orig : Nat)
    (ho : orig < t.capacity) :
    ∀ fuel k idx coll comp vis adv, k + fuel = t.capacity → idx = (orig + k) % t.capacity →
      ∃ a, a ≤ fuel ∧
        (insertWalkTraced t lw orig fuel idx coll comp vis adv).2.2 = adv + a ∧
        (∀ i, i < a → ∃ e, t.bucket ((orig + (k + i)) % t.capacity) = some e ∧
          e.deleted = false ∧ toLower e.word ≠ lw) ∧
        (k + a < t.capacity →
          t.bucket ((orig + (k + a)) % t.capacity) = none ∨
          ∃ e, t.bucket ((orig + (k + a)) % t.capacity) = some e ∧
            (e.deleted = true ∨ toLower e.word = lw)) := by
  intro fuel
  induction fuel with
  | zero =>
    intro k idx coll comp vis adv hk _
    exact ⟨0, Nat.le_refl _, rfl, fun i hi => absurd hi (Nat.not_lt_zero i),
      fun h => by omega⟩
  | succ n ih =>
    intro k idx coll comp vis adv hk hidx
    simp only [insertWalkTraced]
    cases hb : t.bucket idx with
    | none =>
      refine ⟨0, by omega, rfl, fun i hi => absurd hi (Nat.not_lt_zero i), fun _ => ?_⟩
      left
      rw [Nat.add_zero, ← hidx]
      exact hb
    | some e =>
      simp only
      by_cases h1 : toLower e.word ≠ lw ∧ e.deleted = false
      · rw [if_pos h1]
        have hfirst : ∀ i, i < 1 → ∃ x, t.bucket ((orig + (k + i)) % t.capacity) = some x ∧
            x.deleted = false ∧ toLower x.word ≠ lw := by
          intro i hi
          have h0 : i = 0 := by omega
          subst h0
          rw [Nat.add_zero, ← hidx]
          exact ⟨e, hb, h1.2, h1.1⟩
        by_cases h2 : (idx + 1) % t.capacity = orig
        · rw [if_pos h2]
          refine ⟨1, by omega, rfl, hfirst, fun hlt => ?_⟩
          rw [hidx, step_idx] at h2
          exact absurd h2 (mod_add_ne t.capacity orig (k + 1) ho (by omega) hlt)
        · rw [if_neg h2]
          obtain ⟨a, ha, hadv, hlive, hstop⟩ := ih (k + 1) ((idx + 1) % t.capacity)
            ((coll + 1) % 2 ^ 32) ((comp + 1) % 2 ^ 32) (vis ++ [idx]) (adv + 1) (by omega)
            (by rw [hidx, step_idx])
          refine ⟨a + 1, by omega, by rw [hadv]; omega, ?_, ?_⟩
          · intro i hi
            cases i with
            | zero => exact hfirst 0 (by omega)
            | succ i =>
              have h3 : orig + (k + (i + 1)) = orig + (k + 1 + i) := by omega
              rw [h3]
              exact hlive i (by omega)
          · intro hlt
            have h3 : orig + (k + (a + 1)) = orig + (k + 1 + a) := by omega
            rw [h3]
            exact hstop (by omega)
      · rw [if_neg h1]
        refine ⟨0, by omega, rfl, fun i hi => absurd hi (Nat.not_lt_zero i), fun _ => ?_⟩
        right
        rw [Nat.add_zero, ← hidx]
        refine ⟨e, hb, ?_⟩
        by_cases hd : e.deleted = true
        · exact Or.inl hd
        · right
          by_contra hk'
          exact h1 ⟨hk', by simpa using hd⟩

theorem insertWalkTraced_adv_le (t : HashTable) (lw : Str) (orig : Nat) :
    ∀ fuel idx coll comp vis adv,
      (insertWalkTraced t lw orig fuel idx coll comp vis adv).2.2 ≤ adv + fuel := by
  intro fuel
  induction fuel with
  | zero => intro idx coll comp vis adv; exact Nat.le_refl _
  | succ n ih =>
    intro idx coll comp vis adv
    simp only [insertWalkTraced]
    cases t.bucket idx with
    | none => exact Nat.le_add_right _ _
    | some e =>
      simp only
      split_ifs
      · show adv + 1 ≤ adv + (n + 1)
        omega
      · have := ih ((idx + 1) % t.capacity) ((coll + 1) % 2 ^ 32) ((comp + 1) % 2 ^ 32)
          (vis ++ [idx]) (adv + 1)
        omega
      · exact Nat.le_add_right _ _

theorem insertAdvances_le (t : HashTable) (w m l : Str) :
    t.insertAdvances w m l ≤ t.capacity := by
  unfold HashTable.insertAdvances
  split_ifs
  · exact Nat.zero_le _
  · have h := insertWalkTraced_adv_le t (toLower w) (t.hashCode (toLower w)) t.capacity
      (t.hashCode (toLower w)) t.collisions 0 [] 0
    rw [Nat.zero_add] at h
    exact h

/-- The collision counter after `insert`: the counter before plus the number of advances of
the call, modulo `2 ^ 32`. -/
theorem insert_collisions_eq (t : HashTable) (hcoll : t.collisions < 2 ^ 32)
    (w m l line : Str) (silent : Bool) :
    (t.insert w m l line silent).1.collisions
      = (t.collisions + t.insertAdvances w m l) % 2 ^ 32 := by
  unfold HashTable.insert HashTable.insertAdvances
  by_cases hg : (w.isEmpty || m.isEmpty || l.isEmpty) = true
  · rw [if_pos hg, if_pos hg, Nat.add_zero, Nat.mod_eq_of_lt hcoll]
  · rw [if_neg hg, if_neg hg]
    obtain ⟨a, ha, hadv, hs, hf⟩ := insertWalkTraced_collisions t (toLower w)
      (t.hashCode (toLower w)) t.capacity (t.hashCode (toLower w)) t.collisions 0 [] 0 hcoll
    rw [Nat.zero_add] at hadv
    simp only [hadv]
    cases hres : insertWalk t (toLower w) (t.hashCode (toLower w)) t.capacity
        (t.hashCode (toLower w)) t.collisions 0 with
    | outOfFuel =>
      by_cases hc : 0 < t.capacity
      · exact absurd hres (insertWalk_ends t hc w)
      · have h0 : a = 0 := by omega
        subst h0
        show t.collisions = (t.collisions + 0) % 2 ^ 32
        omega
    | full c cmp => exact hf c cmp hres
    | stop j c =>
      have hc := hs j c hres
      simp only
      split
      · exact hc
      · split_ifs <;> exact hc

/-- What the advances of a call of `insert` with non-empty arguments are: they pass live
entries of other words at the first steps of the probe sequence of the word, and fewer than
`capacity` advances end at a slot that is empty, deleted or holds the word. -/
theorem insertAdvances_spec (t : HashTable) (hc : 0 < t.capacity) (w m l : Str)
    (hw : w ≠ []) (hm : m ≠ []) (hl : l ≠ []) :
    (∀ i, i < t.insertAdvances w m l →
      ∃ e, t.bucket ((t.hashCode (toLower w) + i) % t.capacity) = some e ∧
        e.deleted = false ∧ toLower e.word ≠ toLower w) ∧
    (t.insertAdvances w m l < t.capacity →
      t.bucket ((t.hashCode (toLower w) + t.insertAdvances w m l) % t.capacity) = none ∨
      ∃ e, t.bucket ((t.hashCode (toLower w) + t.insertAdvances w m l) % t.capacity) = some e ∧
        (e.deleted = true ∨ toLower e.word = toLower w)) := by
  have hh : t.hashCode (toLower w) < t.capacity := hashCode_lt t hc _
  obtain ⟨a, _, hadv, hlive, hstop⟩ := insertWalkTraced_advances t (toLower w)
    (t.hashCode (toLower w)) hh t.capacity 0 (t.hashCode (toLower w)) t.collisions 0 [] 0
    (by omega) (by rw [Nat.add_zero, Nat.mod_eq_of_lt hh])
  have hg : ¬ (w.isEmpty || m.isEmpty || l.isEmpty) = true := by
    simp [List.isEmpty_iff, hw, hm, hl]
  have heq : t.insertAdvances w m l = a := by
    unfold HashTable.insertAdvances
    rw [if_neg hg]
    simp only [hadv, Nat.zero_add]
  rw [heq]
  simp only [Nat.zero_add] at hlive hstop
  exact ⟨hlive, hstop⟩

theorem importLine_capacity (language : Str) (acc : HashTable × Nat) (line : Str) :
    (importLine language acc line).1.capacity = acc.1.capacity := by
  unfold importLine
  split_ifs
  · rfl
  · simp only
    split_ifs <;> first | rfl | exact insert_capacity _ _ _ _ _ _
  · rfl

theorem importLine_collisions_eq (language : Str) (acc : HashTable × Nat) (line : Str)
    (hcoll : acc.1.collisions < 2 ^ 32) :
    (importLine language acc line).1.collisions
      = (acc.1.collisions + importLineAdvances language acc.1 line) % 2 ^ 32 := by
  have h0 : acc.1.collisions = (acc.1.collisions + 0) % 2 ^ 32 := by
    rw [Nat.add_zero, Nat.mod_eq_of_lt hcoll]
  unfold importLine importLineAdvances
  by_cases h1 : line.isEmpty = true
  · rw [if_pos h1, if_pos h1]
    exact h0
  · rw [if_neg h1, if_neg h1]
    by_cases h2 : ¬ 58 ∈ line
    · rw [if_pos h2, if_pos h2]
      exact h0
    · rw [if_neg h2, if_neg h2]
      simp only
      by_cases h3 : (trim (List.take (List.indexOf 58 line) line)).isEmpty = true
      · rw [if_pos h3, if_pos h3]
        exact h0
      · rw [if_neg h3, if_neg h3]
        exact insert_collisions_eq _ hcoll _ _ _ _ _

theorem importLineAdvances_le (language : Str) (t : HashTable) (line : Str) :
    importLineAdvances language t line ≤ t.capacity := by
  unfold importLineAdvances
  split_ifs
  · exact Nat.zero_le _
  · simp only
    split_ifs <;> first | exact Nat.zero_le _ | exact insertAdvances_le _ _ _ _
  · exact Nat.zero_le _

/-- The collision counter after the reading loop of `import`: the counter before plus the
number of advances of all its insertions, modulo `2 ^ 32`. -/
theorem importLines_collisions_eq (language : Str) (lines : List Str) :
    ∀ acc : HashTable × Nat, acc.1.collisions < 2 ^ 32 →
      (lines.foldl (importLine language) acc).1.collisions
        = (acc.1.collisions + importAdvances language lines acc) % 2 ^ 32 := by
  induction lines with
  | nil =>
    intro acc h
    simp only [List.foldl_nil, importAdvances, Nat.add_zero, Nat.mod_eq_of_lt h]
  | cons line rest ih =>
    intro acc h
    have h1 := importLine_collisions_eq language acc line h
    rw [List.foldl_cons, ih _ (by rw [h1]; exact Nat.mod_lt _ (by norm_num)), h1]
    simp only [importAdvances]
    rw [Nat.mod_add_mod, Nat.add_assoc]

theorem importAdvances_le (language : Str) (lines : List Str) :
    ∀ acc : HashTable × Nat,
      importAdvances language lines acc ≤ lines.length * acc.1.capacity := by
  induction lines with
  | nil => intro acc; simp [importAdvances]
  | cons line rest ih =>
    intro acc
    have h1 := importLineAdvances_le language acc.1 line
    have h2 := ih (importLine language acc line)
    rw [importLine_capacity] at h2
    simp only [importAdvances, List.length_cons, Nat.succ_mul]
    omega

theorem importData_collisions_eq (t : HashTable) (hcoll : t.collisions < 2 ^ 32) (path : Str)
    (file : Option Str) :
    (t.importData path file).1.collisions
      = (t.collisions + t.importDataAdvances path file) % 2 ^ 32 := by
  have h0 : t.collisions = (t.collisions + 0) % 2 ^ 32 := by
    rw [Nat.add_zero, Nat.mod_eq_of_lt hcoll]
  unfold HashTable.importData HashTable.importDataAdvances
  by_cases h1 : path.isEmpty = true
  · rw [if_pos h1, if_pos h1]
    exact h0
  · rw [if_neg h1, if_neg h1]
    cases file with
    | none => exact h0
    | some content =>
      simp only
      cases getlineAll 10 content [] with
      | nil => exact h0
      | cons language lines =>
        simp only
        by_cases h2 : language.isEmpty = true
        · rw [if_pos h2, if_pos h2]
          exact h0
        · rw [if_neg h2, if_neg h2]
          exact importLines_collisions_eq language lines (t, 0) hcoll

theorem importDataAdvances_le (t : HashTable) (path content : Str) :
    t.importDataAdvances path (some content)
      ≤ (getlineAll 10 content []).length * t.capacity := by
  unfold HashTable.importDataAdvances
  split_ifs
  · exact Nat.zero_le _
  · simp only
    cases getlineAll 10 content [] with
    | nil => exact Nat.zero_le _
    | cons language lines =>
      simp only
      split_ifs
      · exact Nat.zero_le _
      · have h := importAdvances_le language lines (t, 0)
        simp only [List.length_cons, Nat.succ_mul] at h ⊢
        omega

/-- An `unsigned int` counter to which less than `2 ^ 32` is added modulo `2 ^ 32` does not
decrease exactly when the sum does not pass `2 ^ 32`. -/
theorem le_add_mod_iff (c a : Nat) (hc : c < 2 ^ 32) (ha : a < 2 ^ 32) :
    c ≤ (c + a) % 2 ^ 32 ↔ c + a < 2 ^ 32 := by
  constructor
  · intro h
    by_contra hlt
    rw [Nat.mod_eq_sub_mod (by omega), Nat.mod_eq_of_lt (by omega)] at h
    omega
  · intro h
    rw [Nat.mod_eq_of_lt h]
    omega

/-! ## Claims -/

/-- C1: on every reachable table, when `insert w m l` with non-empty arguments does not end
in the table-full condition, it created or merged into the entry of some slot `j`, and on the
resulting table `find` of every case variant of `w` succeeds and returns exactly the
translations of the entry in slot `j`, among which there is a translation for `l`. -/
theorem C1_find_after_insert (capacity : Nat) (hcap : capacity < 2 ^ 32) (ops : List Op)
    (w m l line : Str) (silent : Bool) (hw : w ≠ []) (hm : m ≠ []) (hl : l ≠ [])
    (hfull : ((run capacity ops).insert w m l line silent).2.isFull = false)
    (w' : Str) (hcase : toLower w' = toLower w) :
    ∃ j e comparisons,
      (((run capacity ops).insert w m l line silent).2 = InsertOutcome.created j ∨
        ((run capacity ops).insert w m l line silent).2 = InsertOutcome.merged j) ∧
      ((run capacity ops).insert w m l line silent).1.bucket j = some e ∧
      ((run capacity ops).insert w m l line silent).1.find w'
        = FindResult.found comparisons e.translations ∧
      ∃ tr ∈ e.translations, toLower tr.language = toLower l := by
  have hinv := run_inv capacity hcap ops
  generalize run capacity ops = t at hinv hfull ⊢
  have hwf := hinv.1
  have hlen := hwf.2.2
  have hw' : w' ≠ [] := by
    intro h0
    rw [h0] at hcase
    exact hw (toLower_eq_nil.1 hcase.symm)
  rcases insert_cases t hwf w m l line silent hw hm hl with
    ⟨coll, comp, heq⟩ | ⟨j, coll, hj, hwalk, _, heq⟩ | ⟨j, coll, e, hj, hwalk, _, hd, hk, heq⟩
  · rw [heq] at hfull
    cases hfull
  · have hjl : j < t.buckets.length := by omega
    rw [heq]
    obtain ⟨c, hc⟩ := find_of_insertWalk t
      { t with buckets := t.buckets.set j (some (Entry.new w m l line)),
               size := (t.size + 1) % 2 ^ 32, collisions := coll }
      w w' j t.collisions coll (Entry.new w m l line) rfl (bucket_set t j hjl _ _ _)
      (by rw [Entry.new_word _ _ _ _ hw, toLower_toLower]) (Entry.new_deleted _ _ _ _)
      hcase hw' hwalk
    refine ⟨j, Entry.new w m l line, c, Or.inl rfl, ?_, hc, ?_⟩
    · simp only [bucket_set t j hjl, if_true]
    · rw [Entry.new_translations]
      exact ⟨Translation.new m l, List.mem_singleton.2 rfl, by rw [Translation.new_language]⟩
  · have hjl : j < t.buckets.length := by omega
    rw [heq]
    obtain ⟨c, hc⟩ := find_of_insertWalk t
      { t with buckets := t.buckets.set j (some (e.addTranslation m l)), collisions := coll }
      w w' j t.collisions coll (e.addTranslation m l) rfl (bucket_set t j hjl _ _ _)
      (by rw [Entry.addTranslation_word, hk]) (by rw [Entry.addTranslation_deleted, hd])
      hcase hw' hwalk
    refine ⟨j, e.addTranslation m l, c, Or.inr rfl, ?_, hc, ?_⟩
    · simp only [bucket_set t j hjl, if_true]
    · exact Entry.addTranslation_mem e m l hm hl

theorem C1_find_after_insert_witness :
    2 < 2 ^ 32 ∧ ascii "c" ≠ [] ∧ ascii "y" ≠ [] ∧ ascii "EN" ≠ [] ∧
    ((run 2 [Op.addWord (ascii "a") (ascii "x") (ascii "en"),
             Op.addWord (ascii "C") (ascii "z") (ascii "en")]).insert
        (ascii "c") (ascii "y") (ascii "EN") [] false).2.isFull = false ∧
    toLower (ascii "C") = toLower (ascii "c") ∧
    ∃ j e comparisons,
      (((run 2 [Op.addWord (ascii "a") (ascii "x") (ascii "en"),
                Op.addWord (ascii "C") (ascii "z") (ascii "en")]).insert
          (ascii "c") (ascii "y") (ascii "EN") [] false).2 = InsertOutcome.created j ∨
        ((run 2 [Op.addWord (ascii "a") (ascii "x") (ascii "en"),
                 Op.addWord (ascii "C") (ascii "z") (ascii "en")]).insert
          (ascii "c") (ascii "y") (ascii "EN") [] false).2 = InsertOutcome.merged j) ∧
      ((run 2 [Op.addWord (ascii "a") (ascii "x") (ascii "en"),
               Op.addWord (ascii "C") (ascii "z") (ascii "en")]).insert
          (ascii "c") (ascii "y") (ascii "EN") [] false).1.bucket j = some e ∧
      ((run 2 [Op.addWord (ascii "a") (ascii "x") (ascii "en"),
               Op.addWord (ascii "C") (ascii "z") (ascii "en")]).insert
          (ascii "c") (ascii "y") (ascii "EN") [] false).1.find (ascii "C")
        = FindResult.found comparisons e.translations ∧
      ∃ tr ∈ e.translations, toLower tr.language = toLower (ascii "EN") :=
  ⟨by norm_num, by decide, by decide, by decide, by decide, by decide,
    C1_find_after_insert 2 (by norm_num)
      [Op.addWord (ascii "a") (ascii "x") (ascii "en"),
       Op.addWord (ascii "C") (ascii "z") (ascii "en")]
      (ascii "c") (ascii "y") (ascii "EN") [] false (by decide) (by decide) (by decide)
      (by decide) (ascii "C") (by decide)⟩

/-- C2: key uniqueness is not kept by `insert`. After `add a`, `add c` (which collides with
`a` in a table of capacity 2 and goes to the next slot), `delWord a` and `add c` again, the
loop of `insert` stops at the deleted slot of `a` and a second live entry of `c` is created:
slots 0 and 1 both hold a live entry with the key `c`, and `size` is 2. -/
theorem C2_duplicate_live_key :
    (run 2 [Op.addWord (ascii "a") (ascii "x") (ascii "en"),
            Op.addWord (ascii "c") (ascii "y") (ascii "en"),
            Op.delWord (ascii "a"),
            Op.addWord (ascii "c") (ascii "z") (ascii "en")])
      = { buckets :=
            [some { word := ascii "c", originalWord := ascii "c", originalLine := ascii "c:y",
                    translations := [{ language := ascii "en", meanings := [ascii "y"] }],
                    deleted := false },
             some { word := ascii "c", originalWord := ascii "c", originalLine := ascii "c:z",
                    translations := [{ language := ascii "en", meanings := [ascii "z"] }],
                    deleted := false }],
          size := 2, capacity := 2, collisions := 1 } ∧
    ¬ keysUnique (run 2 [Op.addWord (ascii "a") (ascii "x") (ascii "en"),
            Op.addWord (ascii "c") (ascii "y") (ascii "en"),
            Op.delWord (ascii "a"),
            Op.addWord (ascii "c") (ascii "z") (ascii "en")]).buckets := by
  refine ⟨by decide, ?_⟩
  rw [show (run 2 [Op.addWord (ascii "a") (ascii "x") (ascii "en"),
            Op.addWord (ascii "c") (ascii "y") (ascii "en"),
            Op.delWord (ascii "a"),
            Op.addWord (ascii "c") (ascii "z") (ascii "en")]).buckets
      = [some { word := ascii "c", originalWord := ascii "c", originalLine := ascii "c:y",
                    translations := [{ language := ascii "en", meanings := [ascii "y"] }],
                    deleted := false },
             some { word := ascii "c", originalWord := ascii "c", originalLine := ascii "c:z",
                    translations := [{ language := ascii "en", meanings := [ascii "z"] }],
                    deleted := false }] from by decide]
  intro h
  unfold keysUnique at h
  rw [List.pairwise_cons] at h
  exact h.1 _ (List.mem_singleton.2 rfl) _ rfl _ rfl rfl rfl rfl

/-- C3: `hashCode` is case-insensitive: for every table, whatever its capacity, two strings
with the same lowercase form have the same hash code. -/
theorem C3_hashCode_case_insensitive (t : HashTable) (a b : Str)
    (h : toLower a = toLower b) : t.hashCode a = t.hashCode b := by
  unfold HashTable.hashCode
  rw [h]

theorem C3_hashCode_case_insensitive_witness :
    toLower (ascii "Cat") = toLower (ascii "cAT") ∧
      (HashTable.new 7).hashCode (ascii "Cat") = (HashTable.new 7).hashCode (ascii "cAT") :=
  ⟨by decide, C3_hashCode_case_insensitive (HashTable.new 7) (ascii "Cat") (ascii "cAT")
    (by decide)⟩

/-- C4: in a table built by the constructor, a requested capacity of 0 is replaced by
1171891, the capacity is positive, and the hash code of every string, the empty one
included, is below the capacity, which is the number of slots: the start index of a probe
walk is a valid slot index. -/
theorem C4_hashCode_lt_capacity (capacity : Nat) (w : Str) :
    (HashTable.new 0).capacity = 1171891 ∧
    0 < (HashTable.new capacity).capacity ∧
    (HashTable.new capacity).hashCode w < (HashTable.new capacity).capacity ∧
    (HashTable.new capacity).hashCode w < (HashTable.new capacity).buckets.length ∧
    (HashTable.new capacity).hashCode [] < (HashTable.new capacity).capacity := by
  have hpos : 0 < (HashTable.new capacity).capacity := by
    unfold HashTable.new
    simp only
    split_ifs <;> omega
  have hlen : (HashTable.new capacity).buckets.length = (HashTable.new capacity).capacity := by
    simp [HashTable.new]
  refine ⟨rfl, hpos, hashCode_lt _ hpos w, ?_, hashCode_lt _ hpos []⟩
  rw [hlen]
  exact hashCode_lt _ hpos w

/-- C5: in every table reached from a freshly constructed table by a sequence of insert,
addWord, import, delWord, delTranslation and delMeaning calls, `size` is at most
`capacity`. -/
theorem C5_size_le_capacity (capacity : Nat) (hcap : capacity < 2 ^ 32) (ops : List Op) :
    (run capacity ops).size ≤ (run capacity ops).capacity := by
  obtain ⟨⟨_, _, hlen⟩, hsize, _⟩ := run_inv capacity hcap ops
  rw [hsize, ← hlen]
  exact liveCount_le _

theorem C5_size_le_capacity_witness :
    2 < 2 ^ 32 ∧
      (run 2 [Op.addWord (ascii "a") (ascii "x") (ascii "en"),
              Op.addWord (ascii "c") (ascii "y") (ascii "en"),
              Op.addWord (ascii "e") (ascii "z") (ascii "en")]).size
        ≤ (run 2 [Op.addWord (ascii "a") (ascii "x") (ascii "en"),
              Op.addWord (ascii "c") (ascii "y") (ascii "en"),
              Op.addWord (ascii "e") (ascii "z") (ascii "en")]).capacity :=
  ⟨by norm_num, C5_size_le_capacity 2 (by norm_num) _⟩

/-- C6: on a reachable table, when `delWord w` reports success, one slot `j` held a live
entry `e` of the word and now holds `e` with only its deleted flag set (same word, original
word, original line and translations), every other slot is unchanged, `size` went down by
exactly 1, and `collisions` and `capacity` are unchanged. -/
theorem C6_delWord_success (capacity : Nat) (hcap : capacity < 2 ^ 32) (ops : List Op)
    (w : Str) (hdel : ((run capacity ops).delWord w).2 = DelResult.deleted) :
    ∃ j e, j < (run capacity ops).capacity ∧
      (run capacity ops).bucket j = some e ∧ e.deleted = false ∧
      toLower e.word = toLower w ∧
      ((run capacity ops).delWord w).1.buckets
        = (run capacity ops).buckets.set j (some { e with deleted := true }) ∧
      ((run capacity ops).delWord w).1.bucket j = some { e with deleted := true } ∧
      (∀ i, i ≠ j → ((run capacity ops).delWord w).1.bucket i = (run capacity ops).bucket i) ∧
      ((run capacity ops).delWord w).1.size + 1 = (run capacity ops).size ∧
      ((run capacity ops).delWord w).1.collisions = (run capacity ops).collisions ∧
      ((run capacity ops).delWord w).1.capacity = (run capacity ops).capacity := by
  have hinv := run_inv capacity hcap ops
  generalize run capacity ops = t at hinv hdel ⊢
  obtain ⟨hwf, hsize, _⟩ := hinv
  have hw : w ≠ [] := by
    intro h0
    rw [h0, delWord_empty] at hdel
    cases hdel
  rcases delWord_cases t hwf w hw with ⟨_, heq⟩ | ⟨j, c, e, _, hj, hb, hk, hd, heq⟩
  · rw [heq] at hdel
    cases hdel
  · have hlen := hwf.2.2
    have hjl : j < t.buckets.length := by omega
    rw [heq]
    refine ⟨j, e, hj, hb, hd, hk, rfl, ?_, ?_, ?_, rfl, rfl⟩
    · simp only [bucket_set t j hjl, if_true]
      rfl
    · intro i hi
      simp only [bucket_set t j hjl, if_neg hi]
    · have hc := liveCount_set t j hjl none
      have hold : isLive (t.bucket j) = true := by
        rw [hb]; simp [isLive, hd]
      rw [hold] at hc
      simp only [if_true, isLive, Bool.false_eq_true, if_false] at hc
      have hle := liveCount_le t.buckets
      have h2 := hwf.2.1
      simp only
      omega

theorem C6_delWord_success_witness :
    2 < 2 ^ 32 ∧
    ((run 2 [Op.addWord (ascii "a") (ascii "x") (ascii "en")]).delWord (ascii "A")).2
      = DelResult.deleted ∧
    ∃ j e, j < (run 2 [Op.addWord (ascii "a") (ascii "x") (ascii "en")]).capacity ∧
      (run 2 [Op.addWord (ascii "a") (ascii "x") (ascii "en")]).bucket j = some e ∧
      e.deleted = false ∧ toLower e.word = toLower (ascii "A") ∧
      ((run 2 [Op.addWord (ascii "a") (ascii "x") (ascii "en")]).delWord (ascii "A")).1.buckets
        = (run 2 [Op.addWord (ascii "a") (ascii "x") (ascii "en")]).buckets.set j
            (some { e with deleted := true }) ∧
      ((run 2 [Op.addWord (ascii "a") (ascii "x") (ascii "en")]).delWord (ascii "A")).1.bucket j
        = some { e with deleted := true } ∧
      (∀ i, i ≠ j →
        ((run 2 [Op.addWord (ascii "a") (ascii "x") (ascii "en")]).delWord (ascii "A")).1.bucket i
          = (run 2 [Op.addWord (ascii "a") (ascii "x") (ascii "en")]).bucket i) ∧
      ((run 2 [Op.addWord (ascii "a") (ascii "x") (ascii "en")]).delWord (ascii "A")).1.size + 1
        = (run 2 [Op.addWord (ascii "a") (ascii "x") (ascii "en")]).size ∧
      ((run 2 [Op.addWord (ascii "a") (ascii "x") (ascii "en")]).delWord (ascii "A")).1.collisions
        = (run 2 [Op.addWord (ascii "a") (ascii "x") (ascii "en")]).collisions ∧
      ((run 2 [Op.addWord (ascii "a") (ascii "x") (ascii "en")]).delWord (ascii "A")).1.capacity
        = (run 2 [Op.addWord (ascii "a") (ascii "x") (ascii "en")]).capacity :=
  ⟨by norm_num, by decide,
    C6_delWord_success 2 (by norm_num) [Op.addWord (ascii "a") (ascii "x") (ascii "en")]
      (ascii "A") (by decide)⟩

/-- C7: after a successful `delWord`, the word can still be found and deleted again. In the
table reached by `add a`, `add c`, `delWord a`, `add c` (capacity 2), which holds two live
entries of `c`, `delWord c` reports success, and on the resulting table `find c` succeeds
and a second `delWord c` reports success as well, taking `size` from 1 to 0. -/
theorem C7_find_after_delWord_duplicate :
    ((run 2 [Op.addWord (ascii "a") (ascii "x") (ascii "en"),
             Op.addWord (ascii "c") (ascii "y") (ascii "en"),
             Op.delWord (ascii "a"),
             Op.addWord (ascii "c") (ascii "z") (ascii "en")]).delWord (ascii "c")).2
      = DelResult.deleted ∧
    ((run 2 [Op.addWord (ascii "a") (ascii "x") (ascii "en"),
             Op.addWord (ascii "c") (ascii "y") (ascii "en"),
             Op.delWord (ascii "a"),
             Op.addWord (ascii "c") (ascii "z") (ascii "en")]).delWord (ascii "c")).1.find
        (ascii "c")
      = FindResult.found 2 [{ language := ascii "en", meanings := [ascii "y"] }] ∧
    (((run 2 [Op.addWord (ascii "a") (ascii "x") (ascii "en"),
              Op.addWord (ascii "c") (ascii "y") (ascii "en"),
              Op.delWord (ascii "a"),
              Op.addWord (ascii "c") (ascii "z") (ascii "en")]).delWord (ascii "c")).1.delWord
        (ascii "c")).2
      = DelResult.deleted ∧
    ((run 2 [Op.addWord (ascii "a") (ascii "x") (ascii "en"),
             Op.addWord (ascii "c") (ascii "y") (ascii "en"),
             Op.delWord (ascii "a"),
             Op.addWord (ascii "c") (ascii "z") (ascii "en")]).delWord (ascii "c")).1.size = 1 ∧
    (((run 2 [Op.addWord (ascii "a") (ascii "x") (ascii "en"),
              Op.addWord (ascii "c") (ascii "y") (ascii "en"),
              Op.delWord (ascii "a"),
              Op.addWord (ascii "c") (ascii "z") (ascii "en")]).delWord (ascii "c")).1.delWord
        (ascii "c")).1.size = 0 := by
  decide

/-- C8: merging one meaning into an existing language. When the loop of `insert` for `w`
stops at slot `j` holding a live entry whose only translation for `l` (up to case) is `tr`,
`insert w m l` with non-empty arguments leaves the entry in slot `j` with the same
translations, except that the meanings of `tr` are unchanged when one of them equals `m` up
to case and are followed by `m` otherwise; the entry has exactly one translation for `l`.
This holds for every non-empty `m`, so in particular for one without `;`.
And inserting a word and a language with `x` and then with `X` into a freshly constructed
table gives an entry with one translation whose only meaning is `x`. -/
theorem C8_merge_single_meaning (t : HashTable) (w m l line : Str) (silent : Bool)
    (hw : w ≠ []) (hm : m ≠ []) (hl : l ≠ [])
    (j coll : Nat) (e : Entry) (pre post : List Translation) (tr : Translation)
    (hwalk : insertWalk t (toLower w) (t.hashCode (toLower w)) t.capacity
      (t.hashCode (toLower w)) t.collisions 0 = InsertWalk.stop j coll)
    (hb : t.bucket j = some e) (hd : e.deleted = false)
    (hts : e.translations = pre ++ tr :: post)
    (hpre : ∀ p ∈ pre, toLower p.language ≠ toLower l)
    (htr : toLower tr.language = toLower l)
    (hpost : ∀ p ∈ post, toLower p.language ≠ toLower l) :
    ((t.insert w m l line silent).1.bucket j
      = some { e with translations :=
          pre ++ { tr with meanings :=
                    if tr.meanings.any (fun x => toLower x = toLower m) then tr.meanings
                    else tr.meanings ++ [m] } :: post } ∧
     ((pre ++ { tr with meanings :=
                    if tr.meanings.any (fun x => toLower x = toLower m) then tr.meanings
                    else tr.meanings ++ [m] } :: post).filter
        (fun p => toLower p.language = toLower l)).length = 1) ∧
    ∀ (capacity : Nat) (line' : Str) (silent' : Bool),
      (((HashTable.new capacity).insert w (ascii "x") l line silent).1.insert
          w (ascii "X") l line' silent').1.bucket ((HashTable.new capacity).hashCode w)
        = some { word := toLower w, originalWord := w, originalLine := line,
                 translations := [{ language := l, meanings := [ascii "x"] }],
                 deleted := false } := by
  have hne : (w.isEmpty || m.isEmpty || l.isEmpty) = false := by
    simp [List.isEmpty_iff, hw, hm, hl]
  refine ⟨⟨?_, ?_⟩, ?_⟩
  · have hjl := bucket_lt hb
    have hadd : e.addTranslation m l
        = { e with translations := pre ++ tr.addMeaning m :: post } := by
      unfold Entry.addTranslation
      rw [if_neg (by simp [List.isEmpty_iff, hm, hl]), hts,
        addTranslationLoop_append m l tr post htr pre hpre]
    simp only [HashTable.insert, hne, hwalk, hb, hd]
    simp only [Bool.false_eq_true, if_false, bucket_set t j hjl, if_true, hadd,
      Translation.addMeaning_eq tr m hm]
    rw [hd]
  · rw [List.filter_append, List.filter_cons_of_pos (by simpa using htr),
      List.filter_eq_nil_iff.2 (fun p hp => by simpa using hpre p hp),
      List.filter_eq_nil_iff.2 (fun p hp => by simpa using hpost p hp)]
    rfl
  · intro capacity line' silent'
    obtain ⟨hpos, hlen⟩ := new_wf capacity
    have hx : ascii "x" ≠ [] := by decide
    have hjl : (HashTable.new capacity).hashCode (toLower w)
        < (HashTable.new capacity).buckets.length := by
      rw [hlen]
      exact hashCode_lt _ hpos _
    rw [insert_created_of_none _ hpos w _ l line silent hw hx hl (new_bucket capacity _),
      ← hashCode_toLower (HashTable.new capacity) w]
    have hb1 := bucket_set (HashTable.new capacity) _ hjl (some (Entry.new w (ascii "x") l line))
      (((HashTable.new capacity).size + 1) % 2 ^ 32) (HashTable.new capacity).collisions
      ((HashTable.new capacity).hashCode (toLower w))
    rw [if_pos rfl] at hb1
    refine insert_X_after_x _ ?_ w l line line' silent' hw hl hb1
    exact hpos

theorem C8_merge_single_meaning_witness :
    ascii "A" ≠ [] ∧ ascii "y" ≠ [] ∧ ascii "EN" ≠ [] ∧
    insertWalk (run 2 [Op.addWord (ascii "a") (ascii "x") (ascii "en")]) (toLower (ascii "A"))
      ((run 2 [Op.addWord (ascii "a") (ascii "x") (ascii "en")]).hashCode (toLower (ascii "A")))
      (run 2 [Op.addWord (ascii "a") (ascii "x") (ascii "en")]).capacity
      ((run 2 [Op.addWord (ascii "a") (ascii "x") (ascii "en")]).hashCode (toLower (ascii "A")))
      (run 2 [Op.addWord (ascii "a") (ascii "x") (ascii "en")]).collisions 0
        = InsertWalk.stop 1 0 ∧
    (run 2 [Op.addWord (ascii "a") (ascii "x") (ascii "en")]).bucket 1
      = some (Entry.mk (ascii "a") (ascii "a") (ascii "a:x")
          [Translation.mk (ascii "en") [ascii "x"]] false) ∧
    ((run 2 [Op.addWord (ascii "a") (ascii "x") (ascii "en")]).insert
        (ascii "A") (ascii "y") (ascii "EN") [] false).1.bucket 1
      = some (Entry.mk (ascii "a") (ascii "a") (ascii "a:x")
          [Translation.mk (ascii "en") [ascii "x", ascii "y"]] false) :=
  ⟨by decide, by decide, by decide, by decide, by decide,
    (C8_merge_single_meaning (run 2 [Op.addWord (ascii "a") (ascii "x") (ascii "en")])
      (ascii "A") (ascii "y") (ascii "EN") [] false (by decide) (by decide) (by decide)
      1 0 (Entry.mk (ascii "a") (ascii "a") (ascii "a:x")
          [Translation.mk (ascii "en") [ascii "x"]] false)
      [] [] (Translation.mk (ascii "en") [ascii "x"])
      (by decide) (by decide) rfl rfl (by decide) (by decide) (by decide)).1.1⟩

/-- C9: meaning lists are not kept free of duplicates. The constructor of `Translation`
splits the meanings text at `;` and keeps every piece: `add a:x;X:en` on a fresh table of
capacity 2 gives an entry whose translation has the two meanings `x` and `X`, equal up to
case, and `add a:x;x:en` gives the meaning `x` twice. -/
theorem C9_duplicate_meanings :
    (run 2 [Op.addWord (ascii "a") (ascii "x;X") (ascii "en")]).bucket 1
      = some (Entry.mk (ascii "a") (ascii "a") (ascii "a:x;X")
          [Translation.mk (ascii "en") [ascii "x", ascii "X"]] false) ∧
    ¬ meaningsUnique [ascii "x", ascii "X"] ∧
    (run 2 [Op.addWord (ascii "a") (ascii "x;x") (ascii "en")]).bucket 1
      = some (Entry.mk (ascii "a") (ascii "a") (ascii "a:x;x")
          [Translation.mk (ascii "en") [ascii "x", ascii "x"]] false) := by
  decide

/-- C10: in every table reached from a freshly constructed table by a sequence of insert,
addWord, import, delWord, delTranslation and delMeaning calls, no entry, live or deleted,
holds two translations whose languages are equal up to case. -/
theorem C10_languages_unique (capacity : Nat) (hcap : capacity < 2 ^ 32) (ops : List Op)
    (i : Nat) (e : Entry) (he : (run capacity ops).bucket i = some e) :
    e.translations.Pairwise (fun a b => toLower a.language ≠ toLower b.language) :=
  (run_inv capacity hcap ops).2.2 e (bucket_eq_some_mem he)

theorem C10_languages_unique_witness :
    2 < 2 ^ 32 ∧
    (run 2 [Op.addWord (ascii "a") (ascii "x") (ascii "en"),
            Op.addWord (ascii "A") (ascii "y") (ascii "EN"),
            Op.addWord (ascii "a") (ascii "z") (ascii "de")]).bucket 1
      = some { word := ascii "a", originalWord := ascii "a", originalLine := ascii "a:x",
               translations := [{ language := ascii "en", meanings := [ascii "x", ascii "y"] },
                                { language := ascii "de", meanings := [ascii "z"] }],
               deleted := false } ∧
    List.Pairwise (fun a b => toLower a.language ≠ toLower b.language)
      [{ language := ascii "en", meanings := [ascii "x", ascii "y"] },
       ({ language := ascii "de", meanings := [ascii "z"] } : Translation)] :=
  ⟨by norm_num, by decide,
    C10_languages_unique 2 (by norm_num)
      [Op.addWord (ascii "a") (ascii "x") (ascii "en"),
       Op.addWord (ascii "A") (ascii "y") (ascii "EN"),
       Op.addWord (ascii "a") (ascii "z") (ascii "de")] 1
      { word := ascii "a", originalWord := ascii "a", originalLine := ascii "a:x",
        translations := [{ language := ascii "en", meanings := [ascii "x", ascii "y"] },
                         { language := ascii "de", meanings := [ascii "z"] }],
        deleted := false } (by decide)⟩

/-- C11, as stated, fails for the empty string: the constructor of `Translation` returns at
once when the meanings text is empty, and the translation has no meaning at all, not the
single empty meaning. -/
theorem C11_empty_text_no_meaning :
    (Translation.new [] (ascii "en")).meanings = [] ∧
    ¬ 1 ≤ (Translation.new [] (ascii "en")).meanings.length ∧
    (Translation.new [] (ascii "en")).meanings ≠ [[]] := by
  decide

/-- C11, amended: for every meanings text that is not empty and every language, the
translation constructed from them has at least one meaning; constructed from the text `;` it
has exactly one meaning, the empty string; constructed from the empty text it has no
meaning. -/
theorem C11_new_has_meaning (s l : Str) (hs : s ≠ []) :
    1 ≤ (Translation.new s l).meanings.length ∧
    (Translation.new (ascii ";") l).meanings = [[]] ∧
    (Translation.new [] l).meanings = [] := by
  refine ⟨?_, rfl, rfl⟩
  unfold Translation.new
  rw [if_neg (by simp [List.isEmpty_iff, hs])]
  simp only
  split_ifs with h
  · simp
  · cases hp : (getlineAll 59 s []).filter (fun meaning => !meaning.isEmpty) with
    | nil => simp [hp] at h
    | cons a rest => simp

theorem C11_new_has_meaning_witness :
    ascii "x;;y" ≠ [] ∧
    1 ≤ (Translation.new (ascii "x;;y") (ascii "en")).meanings.length ∧
    (Translation.new (ascii "x;;y") (ascii "en")).meanings = [ascii "x", ascii "y"] :=
  ⟨by decide, (C11_new_has_meaning (ascii "x;;y") (ascii "en") (by decide)).1, by decide⟩

/-- C12, as stated, fails: `collisions` is an `unsigned int` and wraps around. On a table of
capacity 2 with one entry in slot 1 and the counter at `2 ^ 32 - 1`, `add c` advances once
and the counter is 0 afterwards. Such a counter is reached: in the full table made by `add a`
and `add c` (capacity 2, counter 1), every further `insert e` advances twice and finds the
table full; after 2147483647 of them the counter is 4294967295, and the next one leaves it
at 1. -/
theorem C12_collisions_wrap :
    (HashTable.insert
        { buckets := [none, some (Entry.new (ascii "a") (ascii "x") (ascii "en") (ascii "a:x"))],
          size := 1, capacity := 2, collisions := 4294967295 }
        (ascii "c") (ascii "y") (ascii "en") (ascii "c:y") false).1.collisions = 0 ∧
    (run 2 ([Op.addWord (ascii "a") (ascii "x") (ascii "en"),
             Op.addWord (ascii "c") (ascii "y") (ascii "en")]
            ++ List.replicate 2147483647
                (Op.insert (ascii "e") (ascii "z") (ascii "en") [] true))).collisions
      = 4294967295 ∧
    ((run 2 ([Op.addWord (ascii "a") (ascii "x") (ascii "en"),
              Op.addWord (ascii "c") (ascii "y") (ascii "en")]
            ++ List.replicate 2147483647
                (Op.insert (ascii "e") (ascii "z") (ascii "en") [] true))).insert
        (ascii "e") (ascii "z") (ascii "en") [] true).1.collisions = 1 := by
  have hbase : run 2 [Op.addWord (ascii "a") (ascii "x") (ascii "en"),
      Op.addWord (ascii "c") (ascii "y") (ascii "en")]
      = { buckets := [some (Entry.new (ascii "c") (ascii "y") (ascii "en") (ascii "c:y")),
                      some (Entry.new (ascii "a") (ascii "x") (ascii "en") (ascii "a:x"))],
          size := 2, capacity := 2, collisions := 1 } := by decide
  have hwf : HashTable.WF
      { buckets := [some (Entry.new (ascii "c") (ascii "y") (ascii "en") (ascii "c:y")),
                    some (Entry.new (ascii "a") (ascii "x") (ascii "en") (ascii "a:x"))],
        size := 2, capacity := 2, collisions := 1 } := by decide
  have hall : ∀ i, i < 2 →
      ∃ e, HashTable.bucket
          { buckets := [some (Entry.new (ascii "c") (ascii "y") (ascii "en") (ascii "c:y")),
                        some (Entry.new (ascii "a") (ascii "x") (ascii "en") (ascii "a:x"))],
            size := 2, capacity := 2, collisions := 1 } i = some e ∧
        e.deleted = false ∧ toLower e.word ≠ toLower (ascii "e") := by
    intro i hi
    match i, hi with
    | 0, _ => exact ⟨Entry.new (ascii "c") (ascii "y") (ascii "en") (ascii "c:y"),
        by decide, by decide, by decide⟩
    | 1, _ => exact ⟨Entry.new (ascii "a") (ascii "x") (ascii "en") (ascii "a:x"),
        by decide, by decide, by decide⟩
  have hrun : run 2 ([Op.addWord (ascii "a") (ascii "x") (ascii "en"),
        Op.addWord (ascii "c") (ascii "y") (ascii "en")]
        ++ List.replicate 2147483647 (Op.insert (ascii "e") (ascii "z") (ascii "en") [] true))
      = { buckets := [some (Entry.new (ascii "c") (ascii "y") (ascii "en") (ascii "c:y")),
                      some (Entry.new (ascii "a") (ascii "x") (ascii "en") (ascii "a:x"))],
          size := 2, capacity := 2, collisions := 4294967295 } := by
    have h := foldl_full_inserts _ hwf (ascii "e") (ascii "z") (ascii "en") [] true
      (by decide) (by decide) (by decide) hall 2147483647 1 (by norm_num)
    unfold run at hbase ⊢
    rw [List.foldl_append, hbase]
    exact h
  refine ⟨by decide, ?_, ?_⟩
  · rw [hrun]
  · rw [hrun]
    decide

/-- C12, amended: `collisions` is kept modulo `2 ^ 32`. On every table whose counter fits an
`unsigned int`: after `insert` and `addWord` the counter is the counter before plus the
number of advances of the probing loop of the call, modulo `2 ^ 32`; the call advances once
for each leading slot of the probe sequence of the word that holds a live entry of another
word, at most `capacity` times, and not at all when it returns at its guard; so the counter
does not decrease when the counter plus the advances stays below `2 ^ 32` (in particular
when the counter plus the capacity does), and for a capacity below `2 ^ 32` it does decrease
when that sum reaches `2 ^ 32`. After `import` the counter is the counter before plus the
number of advances of all the insertions of the import (at most the capacity for each line
of the file), modulo `2 ^ 32`, so it does not decrease when that sum stays below `2 ^ 32`;
`import` leaves the table as it is when the file cannot be opened. `delWord`,
`delTranslation` and `delMeaning` leave the counter exactly equal. (`find` and `exportData`
return no table: they change nothing.) -/
theorem C12_collisions_modulo (t : HashTable) (hcoll : t.collisions < 2 ^ 32) :
    (∀ w m l line silent, (t.insert w m l line silent).1.collisions
      = (t.collisions + t.insertAdvances w m l) % 2 ^ 32) ∧
    (∀ w m l, (t.addWord w m l).1.collisions
      = (t.collisions + t.insertAdvances w m l) % 2 ^ 32) ∧
    (∀ w m l, t.insertAdvances w m l ≤ t.capacity) ∧
    (∀ w m l, w = [] ∨ m = [] ∨ l = [] → t.insertAdvances w m l = 0) ∧
    (0 < t.capacity → ∀ w m l, w ≠ [] → m ≠ [] → l ≠ [] →
      (∀ i, i < t.insertAdvances w m l →
        ∃ e, t.bucket ((t.hashCode (toLower w) + i) % t.capacity) = some e ∧
          e.deleted = false ∧ toLower e.word ≠ toLower w) ∧
      (t.insertAdvances w m l < t.capacity →
        t.bucket ((t.hashCode (toLower w) + t.insertAdvances w m l) % t.capacity) = none ∨
        ∃ e, t.bucket ((t.hashCode (toLower w) + t.insertAdvances w m l) % t.capacity)
            = some e ∧
          (e.deleted = true ∨ toLower e.word = toLower w))) ∧
    (∀ w m l line silent, t.collisions + t.insertAdvances w m l < 2 ^ 32 →
      t.collisions ≤ (t.insert w m l line silent).1.collisions) ∧
    (∀ w m l, t.collisions + t.insertAdvances w m l < 2 ^ 32 →
      t.collisions ≤ (t.addWord w m l).1.collisions) ∧
    (t.capacity < 2 ^ 32 → ∀ w m l line silent,
      2 ^ 32 ≤ t.collisions + t.insertAdvances w m l →
      (t.insert w m l line silent).1.collisions < t.collisions) ∧
    (∀ w m l line silent, t.collisions + t.capacity < 2 ^ 32 →
      t.collisions ≤ (t.insert w m l line silent).1.collisions) ∧
    (∀ w m l, t.collisions + t.capacity < 2 ^ 32 →
      t.collisions ≤ (t.addWord w m l).1.collisions) ∧
    (∀ path file, (t.importData path file).1.collisions
      = (t.collisions + t.importDataAdvances path file) % 2 ^ 32) ∧
    (∀ path content, t.importDataAdvances path (some content)
      ≤ (getlineAll 10 content []).length * t.capacity) ∧
    (∀ path file, t.collisions + t.importDataAdvances path file < 2 ^ 32 →
      t.collisions ≤ (t.importData path file).1.collisions) ∧
    (∀ path, (t.importData path none).1 = t) ∧
    (∀ w, (t.delWord w).1.collisions = t.collisions) ∧
    (∀ w l, (t.delTranslation w l).1.collisions = t.collisions) ∧
    (∀ w m l, (t.delMeaning w m l).1.collisions = t.collisions) := by
  have hmono : ∀ w m l line silent, t.collisions + t.insertAdvances w m l < 2 ^ 32 →
      t.collisions ≤ (t.insert w m l line silent).1.collisions := by
    intro w m l line silent h
    rw [insert_collisions_eq t hcoll, Nat.mod_eq_of_lt h]
    exact Nat.le_add_right _ _
  have hcap : ∀ w m l line silent, t.collisions + t.capacity < 2 ^ 32 →
      t.collisions ≤ (t.insert w m l line silent).1.collisions := by
    intro w m l line silent h
    have hle := insertAdvances_le t w m l
    exact hmono w m l line silent (by omega)
  refine ⟨fun w m l line silent => insert_collisions_eq t hcoll w m l line silent,
    fun w m l => insert_collisions_eq t hcoll _ _ _ _ _,
    fun w m l => insertAdvances_le t w m l, ?_,
    fun hc w m l hw hm hl => insertAdvances_spec t hc w m l hw hm hl,
    hmono, fun w m l h => hmono _ _ _ _ _ h, ?_,
    hcap, fun w m l h => hcap _ _ _ _ _ h,
    fun path file => importData_collisions_eq t hcoll path file,
    fun path content => importDataAdvances_le t path content, ?_, ?_, ?_, ?_, ?_⟩
  · intro w m l h
    unfold HashTable.insertAdvances
    rw [if_pos]
    rcases h with h | h | h <;> simp [h]
  · intro hlt w m l line silent h
    have hle := insertAdvances_le t w m l
    have hiff := le_add_mod_iff t.collisions (t.insertAdvances w m l) hcoll (by omega)
    rw [insert_collisions_eq t hcoll]
    by_contra hnot
    have := hiff.1 (by omega)
    omega
  · intro path file h
    rw [importData_collisions_eq t hcoll, Nat.mod_eq_of_lt h]
    exact Nat.le_add_right _ _
  · intro path
    unfold HashTable.importData
    split_ifs <;> rfl
  · intro w
    unfold HashTable.delWord
    split_ifs
    · rfl
    · simp only
      split
      · rfl
      · rfl
      · split <;> rfl
  · intro w l
    unfold HashTable.delTranslation
    split_ifs
    · rfl
    · simp only
      split
      · rfl
      · rfl
      · split
        · split <;> rfl
        · rfl
  · intro w m l
    unfold HashTable.delMeaning
    split_ifs
    · rfl
    · simp only
      split
      · rfl
      · rfl
      · split
        · split <;> rfl
        · rfl

theorem C12_collisions_modulo_witness :
    (run 2 [Op.addWord (ascii "a") (ascii "x") (ascii "en")]).collisions < 2 ^ 32 ∧
    (run 2 [Op.addWord (ascii "a") (ascii "x") (ascii "en")]).collisions = 0 ∧
    (run 2 [Op.addWord (ascii "a") (ascii "x") (ascii "en")]).insertAdvances
      (ascii "c") (ascii "y") (ascii "en") = 1 ∧
    (run 2 [Op.addWord (ascii "a") (ascii "x") (ascii "en")]).importDataAdvances
      (ascii "f") (some (ascii "en\nc:y\ne:z\ng:w\n")) = 5 ∧
    ((run 2 [Op.addWord (ascii "a") (ascii "x") (ascii "en")]).insert
          (ascii "c") (ascii "y") (ascii "en") [] false).1.collisions
      = ((run 2 [Op.addWord (ascii "a") (ascii "x") (ascii "en")]).collisions
          + (run 2 [Op.addWord (ascii "a") (ascii "x") (ascii "en")]).insertAdvances
              (ascii "c") (ascii "y") (ascii "en")) % 2 ^ 32 ∧
    ((run 2 [Op.addWord (ascii "a") (ascii "x") (ascii "en")]).insert
          (ascii "c") (ascii "y") (ascii "en") [] false).1.collisions = 1 ∧
    ((run 2 [Op.addWord (ascii "a") (ascii "x") (ascii "en")]).importData
          (ascii "f") (some (ascii "en\nc:y\ne:z\ng:w\n"))).1.collisions = 5 :=
  ⟨by decide, by decide, by decide, by decide,
    (C12_collisions_modulo (run 2 [Op.addWord (ascii "a") (ascii "x") (ascii "en")])
      (by decide)).1 (ascii "c") (ascii "y") (ascii "en") [] false,
    by decide, by decide⟩

/-- C13, as stated, fails: the loop of `insert` counts every advance before it notices that
it is back at the start. On the table of capacity 1 that holds `a`, `insert b` reports the
table full after 1 comparison, leaves the slot and `size` as they were, and has taken
`collisions` from 0 to 1. -/
theorem C13_full_changes_collisions :
    (run 1 [Op.addWord (ascii "a") (ascii "x") (ascii "en")]).collisions = 0 ∧
    (run 1 [Op.addWord (ascii "a") (ascii "x") (ascii "en")]).bucket 0
      = some (Entry.new (ascii "a") (ascii "x") (ascii "en") (ascii "a:x")) ∧
    ((run 1 [Op.addWord (ascii "a") (ascii "x") (ascii "en")]).insert
        (ascii "b") (ascii "y") (ascii "en") [] false).2 = InsertOutcome.full 1 ∧
    ((run 1 [Op.addWord (ascii "a") (ascii "x") (ascii "en")]).insert
        (ascii "b") (ascii "y") (ascii "en") [] false).1.collisions = 1 ∧
    ((run 1 [Op.addWord (ascii "a") (ascii "x") (ascii "en")]).insert
        (ascii "b") (ascii "y") (ascii "en") [] false).1
      ≠ run 1 [Op.addWord (ascii "a") (ascii "x") (ascii "en")] := by
  decide

/-- C13, amended: on every well-formed table in which every slot holds a live entry whose key
differs from `toLower w`, `insert w m l` with non-empty arguments reports the table full
after `capacity` comparisons and leaves every slot, `size` and `capacity` as they were;
`collisions` has grown by the capacity, modulo `2 ^ 32`: one for every advance of the probing
loop. -/
theorem C13_table_full (t : HashTable) (hwf : t.WF) (w m l line : Str) (silent : Bool)
    (hw : w ≠ []) (hm : m ≠ []) (hl : l ≠ [])
    (hall : ∀ i, i < t.capacity →
      ∃ e, t.bucket i = some e ∧ e.deleted = false ∧ toLower e.word ≠ toLower w) :
    (t.insert w m l line silent).2 = InsertOutcome.full t.capacity ∧
    (t.insert w m l line silent).1.buckets = t.buckets ∧
    (t.insert w m l line silent).1.size = t.size ∧
    (t.insert w m l line silent).1.capacity = t.capacity ∧
    (t.insert w m l line silent).1.collisions = (t.collisions + t.capacity) % 2 ^ 32 := by
  rw [insert_full_of_all_live t hwf w m l line silent hw hm hl hall]
  exact ⟨rfl, rfl, rfl, rfl, rfl⟩

theorem C13_table_full_witness :
    HashTable.WF (run 1 [Op.addWord (ascii "a") (ascii "x") (ascii "en")]) ∧
    ascii "b" ≠ [] ∧ ascii "y" ≠ [] ∧ ascii "en" ≠ [] ∧
    (run 1 [Op.addWord (ascii "a") (ascii "x") (ascii "en")]).bucket 0
      = some (Entry.new (ascii "a") (ascii "x") (ascii "en") (ascii "a:x")) ∧
    ((run 1 [Op.addWord (ascii "a") (ascii "x") (ascii "en")]).insert
        (ascii "b") (ascii "y") (ascii "en") [] false).2
      = InsertOutcome.full (run 1 [Op.addWord (ascii "a") (ascii "x") (ascii "en")]).capacity ∧
    ((run 1 [Op.addWord (ascii "a") (ascii "x") (ascii "en")]).insert
        (ascii "b") (ascii "y") (ascii "en") [] false).1.buckets
      = (run 1 [Op.addWord (ascii "a") (ascii "x") (ascii "en")]).buckets :=
  ⟨by decide, by decide, by decide, by decide, by decide,
    (C13_table_full (run 1 [Op.addWord (ascii "a") (ascii "x") (ascii "en")]) (by decide)
      (ascii "b") (ascii "y") (ascii "en") [] false (by decide) (by decide) (by decide)
      (fun i hi => match i, hi with
        | 0, _ => ⟨Entry.new (ascii "a") (ascii "x") (ascii "en") (ascii "a:x"),
            by decide, by decide, by decide⟩)).1,
    (C13_table_full (run 1 [Op.addWord (ascii "a") (ascii "x") (ascii "en")]) (by decide)
      (ascii "b") (ascii "y") (ascii "en") [] false (by decide) (by decide) (by decide)
      (fun i hi => match i, hi with
        | 0, _ => ⟨Entry.new (ascii "a") (ascii "x") (ascii "en") (ascii "a:x"),
            by decide, by decide, by decide⟩)).2.1⟩

/-- C14: expected failures leave the table as it is. On every table, `insert` and `addWord`
with an empty word, meanings or language, and `delWord`, `delTranslation` and `delMeaning`
with an empty argument, return the table unchanged with the invalid-input result; whenever
`delWord`, `delTranslation` or `delMeaning` does not report a deletion, the table it returns
is the table it was given (slots, `size`, `capacity` and `collisions`); and the failures
arise as expected: on a well-formed table without a live entry of the word the three report
word-not-found, and when the lookup finds an entry that has no translation of the language,
or whose translations of the language do not hold the meaning, `delTranslation` reports
translation-not-found and `delMeaning` reports meaning-or-language-not-found. -/
theorem C14_failures_atomic (t : HashTable) :
    (∀ w m l line silent, (w = [] ∨ m = [] ∨ l = []) →
      t.insert w m l line silent = (t, InsertOutcome.invalid)) ∧
    (∀ w m l, (w = [] ∨ m = [] ∨ l = []) → t.addWord w m l = (t, InsertOutcome.invalid)) ∧
    t.delWord [] = (t, DelResult.invalid) ∧
    (∀ w l, (w = [] ∨ l = []) → t.delTranslation w l = (t, DelResult.invalid)) ∧
    (∀ w m l, (w = [] ∨ m = [] ∨ l = []) → t.delMeaning w m l = (t, DelResult.invalid)) ∧
    (∀ w, (t.delWord w).2 ≠ DelResult.deleted → (t.delWord w).1 = t) ∧
    (∀ w l, (t.delTranslation w l).2 ≠ DelResult.deleted → (t.delTranslation w l).1 = t) ∧
    (∀ w m l, (t.delMeaning w m l).2 ≠ DelResult.deleted → (t.delMeaning w m l).1 = t) ∧
    (t.WF → ∀ w m l, w ≠ [] → m ≠ [] → l ≠ [] →
      (∀ i e, t.bucket i = some e → e.deleted = false → toLower e.word ≠ toLower w) →
      t.delWord w = (t, DelResult.wordNotFound) ∧
      t.delTranslation w l = (t, DelResult.wordNotFound) ∧
      t.delMeaning w m l = (t, DelResult.wordNotFound)) ∧
    (∀ w m l j c e, w ≠ [] → m ≠ [] → l ≠ [] →
      lookupWalk t (toLower w) (t.hashCode (toLower w)) t.capacity
        (t.hashCode (toLower w)) 0 = LookupWalk.hit j c →
      t.bucket j = some e →
      ((∀ tr, tr ∈ e.translations → toLower tr.language ≠ toLower l) →
        t.delTranslation w l = (t, DelResult.translationNotFound)) ∧
      ((∀ tr, tr ∈ e.translations → toLower tr.language = toLower l →
          ∀ x, x ∈ tr.meanings → toLower x ≠ toLower m) →
        t.delMeaning w m l = (t, DelResult.meaningOrLanguageNotFound))) := by
  refine ⟨fun w m l line silent h => insert_invalid t w m l line silent h,
    fun w m l h => insert_invalid t w m l _ _ h, rfl, ?_, ?_, ?_, ?_, ?_, ?_, ?_⟩
  · intro w l h
    have hne : (w.isEmpty || l.isEmpty) = true := by
      rcases h with h | h <;> simp [h]
    simp only [HashTable.delTranslation, hne, if_true]
  · intro w m l h
    have hne : (w.isEmpty || m.isEmpty || l.isEmpty) = true := by
      rcases h with h | h | h <;> simp [h]
    simp only [HashTable.delMeaning, hne, if_true]
  · intro w
    unfold HashTable.delWord
    split_ifs
    · intro _; rfl
    · simp only
      split
      · intro _; rfl
      · intro _; rfl
      · split
        · intro h; exact absurd rfl h
        · intro _; rfl
  · intro w l
    unfold HashTable.delTranslation
    split_ifs
    · intro _; rfl
    · simp only
      split
      · intro _; rfl
      · intro _; rfl
      · split
        · split
          · intro h; exact absurd rfl h
          · intro _; rfl
        · intro _; rfl
  · intro w m l
    unfold HashTable.delMeaning
    split_ifs
    · intro _; rfl
    · simp only
      split
      · intro _; rfl
      · intro _; rfl
      · split
        · split
          · intro h; exact absurd rfl h
          · intro _; rfl
        · intro _; rfl
  · intro hwf w m l hw hm hl hno
    obtain ⟨c, hmiss⟩ := lookup_miss_of_no_live t hwf w hno
    refine ⟨?_, (delTranslation_miss t w l c hmiss).2 hw hl,
      (delMeaning_miss t w m l c hmiss).2 hw hm hl⟩
    rcases delWord_cases t hwf w hw with ⟨_, heq⟩ | ⟨j, c', e, hhit, _⟩
    · exact heq
    · rw [hmiss] at hhit
      cases hhit
  · intro w m l j c e hw hm hl hwalk hb
    constructor
    · intro hno
      rw [delTranslation_hit t w l j c e hw hl hwalk hb, eraseTranslation_none _ _ hno]
    · intro hno
      rw [delMeaning_hit t w m l j c e hw hm hl hwalk hb, delMeaningLoop_none _ _ _ hno]

theorem C14_failures_atomic_witness :
    ((run 2 [Op.addWord (ascii "a") (ascii "x") (ascii "en")]).delMeaning
        (ascii "a") (ascii "y") (ascii "en")).2 ≠ DelResult.deleted ∧
    ((run 2 [Op.addWord (ascii "a") (ascii "x") (ascii "en")]).delMeaning
        (ascii "a") (ascii "y") (ascii "en")).1
      = run 2 [Op.addWord (ascii "a") (ascii "x") (ascii "en")] ∧
    (ascii "a" = [] ∨ ([] : Str) = [] ∨ ascii "en" = []) ∧
    (run 2 [Op.addWord (ascii "a") (ascii "x") (ascii "en")]).insert
        (ascii "a") [] (ascii "en") [] false
      = (run 2 [Op.addWord (ascii "a") (ascii "x") (ascii "en")], InsertOutcome.invalid) :=
  ⟨by decide,
    (C14_failures_atomic (run 2 [Op.addWord (ascii "a") (ascii "x") (ascii "en")])).2.2.2.2.2.2.2.1
      (ascii "a") (ascii "y") (ascii "en") (by decide),
    by decide,
    (C14_failures_atomic (run 2 [Op.addWord (ascii "a") (ascii "x") (ascii "en")])).1
      (ascii "a") [] (ascii "en") [] false (by decide)⟩

/-- C15: on a reachable table, for a non-empty language and a file that can be opened,
`exportData` writes the language as the header line and then the lines of the specification
and nothing else: one line for every slot that holds a live record with a translation of the
language up to case, by increasing slot index, each made of the original word, `:` and the
meanings of that translation joined by `;`; no line for a deleted record or a record without
such a translation; and the count it reports is the number of these slots. -/
theorem C15_export_lines (capacity : Nat) (hcap : capacity < 2 ^ 32) (ops : List Op)
    (language filePath : Str) (hl : language ≠ []) (hp : filePath ≠ []) :
    (run capacity ops).exportData language filePath true
      = ExportResult.exported
          (language ++ ascii "\n" ++ writeLines ((run capacity ops).specExportLines language))
          ((run capacity ops).specExportSlots language).length ∧
    (run capacity ops).specExportLines language
      = ((List.range (run capacity ops).capacity).filter
          (fun i => specExports (toLower language) ((run capacity ops).bucket i))).map
          (fun i => specLine (toLower language) ((run capacity ops).bucket i)) := by
  have hinv := run_inv capacity hcap ops
  generalize run capacity ops = t at hinv ⊢
  obtain ⟨hwf, _, hlu⟩ := hinv
  refine ⟨?_, rfl⟩
  have hlines : t.exportLines language = t.specExportLines language :=
    exportSlots_eq t (toLower language) (fun i e hb => hlu e (bucket_eq_some_mem hb)) _
  have hlen : (t.specExportLines language).length = (t.specExportSlots language).length := by
    unfold HashTable.specExportLines
    rw [List.length_map]
  have hle : (t.specExportSlots language).length ≤ t.capacity := by
    unfold HashTable.specExportSlots
    have := List.length_filter_le
      (fun i => specExports (toLower language) (t.bucket i)) (List.range t.capacity)
    rwa [List.length_range] at this
  unfold HashTable.exportData
  rw [if_neg (by simp [List.isEmpty_iff, hl, hp]), if_neg (by simp), hlines, hlen,
    Nat.mod_eq_of_lt (by have := hwf.2.1; omega)]

theorem C15_export_lines_witness :
    3 < 2 ^ 32 ∧ ascii "english" ≠ [] ∧ ascii "out.txt" ≠ [] ∧
    (run 3 [Op.importData (ascii "f") (some (ascii "English\ncat:feline animal\ndog:canine animal")),
            Op.addWord (ascii "cat") (ascii "small pet") (ascii "English"),
            Op.addWord (ascii "cat") (ascii "Katze") (ascii "German"),
            Op.addWord (ascii "cow") (ascii "Kuh") (ascii "German"),
            Op.delWord (ascii "dog")]).exportData (ascii "english") (ascii "out.txt") true
      = ExportResult.exported (ascii "english\ncat:feline animal;small pet\n") 1 :=
  ⟨by norm_num, by decide, by decide,
    (C15_export_lines 3 (by norm_num)
      [Op.importData (ascii "f") (some (ascii "English\ncat:feline animal\ndog:canine animal")),
       Op.addWord (ascii "cat") (ascii "small pet") (ascii "English"),
       Op.addWord (ascii "cat") (ascii "Katze") (ascii "German"),
       Op.addWord (ascii "cow") (ascii "Kuh") (ascii "German"),
       Op.delWord (ascii "dog")] (ascii "english") (ascii "out.txt") (by decide)
      (by decide)).1.trans (by decide)⟩

/-- C16, as stated, fails, because `import` trims the word and the meanings text and rejects
an empty meanings text. The table made by `add a: x:en` (the meaning is ` x`, with a leading
blank) exports the line `a: x`; importing that text into a fresh table of the same capacity
and exporting again gives the line `a:x`. The table made by `add a:;:en` (one empty meaning)
exports the line `a:`; importing that text gives an empty table and no line. -/
theorem C16_round_trip_changes_lines :
    (run 2 [Op.addWord (ascii "a") (ascii " x") (ascii "en")]).exportData
        (ascii "en") (ascii "f") true
      = ExportResult.exported (ascii "en\na: x\n") 1 ∧
    ((HashTable.new 2).importData (ascii "f")
        (some ((run 2 [Op.addWord (ascii "a") (ascii " x") (ascii "en")]).exportData
          (ascii "en") (ascii "f") true).content)).1.exportData (ascii "en") (ascii "f") true
      = ExportResult.exported (ascii "en\na:x\n") 1 ∧
    ascii "a: x" ∈ (run 2 [Op.addWord (ascii "a") (ascii " x") (ascii "en")]).exportLines
      (ascii "en") ∧
    ascii "a: x" ∉ ((HashTable.new 2).importData (ascii "f")
        (some ((run 2 [Op.addWord (ascii "a") (ascii " x") (ascii "en")]).exportData
          (ascii "en") (ascii "f") true).content)).1.exportLines (ascii "en") ∧
    (run 2 [Op.addWord (ascii "a") (ascii ";") (ascii "en")]).exportLines (ascii "en")
      = [ascii "a:"] ∧
    ((HashTable.new 2).importData (ascii "f")
        (some ((run 2 [Op.addWord (ascii "a") (ascii ";") (ascii "en")]).exportData
          (ascii "en") (ascii "f") true).content)).1.exportLines (ascii "en") = [] := by
  decide

/-- C16, amended: on a reachable table, for a non-empty language without a newline, when
every record that the export shows is clean (its word is not empty, holds no `:` and no
newline and has no blank or tab at its ends; its joined meanings are not empty, hold no
newline, have no blank or tab at their ends, and are the same text again after being split
at `;` and joined, as they are when no meaning is empty or holds a `;`) and no two exported
records have the same word up to case: importing the exported text into a fresh
table of the same capacity and exporting the language again gives the same lines, in some
order. -/
theorem C16_round_trip (capacity : Nat) (hcap : capacity < 2 ^ 32) (ops : List Op)
    (language path : Str) (hl : language ≠ []) (hln : 10 ∉ language) (hp : path ≠ [])
    (hclean : ∀ i, i ∈ (run capacity ops).specExportSlots language →
      cleanRecord (exportRecord (toLower language) ((run capacity ops).bucket i)))
    (hkeys : ∀ i, i ∈ (run capacity ops).specExportSlots language →
      ∀ i', i' ∈ (run capacity ops).specExportSlots language → i ≠ i' →
        toLower (exportRecord (toLower language) ((run capacity ops).bucket i)).1
          ≠ toLower (exportRecord (toLower language) ((run capacity ops).bucket i')).1) :
    List.Perm
      (((HashTable.new (run capacity ops).capacity).importData path
        (some ((run capacity ops).exportData language path true).content)).1.exportLines
          language)
      ((run capacity ops).exportLines language) := by
  have hinv := run_inv capacity hcap ops
  generalize run capacity ops = t at hinv hclean hkeys ⊢
  obtain ⟨hwf, _, hlu⟩ := hinv
  have hspec : t.exportLines language = t.specExportLines language :=
    exportSlots_eq t (toLower language) (fun i e hb => hlu e (bucket_eq_some_mem hb)) _
  have hmem : ∀ i, i ∈ t.specExportSlots language →
      specExports (toLower language) (t.bucket i) = true := by
    intro i hi
    unfold HashTable.specExportSlots at hi
    exact (List.mem_filter.1 hi).2
  have hrecs : t.exportLines language
      = ((t.specExportSlots language).map
          (fun i => exportRecord (toLower language) (t.bucket i))).map recordLine := by
    rw [hspec, List.map_map]
    unfold HashTable.specExportLines
    apply List.map_congr_left
    intro i hi
    exact specLine_eq_recordLine _ _ (hmem i hi)
  have hnd : (t.specExportSlots language).Nodup := by
    unfold HashTable.specExportSlots
    exact (List.nodup_range _).filter _
  have hle : (t.specExportSlots language).length ≤ t.capacity := by
    unfold HashTable.specExportSlots
    have := List.length_filter_le
      (fun i => specExports (toLower language) (t.bucket i)) (List.range t.capacity)
    rwa [List.length_range] at this
  rw [exportData_content t language path hl hp, hrecs]
  apply roundTrip_records t.capacity hwf.2.1 language path hl hln hp
  · intro r hr
    obtain ⟨i, hi, rfl⟩ := List.mem_map.1 hr
    exact hclean i hi
  · rw [List.pairwise_map]
    exact (List.Pairwise.and_mem.1 hnd).imp (fun h => hkeys _ h.1 _ h.2.1 h.2.2)
  · rw [List.length_map, new_capacity _ hwf.1]
    exact hle

theorem C16_round_trip_witness :
    3 < 2 ^ 32 ∧ ascii "english" ≠ [] ∧ 10 ∉ ascii "english" ∧ ascii "f" ≠ [] ∧
    (run 3 [Op.addWord (ascii "Cat") (ascii "feline animal;small pet") (ascii "English"),
            Op.addWord (ascii "dog") (ascii "canine animal") (ascii "English"),
            Op.addWord (ascii "cow") (ascii "Kuh") (ascii "German"),
            Op.delWord (ascii "cow")]).exportLines (ascii "english")
      = [ascii "Cat:feline animal;small pet", ascii "dog:canine animal"] ∧
    List.Perm
      (((HashTable.new
          (run 3 [Op.addWord (ascii "Cat") (ascii "feline animal;small pet") (ascii "English"),
                  Op.addWord (ascii "dog") (ascii "canine animal") (ascii "English"),
                  Op.addWord (ascii "cow") (ascii "Kuh") (ascii "German"),
                  Op.delWord (ascii "cow")]).capacity).importData (ascii "f")
        (some ((run 3 [Op.addWord (ascii "Cat") (ascii "feline animal;small pet")
                        (ascii "English"),
                  Op.addWord (ascii "dog") (ascii "canine animal") (ascii "English"),
                  Op.addWord (ascii "cow") (ascii "Kuh") (ascii "German"),
                  Op.delWord (ascii "cow")]).exportData (ascii "english") (ascii "f")
                    true).content)).1.exportLines (ascii "english"))
      ((run 3 [Op.addWord (ascii "Cat") (ascii "feline animal;small pet") (ascii "English"),
               Op.addWord (ascii "dog") (ascii "canine animal") (ascii "English"),
               Op.addWord (ascii "cow") (ascii "Kuh") (ascii "German"),
               Op.delWord (ascii "cow")]).exportLines (ascii "english")) :=
  ⟨by norm_num, by decide, by decide, by decide, by decide,
    C16_round_trip 3 (by norm_num)
      [Op.addWord (ascii "Cat") (ascii "feline animal;small pet") (ascii "English"),
       Op.addWord (ascii "dog") (ascii "canine animal") (ascii "English"),
       Op.addWord (ascii "cow") (ascii "Kuh") (ascii "German"),
       Op.delWord (ascii "cow")]
      (ascii "english") (ascii "f") (by decide) (by decide) (by decide) (by decide)
      (by decide)⟩

/-- C17: the count that `import` reports also counts lines whose insertion was rejected. On
a fresh table of capacity 2 the file `en`, `a:` (empty meanings: `insert` rejects the call)
leaves the table empty and reports 1 imported word; on a fresh table of capacity 1 the file
`en`, `a:x`, `b:y` (the second insertion finds the table full) leaves one entry and reports
2; the same two lines `a:x`, `a:x` make one entry and report 2. -/
theorem C17_import_counts_rejected_lines :
    (HashTable.new 2).importData (ascii "f") (some (ascii "en\na:\n"))
      = (HashTable.new 2, ImportResult.imported 1 (ascii "en")) ∧
    ((HashTable.new 1).importData (ascii "f") (some (ascii "en\na:x\nb:y\n"))).2
      = ImportResult.imported 2 (ascii "en") ∧
    ((HashTable.new 1).importData (ascii "f") (some (ascii "en\na:x\nb:y\n"))).1.size = 1 ∧
    ((HashTable.new 1).importData (ascii "f") (some (ascii "en\na:x\nb:y\n"))).1.buckets
      = [some (Entry.new (ascii "a") (ascii "x") (ascii "en") (ascii "a:x"))] := by
  decide

/-- C18: on a reachable table on which some slot holds a live entry of the non-empty word
`w`, the lookup for `w` finds a live entry `e` of `w` in a slot `j`. For every translation
`tr` of `e` for the non-empty language `l` (up to case) that has a meaning equal to the
non-empty `m` up to case: `tr` is the only translation of `e` for `l`, and `delMeaning w m l`
reports a deletion and removes from `tr` the first meaning equal to `m` up to case, keeping
the other meanings in their order; `tr` is removed from the entry exactly when no meaning is
left, and stays otherwise; the other translations, the live flag of the entry, every other
slot and `size` are unchanged. -/
theorem C18_delMeaning (capacity : Nat) (hcap : capacity < 2 ^ 32) (ops : List Op)
    (w m l : Str) (hw : w ≠ []) (hm : m ≠ []) (hl : l ≠ [])
    (hlive : ∃ i x, (run capacity ops).bucket i = some x ∧ x.deleted = false ∧
      toLower x.word = toLower w) :
    ∃ j c e,
      lookupWalk (run capacity ops) (toLower w) ((run capacity ops).hashCode (toLower w))
        (run capacity ops).capacity ((run capacity ops).hashCode (toLower w)) 0
          = LookupWalk.hit j c ∧
      (run capacity ops).bucket j = some e ∧ e.deleted = false ∧
      toLower e.word = toLower w ∧
      ∀ tr, tr ∈ e.translations → toLower tr.language = toLower l →
        ∀ x, x ∈ tr.meanings → toLower x = toLower m →
        ∃ pre post mpre y mpost,
          e.translations = pre ++ tr :: post ∧
          (∀ p, p ∈ pre ++ post → toLower p.language ≠ toLower l) ∧
          tr.meanings = mpre ++ y :: mpost ∧
          toLower y = toLower m ∧ (∀ z, z ∈ mpre → toLower z ≠ toLower m) ∧
          (run capacity ops).delMeaning w m l
            = ({ run capacity ops with
                  buckets := (run capacity ops).buckets.set j
                    (some { e with translations :=
                      pre ++ (if (mpre ++ mpost).isEmpty then post
                              else { tr with meanings := mpre ++ mpost } :: post) }) },
               DelResult.deleted) ∧
          ((run capacity ops).delMeaning w m l).1.size = (run capacity ops).size := by
  have hinv := run_inv capacity hcap ops
  have hpath := run_pathInv capacity hcap ops
  generalize run capacity ops = t at hinv hpath hlive ⊢
  obtain ⟨i, x, hbx, hdx, hkx⟩ := hlive
  obtain ⟨j, c, e, hwalk, _, hb, hk, hd⟩ := lookup_hit_of_live t hinv.1 hpath w i x hbx hdx hkx
  exact ⟨j, c, e, hwalk, hb, hd, hk, fun tr htr hlang y hy hym =>
    delMeaning_found t hinv w m l hw hm hl j c e hwalk hb tr htr hlang y hy hym⟩

theorem C18_delMeaning_witness :
    2 < 2 ^ 32 ∧ ascii "CAT" ≠ [] ∧ ascii "Feline Animal" ≠ [] ∧ ascii "english" ≠ [] ∧
    (run 2 [Op.addWord (ascii "cat") (ascii "feline animal") (ascii "English"),
            Op.addWord (ascii "cat") (ascii "small pet") (ascii "English")]).bucket 0
      = some (Entry.mk (ascii "cat") (ascii "cat") (ascii "cat:feline animal")
          [Translation.mk (ascii "English") [ascii "feline animal", ascii "small pet"]] false) ∧
    ((run 2 [Op.addWord (ascii "cat") (ascii "feline animal") (ascii "English"),
             Op.addWord (ascii "cat") (ascii "small pet") (ascii "English")]).delMeaning
        (ascii "CAT") (ascii "Feline Animal") (ascii "english")).1.bucket 0
      = some (Entry.mk (ascii "cat") (ascii "cat") (ascii "cat:feline animal")
          [Translation.mk (ascii "English") [ascii "small pet"]] false) ∧
    ∃ j c e,
      lookupWalk (run 2 [Op.addWord (ascii "cat") (ascii "feline animal") (ascii "English"),
            Op.addWord (ascii "cat") (ascii "small pet") (ascii "English")])
          (toLower (ascii "CAT"))
          ((run 2 [Op.addWord (ascii "cat") (ascii "feline animal") (ascii "English"),
            Op.addWord (ascii "cat") (ascii "small pet") (ascii "English")]).hashCode
              (toLower (ascii "CAT")))
          (run 2 [Op.addWord (ascii "cat") (ascii "feline animal") (ascii "English"),
            Op.addWord (ascii "cat") (ascii "small pet") (ascii "English")]).capacity
          ((run 2 [Op.addWord (ascii "cat") (ascii "feline animal") (ascii "English"),
            Op.addWord (ascii "cat") (ascii "small pet") (ascii "English")]).hashCode
              (toLower (ascii "CAT"))) 0
        = LookupWalk.hit j c ∧
      (run 2 [Op.addWord (ascii "cat") (ascii "feline animal") (ascii "English"),
            Op.addWord (ascii "cat") (ascii "small pet") (ascii "English")]).bucket j = some e ∧
      e.deleted = false :=
  ⟨by norm_num, by decide, by decide, by decide, by decide, by decide,
    (C18_delMeaning 2 (by norm_num)
      [Op.addWord (ascii "cat") (ascii "feline animal") (ascii "English"),
       Op.addWord (ascii "cat") (ascii "small pet") (ascii "English")]
      (ascii "CAT") (ascii "Feline Animal") (ascii "english") (by decide) (by decide) (by decide)
      ⟨0, Entry.mk (ascii "cat") (ascii "cat") (ascii "cat:feline animal")
          [Translation.mk (ascii "English") [ascii "feline animal", ascii "small pet"]] false,
        by decide, by decide, by decide⟩).elim
      (fun j h => h.elim (fun c h => h.elim (fun e h => ⟨j, c, e, h.1, h.2.1, h.2.2.1⟩)))⟩

/-- C19, as stated, fails: `delMeaning` prints the same message when the entry has no
translation of the language and when the translation does not hold the meaning. On the table
made by `add a:x:en`, `delMeaning a:x:de` (no translation for `de`) and `delMeaning a:y:en`
(no meaning `y`) give the same result, and the table is unchanged by both. -/
theorem C19_same_result_language_meaning :
    ((run 2 [Op.addWord (ascii "a") (ascii "x") (ascii "en")]).delMeaning
        (ascii "a") (ascii "x") (ascii "de")).2
      = ((run 2 [Op.addWord (ascii "a") (ascii "x") (ascii "en")]).delMeaning
        (ascii "a") (ascii "y") (ascii "en")).2 ∧
    (run 2 [Op.addWord (ascii "a") (ascii "x") (ascii "en")]).delMeaning
        (ascii "a") (ascii "x") (ascii "de")
      = (run 2 [Op.addWord (ascii "a") (ascii "x") (ascii "en")],
          DelResult.meaningOrLanguageNotFound) := by
  decide

/-- C19, amended: `delMeaning` reports two distinct failure outcomes. On every well-formed
table and for non-empty `w`, `m`, `l`: when no slot holds a live entry of `w` the result is
word-not-found; when the lookup finds an entry that has no translation for `l`, and when it
finds one whose translations for `l` do not hold `m`, the result is the same
meaning-or-language-not-found, which differs from word-not-found; the result
translation-not-found is never given. -/
theorem C19_delMeaning_failures (t : HashTable) (hwf : t.WF) (w m l : Str)
    (hw : w ≠ []) (hm : m ≠ []) (hl : l ≠ []) :
    ((∀ i e, t.bucket i = some e → e.deleted = false → toLower e.word ≠ toLower w) →
      (t.delMeaning w m l).2 = DelResult.wordNotFound) ∧
    (∀ j c e,
      lookupWalk t (toLower w) (t.hashCode (toLower w)) t.capacity
        (t.hashCode (toLower w)) 0 = LookupWalk.hit j c →
      t.bucket j = some e →
      ((∀ tr, tr ∈ e.translations → toLower tr.language ≠ toLower l) →
        (t.delMeaning w m l).2 = DelResult.meaningOrLanguageNotFound) ∧
      ((∀ tr, tr ∈ e.translations → toLower tr.language = toLower l →
          ∀ x, x ∈ tr.meanings → toLower x ≠ toLower m) →
        (t.delMeaning w m l).2 = DelResult.meaningOrLanguageNotFound)) ∧
    DelResult.wordNotFound ≠ DelResult.meaningOrLanguageNotFound ∧
    (t.delMeaning w m l).2 ≠ DelResult.translationNotFound := by
  refine ⟨?_, ?_, by decide, ?_⟩
  · intro hno
    obtain ⟨c, hmiss⟩ := lookup_miss_of_no_live t hwf w hno
    rw [(delMeaning_miss t w m l c hmiss).2 hw hm hl]
  · intro j c e hwalk hb
    constructor
    · intro hno
      rw [delMeaning_hit t w m l j c e hw hm hl hwalk hb,
        delMeaningLoop_none _ _ _ (fun tr htr hlang => absurd hlang (hno tr htr))]
    · intro hno
      rw [delMeaning_hit t w m l j c e hw hm hl hwalk hb, delMeaningLoop_none _ _ _ hno]
  · rcases lookup_cases t hwf w with ⟨c, hmiss⟩ | ⟨j, c, e, hwalk, _, hb, _, _⟩
    · rw [(delMeaning_miss t w m l c hmiss).2 hw hm hl]
      exact fun h => DelResult.noConfusion h
    · rw [delMeaning_hit t w m l j c e hw hm hl hwalk hb]
      split <;> exact fun h => DelResult.noConfusion h

theorem C19_delMeaning_failures_witness :
    HashTable.WF (run 2 [Op.addWord (ascii "a") (ascii "x") (ascii "en")]) ∧
    ascii "c" ≠ [] ∧ ascii "x" ≠ [] ∧ ascii "en" ≠ [] ∧
    ((run 2 [Op.addWord (ascii "a") (ascii "x") (ascii "en")]).delMeaning
        (ascii "c") (ascii "x") (ascii "en")).2 ≠ DelResult.translationNotFound ∧
    ((run 2 [Op.addWord (ascii "a") (ascii "x") (ascii "en")]).delMeaning
        (ascii "c") (ascii "x") (ascii "en")).2 = DelResult.wordNotFound :=
  ⟨by decide, by decide, by decide, by decide,
    (C19_delMeaning_failures (run 2 [Op.addWord (ascii "a") (ascii "x") (ascii "en")])
      (by decide) (ascii "c") (ascii "x") (ascii "en") (by decide) (by decide)
      (by decide)).2.2.2,
    by decide⟩

/-- C20: on a reachable table on which some slot holds a live entry of the non-empty word
`w`, the lookup for `w` finds a live entry `e` of `w` in a slot `j`, and `find w` succeeds.
For a non-empty language `l`: if `e` has a translation `tr` for `l` (up to case), it is the
only one, and `delTranslation w l` reports a deletion and replaces `e` by `e` without `tr`,
the other translations in their order; the entry stays live, `size` is unchanged, also when
no translation is left, and `find w` succeeds afterwards with the remaining translations. If
`e` has no translation for `l`, the table is unchanged and the result is
translation-not-found, which differs from the word-not-found given when no slot holds a live
entry of the word. -/
theorem C20_delTranslation (capacity : Nat) (hcap : capacity < 2 ^ 32) (ops : List Op)
    (w l : Str) (hw : w ≠ []) (hl : l ≠ [])
    (hlive : ∃ i x, (run capacity ops).bucket i = some x ∧ x.deleted = false ∧
      toLower x.word = toLower w) :
    (∃ j c e,
      (run capacity ops).bucket j = some e ∧ e.deleted = false ∧
      toLower e.word = toLower w ∧
      (run capacity ops).find w = FindResult.found c e.translations ∧
      (∀ tr, tr ∈ e.translations → toLower tr.language = toLower l →
        ∃ pre post, e.translations = pre ++ tr :: post ∧
          (∀ p, p ∈ pre ++ post → toLower p.language ≠ toLower l) ∧
          (run capacity ops).delTranslation w l
            = ({ run capacity ops with
                  buckets := (run capacity ops).buckets.set j
                    (some { e with translations := pre ++ post }) },
               DelResult.deleted) ∧
          ((run capacity ops).delTranslation w l).1.size = (run capacity ops).size ∧
          ((run capacity ops).delTranslation w l).1.find w
            = FindResult.found c (pre ++ post)) ∧
      ((∀ tr, tr ∈ e.translations → toLower tr.language ≠ toLower l) →
        (run capacity ops).delTranslation w l
          = (run capacity ops, DelResult.translationNotFound))) ∧
    (∀ v, v ≠ [] →
      (∀ i x, (run capacity ops).bucket i = some x → x.deleted = false →
        toLower x.word ≠ toLower v) →
      (run capacity ops).delTranslation v l = (run capacity ops, DelResult.wordNotFound)) ∧
    DelResult.translationNotFound ≠ DelResult.wordNotFound := by
  have hinv := run_inv capacity hcap ops
  have hpath := run_pathInv capacity hcap ops
  generalize run capacity ops = t at hinv hpath hlive ⊢
  obtain ⟨i, x, hbx, hdx, hkx⟩ := hlive
  obtain ⟨j, c, e, hwalk, _, hb, hk, hd⟩ := lookup_hit_of_live t hinv.1 hpath w i x hbx hdx hkx
  obtain ⟨h1, h2⟩ := delTranslation_found t hinv w l hw hl j c e hwalk hb
  refine ⟨⟨j, c, e, hb, hd, hk, find_of_hit t w hw j c e hwalk hb, h1, h2⟩, ?_, by decide⟩
  intro v hv hno
  obtain ⟨c', hmiss⟩ := lookup_miss_of_no_live t hinv.1 v hno
  exact (delTranslation_miss t v l c' hmiss).2 hv hl

theorem C20_delTranslation_witness :
    2 < 2 ^ 32 ∧ ascii "A" ≠ [] ∧ ascii "EN" ≠ [] ∧
    (run 2 [Op.addWord (ascii "a") (ascii "x") (ascii "en")]).bucket 1
      = some (Entry.new (ascii "a") (ascii "x") (ascii "en") (ascii "a:x")) ∧
    ((run 2 [Op.addWord (ascii "a") (ascii "x") (ascii "en")]).delTranslation
        (ascii "A") (ascii "EN")).2 = DelResult.deleted ∧
    ((run 2 [Op.addWord (ascii "a") (ascii "x") (ascii "en")]).delTranslation
        (ascii "A") (ascii "EN")).1.find (ascii "A") = FindResult.found 1 [] ∧
    DelResult.translationNotFound ≠ DelResult.wordNotFound :=
  ⟨by norm_num, by decide, by decide, by decide, by decide, by decide,
    (C20_delTranslation 2 (by norm_num) [Op.addWord (ascii "a") (ascii "x") (ascii "en")]
      (ascii "A") (ascii "EN") (by decide) (by decide)
      ⟨1, Entry.new (ascii "a") (ascii "x") (ascii "en") (ascii "a:x"),
        by decide, by decide, by decide⟩).2.2⟩

/-- C21: on every well-formed table, for non-empty `w`, `m`, `l`, let the probing loop of
`insert` stop at slot `j`. If slot `j` is empty or holds a deleted entry, `insert` writes
there the new live entry with key `toLower w`, original word `w` and the single translation
constructed from `m` and `l`; the number of live entries grows by exactly 1, and so does
`size` (incremented modulo `2 ^ 32`, which is an exact increment whenever `size` is the
number of live entries). If slot `j` holds a live entry, it has the key of `w`, the entry
stays in its slot with the same key, original word and live flag, and the number of live
entries and `size` are unchanged. In both cases every other slot is unchanged. Consequently,
inserting words that differ pairwise up to case, with non-empty meanings and languages, into
a fresh table whose capacity is at least their number gives `size` and the number of live
entries equal to that number. -/
theorem C21_insert_effect (t : HashTable) (hwf : t.WF) (w m l line : Str) (silent : Bool)
    (hw : w ≠ []) (hm : m ≠ []) (hl : l ≠ []) (j coll : Nat)
    (hwalk : insertWalk t (toLower w) (t.hashCode (toLower w)) t.capacity
      (t.hashCode (toLower w)) t.collisions 0 = InsertWalk.stop j coll) :
    ((t.bucket j = none ∨ ∃ e, t.bucket j = some e ∧ e.deleted = true) →
      (t.insert w m l line silent).2 = InsertOutcome.created j ∧
      (t.insert w m l line silent).1.bucket j
        = some { word := toLower w, originalWord := w, originalLine := line,
                 translations := [Translation.new m l], deleted := false } ∧
      (∀ i, i ≠ j → (t.insert w m l line silent).1.bucket i = t.bucket i) ∧
      liveCount (t.insert w m l line silent).1.buckets = liveCount t.buckets + 1 ∧
      (t.insert w m l line silent).1.size = (t.size + 1) % 2 ^ 32 ∧
      (t.size = liveCount t.buckets → (t.insert w m l line silent).1.size = t.size + 1)) ∧
    (∀ e, t.bucket j = some e → e.deleted = false →
      toLower e.word = toLower w ∧
      (t.insert w m l line silent).2 = InsertOutcome.merged j ∧
      (t.insert w m l line silent).1.bucket j = some (e.addTranslation m l) ∧
      (e.addTranslation m l).word = e.word ∧
      (e.addTranslation m l).originalWord = e.originalWord ∧
      (e.addTranslation m l).deleted = false ∧
      (∀ i, i ≠ j → (t.insert w m l line silent).1.bucket i = t.bucket i) ∧
      liveCount (t.insert w m l line silent).1.buckets = liveCount t.buckets ∧
      (t.insert w m l line silent).1.size = t.size) ∧
    (∀ (capacity : Nat) (ws : List (Str × Str × Str)), capacity < 2 ^ 32 →
      (∀ x, x ∈ ws → x.1 ≠ [] ∧ x.2.1 ≠ [] ∧ x.2.2 ≠ []) →
      ws.Pairwise (fun a b => toLower a.1 ≠ toLower b.1) →
      ws.length ≤ (HashTable.new capacity).capacity →
      (run capacity (ws.map (fun x => Op.addWord x.1 x.2.1 x.2.2))).size = ws.length ∧
      liveCount (run capacity (ws.map (fun x => Op.addWord x.1 x.2.1 x.2.2))).buckets
        = ws.length) := by
  have hh : t.hashCode (toLower w) < t.capacity := hashCode_lt t hwf.1 _
  obtain ⟨hj, hstop⟩ := insertWalk_stop t _ _ hwf.1 _ _ _ _ _ _ hh hwalk
  have hjl : j < t.buckets.length := by rw [hwf.2.2]; exact hj
  refine ⟨?_, ?_, ?_⟩
  · intro hslot
    have hold : isLive (t.bucket j) = false := by
      rcases hslot with h0 | ⟨e, h0, hd⟩
      · rw [h0]; rfl
      · rw [h0]; simp [isLive, hd]
    have hc := liveCount_set t j hjl (some (Entry.new w m l line))
    rw [hold] at hc
    simp only [isLive, Entry.new_deleted, Bool.not_false, if_true, Bool.false_eq_true,
      if_false, Nat.add_zero] at hc
    rw [insert_of_stop_free t w m l line silent hw hm hl j coll hwalk hslot]
    refine ⟨rfl, ?_, ?_, hc, rfl, ?_⟩
    · simp only [bucket_set t j hjl, if_true, Entry.new_eq w m l line hw]
    · intro i hi
      simp only [bucket_set t j hjl, if_neg hi]
    · intro hsize
      have hle := liveCount_le (t.buckets.set j (some (Entry.new w m l line)))
      rw [List.length_set, hc, hwf.2.2] at hle
      have h2 := hwf.2.1
      simp only
      rw [Nat.mod_eq_of_lt (by omega)]
  · intro e hb hd
    have hkey : toLower e.word = toLower w := by
      rcases hstop with h | ⟨e2, h2, h3⟩
      · rw [hb] at h; cases h
      · rw [hb] at h2
        cases h2
        rcases h3 with h3 | h3
        · rw [hd] at h3; cases h3
        · exact h3
    have hc := liveCount_set t j hjl (some (e.addTranslation m l))
    have hold : isLive (t.bucket j) = true := by
      rw [hb]; simp [isLive, hd]
    have hnew : isLive (some (e.addTranslation m l)) = true := by
      simp [isLive, Entry.addTranslation_deleted, hd]
    rw [hold, hnew] at hc
    rw [insert_of_stop_live t w m l line silent hw hm hl j coll e hwalk hb hd]
    refine ⟨hkey, rfl, ?_, Entry.addTranslation_word e m l,
      Entry.addTranslation_originalWord e m l, ?_, ?_, ?_, rfl⟩
    · simp only [bucket_set t j hjl, if_true]
    · rw [Entry.addTranslation_deleted, hd]
    · intro i hi
      simp only [bucket_set t j hjl, if_neg hi]
    · simp only [if_true] at hc
      show liveCount (t.buckets.set j (some (e.addTranslation m l))) = liveCount t.buckets
      omega
  · intro capacity ws hcap hne hpw hlen
    exact size_of_distinct_inserts capacity hcap ws hne hpw hlen

theorem C21_insert_effect_witness :
    HashTable.WF (run 3 [Op.addWord (ascii "a") (ascii "x") (ascii "en")]) ∧
    ascii "d" ≠ [] ∧ ascii "y" ≠ [] ∧ ascii "en" ≠ [] ∧
    insertWalk (run 3 [Op.addWord (ascii "a") (ascii "x") (ascii "en")]) (toLower (ascii "d"))
      ((run 3 [Op.addWord (ascii "a") (ascii "x") (ascii "en")]).hashCode (toLower (ascii "d")))
      (run 3 [Op.addWord (ascii "a") (ascii "x") (ascii "en")]).capacity
      ((run 3 [Op.addWord (ascii "a") (ascii "x") (ascii "en")]).hashCode (toLower (ascii "d")))
      (run 3 [Op.addWord (ascii "a") (ascii "x") (ascii "en")]).collisions 0
        = InsertWalk.stop 2 1 ∧
    (run 3 [Op.addWord (ascii "a") (ascii "x") (ascii "en")]).bucket 2 = none ∧
    ((run 3 [Op.addWord (ascii "a") (ascii "x") (ascii "en")]).insert
        (ascii "d") (ascii "y") (ascii "en") [] false).2 = InsertOutcome.created 2 ∧
    (run 3 [Op.addWord (ascii "a") (ascii "x") (ascii "en"),
            Op.addWord (ascii "d") (ascii "y") (ascii "en"),
            Op.addWord (ascii "g") (ascii "z") (ascii "en")]).size = 3 :=
  ⟨by decide, by decide, by decide, by decide, by decide, by decide,
    ((C21_insert_effect (run 3 [Op.addWord (ascii "a") (ascii "x") (ascii "en")]) (by decide)
      (ascii "d") (ascii "y") (ascii "en") [] false (by decide) (by decide) (by decide)
      2 1 (by decide)).1 (Or.inl (by decide))).1,
    ((C21_insert_effect (run 3 [Op.addWord (ascii "a") (ascii "x") (ascii "en")]) (by decide)
      (ascii "d") (ascii "y") (ascii "en") [] false (by decide) (by decide) (by decide)
      2 1 (by decide)).2.2 3
      [(ascii "a", ascii "x", ascii "en"), (ascii "d", ascii "y", ascii "en"),
       (ascii "g", ascii "z", ascii "en")]
      (by norm_num) (by decide) (by decide) (by decide)).1⟩

/-- C22: `insert` stops at the first deleted slot. On every well-formed table, for non-empty
`w`, `m`, `l`, writing `h` for `hashCode (toLower w)`: if the slots at steps `0 .. k - 1` of
the probe sequence from `h` hold live entries of other words, the slot at step `k` holds a
deleted entry, and the slot at a later step `n` holds a live entry `x` of the word, then
`insert` creates a new live entry of the word in the slot of step `k`, the number of live
entries and `size` grow by one, the entry `x` stays unchanged in its slot (nothing is merged
into it), and afterwards two different slots hold a live entry with the key of `w`. -/
theorem C22_insert_stops_at_deleted (t : HashTable) (hwf : t.WF) (w m l line : Str)
    (silent : Bool) (hw : w ≠ []) (hm : m ≠ []) (hl : l ≠ []) (k n : Nat) (d x : Entry)
    (hkn : k < n) (hn : n < t.capacity)
    (hbefore : ∀ i, i < k → ∃ e,
      t.bucket ((t.hashCode (toLower w) + i) % t.capacity) = some e ∧
      e.deleted = false ∧ toLower e.word ≠ toLower w)
    (hdel : t.bucket ((t.hashCode (toLower w) + k) % t.capacity) = some d)
    (hdd : d.deleted = true)
    (hlater : t.bucket ((t.hashCode (toLower w) + n) % t.capacity) = some x)
    (hxd : x.deleted = false) (hxk : toLower x.word = toLower w) :
    (t.insert w m l line silent).2
      = InsertOutcome.created ((t.hashCode (toLower w) + k) % t.capacity) ∧
    (t.insert w m l line silent).1.bucket ((t.hashCode (toLower w) + k) % t.capacity)
      = some { word := toLower w, originalWord := w, originalLine := line,
               translations := [Translation.new m l], deleted := false } ∧
    liveCount (t.insert w m l line silent).1.buckets = liveCount t.buckets + 1 ∧
    (t.insert w m l line silent).1.size = (t.size + 1) % 2 ^ 32 ∧
    (t.insert w m l line silent).1.bucket ((t.hashCode (toLower w) + n) % t.capacity)
      = some x ∧
    (t.hashCode (toLower w) + k) % t.capacity ≠ (t.hashCode (toLower w) + n) % t.capacity ∧
    (∃ a b ea eb, a ≠ b ∧
      (t.insert w m l line silent).1.bucket a = some ea ∧
      (t.insert w m l line silent).1.bucket b = some eb ∧
      ea.deleted = false ∧ eb.deleted = false ∧
      toLower ea.word = toLower w ∧ toLower eb.word = toLower w) := by
  have hh : t.hashCode (toLower w) < t.capacity := hashCode_lt t hwf.1 _
  have hne := probe_injective t.capacity (t.hashCode (toLower w)) k n hkn hn
  obtain ⟨c, hc⟩ := insertWalk_prefix t (toLower w) (t.hashCode (toLower w)) k hh (by omega)
    hbefore (fun e he => Or.inl (by rw [hdel] at he; cases he; exact hdd)) k 0
    t.collisions 0 (by omega)
  rw [Nat.sub_zero, Nat.add_zero, Nat.mod_eq_of_lt hh] at hc
  have hj : (t.hashCode (toLower w) + k) % t.capacity < t.buckets.length := by
    rw [hwf.2.2]; exact Nat.mod_lt _ hwf.1
  have hins := insert_of_stop_free t w m l line silent hw hm hl _ c hc
    (Or.inr ⟨d, hdel, hdd⟩)
  have hcount := liveCount_set t _ hj (some (Entry.new w m l line))
  rw [hdel] at hcount
  simp only [isLive, hdd, Entry.new_deleted, Bool.not_false, Bool.not_true, if_true,
    Bool.false_eq_true, if_false, Nat.add_zero] at hcount
  have h1 : (t.insert w m l line silent).1.bucket ((t.hashCode (toLower w) + k) % t.capacity)
      = some { word := toLower w, originalWord := w, originalLine := line,
               translations := [Translation.new m l], deleted := false } := by
    rw [hins]
    simp only [bucket_set t _ hj, if_true, Entry.new_eq w m l line hw]
  have h2 : (t.insert w m l line silent).1.bucket ((t.hashCode (toLower w) + n) % t.capacity)
      = some x := by
    rw [hins]
    simp only [bucket_set t _ hj, if_neg hne.symm, hlater]
  refine ⟨by rw [hins], h1, by rw [hins]; exact hcount, by rw [hins], h2, hne,
    _, _, _, _, hne, h1, h2, rfl, hxd, ?_, hxk⟩
  exact toLower_toLower w

theorem C22_insert_stops_at_deleted_witness :
    (run 3 [Op.addWord (ascii "a") (ascii "x") (ascii "en"),
            Op.addWord (ascii "d") (ascii "y") (ascii "en"),
            Op.addWord (ascii "g") (ascii "z") (ascii "en"),
            Op.delWord (ascii "d")]).hashCode (toLower (ascii "g")) = 1 ∧
    (run 3 [Op.addWord (ascii "a") (ascii "x") (ascii "en"),
            Op.addWord (ascii "d") (ascii "y") (ascii "en"),
            Op.addWord (ascii "g") (ascii "z") (ascii "en"),
            Op.delWord (ascii "d")]).buckets
      = [some { word := ascii "g", originalWord := ascii "g", originalLine := ascii "g:z",
                translations := [{ language := ascii "en", meanings := [ascii "z"] }],
                deleted := false },
         some { word := ascii "a", originalWord := ascii "a", originalLine := ascii "a:x",
                translations := [{ language := ascii "en", meanings := [ascii "x"] }],
                deleted := false },
         some { word := ascii "d", originalWord := ascii "d", originalLine := ascii "d:y",
                translations := [{ language := ascii "en", meanings := [ascii "y"] }],
                deleted := true }] ∧
    ((run 3 [Op.addWord (ascii "a") (ascii "x") (ascii "en"),
            Op.addWord (ascii "d") (ascii "y") (ascii "en"),
            Op.addWord (ascii "g") (ascii "z") (ascii "en"),
            Op.delWord (ascii "d")]).insert (ascii "g") (ascii "w") (ascii "en") [] false).2
      = InsertOutcome.created 2 :=
  ⟨by decide, by decide,
    (C22_insert_stops_at_deleted
      (run 3 [Op.addWord (ascii "a") (ascii "x") (ascii "en"),
            Op.addWord (ascii "d") (ascii "y") (ascii "en"),
            Op.addWord (ascii "g") (ascii "z") (ascii "en"),
            Op.delWord (ascii "d")]) (by decide)
      (ascii "g") (ascii "w") (ascii "en") [] false (by decide) (by decide) (by decide) 1 2
      { word := ascii "d", originalWord := ascii "d", originalLine := ascii "d:y",
        translations := [{ language := ascii "en", meanings := [ascii "y"] }],
        deleted := true }
      { word := ascii "g", originalWord := ascii "g", originalLine := ascii "g:z",
        translations := [{ language := ascii "en", meanings := [ascii "z"] }],
        deleted := false }
      (by decide) (by decide)
      (fun i hi => ⟨Entry.new (ascii "a") (ascii "x") (ascii "en") (ascii "a:x"),
        by
          have h0 : i = 0 := by omega
          subst h0
          decide,
        rfl, by decide⟩)
      (by decide) rfl (by decide) rfl (by decide)).1⟩

/-- C23: merging a meanings text with `;` into an existing language does not split it.
After `add a:x:en` on a fresh table of capacity 2, `add a:y;z:en` appends the whole text
`y;z` as one meaning (meanings `x`, `y;z`), whereas adding `y` and then `z` one at a time
gives the three meanings `x`, `y`, `z`, and the same text `y;z` for the new language `de`
is split by the constructor of `Translation` into the two meanings `y`, `z`. Also
`add a:x;y:en` after `add a:x:en` appends `x;y` although `x` is already present. -/
theorem C23_merge_does_not_split :
    (run 2 [Op.addWord (ascii "a") (ascii "x") (ascii "en"),
            Op.addWord (ascii "a") (ascii "y;z") (ascii "en")]).bucket 1
      = some { word := ascii "a", originalWord := ascii "a", originalLine := ascii "a:x",
               translations := [{ language := ascii "en",
                                  meanings := [ascii "x", ascii "y;z"] }],
               deleted := false } ∧
    (run 2 [Op.addWord (ascii "a") (ascii "x") (ascii "en"),
            Op.addWord (ascii "a") (ascii "y") (ascii "en"),
            Op.addWord (ascii "a") (ascii "z") (ascii "en")]).bucket 1
      = some { word := ascii "a", originalWord := ascii "a", originalLine := ascii "a:x",
               translations := [{ language := ascii "en",
                                  meanings := [ascii "x", ascii "y", ascii "z"] }],
               deleted := false } ∧
    (run 2 [Op.addWord (ascii "a") (ascii "x") (ascii "en"),
            Op.addWord (ascii "a") (ascii "y;z") (ascii "en")])
      ≠ (run 2 [Op.addWord (ascii "a") (ascii "x") (ascii "en"),
            Op.addWord (ascii "a") (ascii "y") (ascii "en"),
            Op.addWord (ascii "a") (ascii "z") (ascii "en")]) ∧
    (run 2 [Op.addWord (ascii "a") (ascii "x") (ascii "en"),
            Op.addWord (ascii "a") (ascii "y;z") (ascii "de")]).bucket 1
      = some { word := ascii "a", originalWord := ascii "a", originalLine := ascii "a:x",
               translations := [{ language := ascii "en", meanings := [ascii "x"] },
                                { language := ascii "de",
                                  meanings := [ascii "y", ascii "z"] }],
               deleted := false } ∧
    (run 2 [Op.addWord (ascii "a") (ascii "x") (ascii "en"),
            Op.addWord (ascii "a") (ascii "x;y") (ascii "en")]).bucket 1
      = some { word := ascii "a", originalWord := ascii "a", originalLine := ascii "a:x",
               translations := [{ language := ascii "en",
                                  meanings := [ascii "x", ascii "x;y"] }],
               deleted := false } := by
  refine ⟨by decide, by decide, by decide, by decide, by decide⟩

/-- C24: deleting one word never disturbs the lookup of another. For every table, hence for
every reachable one, and all words `w`, `v` with different lowercase forms, `find v` after
`delWord w` gives the same result as `find v` before it: the same outcome, the same
translations and the same number of comparisons. The deleted entry stays in its slot, marked
deleted, and the lookup loop passes it as it passed the live entry of `w` before. -/
theorem C24_find_after_delWord_other (t : HashTable) (w v : Str)
    (hne : toLower w ≠ toLower v) :
    (t.delWord w).1.find v = t.find v ∧
    (∀ capacity ops, ((run capacity ops).delWord w).1.find v = (run capacity ops).find v) :=
  ⟨find_after_delWord_other t w v hne, fun _ _ => find_after_delWord_other _ w v hne⟩

theorem C24_find_after_delWord_other_witness :
    toLower (ascii "a") ≠ toLower (ascii "C") ∧
    (run 2 [Op.addWord (ascii "a") (ascii "x") (ascii "en"),
            Op.addWord (ascii "c") (ascii "y") (ascii "en")]).find (ascii "C")
      = FindResult.found 2 [{ language := ascii "en", meanings := [ascii "y"] }] ∧
    ((run 2 [Op.addWord (ascii "a") (ascii "x") (ascii "en"),
            Op.addWord (ascii "c") (ascii "y") (ascii "en")]).delWord (ascii "a")).2
      = DelResult.deleted ∧
    ((run 2 [Op.addWord (ascii "a") (ascii "x") (ascii "en"),
            Op.addWord (ascii "c") (ascii "y") (ascii "en")]).delWord (ascii "a")).1.find
        (ascii "C")
      = (run 2 [Op.addWord (ascii "a") (ascii "x") (ascii "en"),
            Op.addWord (ascii "c") (ascii "y") (ascii "en")]).find (ascii "C") :=
  ⟨by decide, by decide, by decide,
    (C24_find_after_delWord_other
      (run 2 [Op.addWord (ascii "a") (ascii "x") (ascii "en"),
            Op.addWord (ascii "c") (ascii "y") (ascii "en")])
      (ascii "a") (ascii "C") (by decide)).1⟩

/-- C25: every probing loop ends within `capacity` steps. For every table with a positive
capacity (full or not) and every word `w`, with `h = hashCode (toLower w)`: the loop shared by
`find`, `delWord`, `delTranslation` and `delMeaning`, run with fuel `capacity`, ends (it never
runs out of fuel, and more fuel gives the same result); the slots it examines are
`(h + i) % capacity` for `i = 0, .., m - 1` with `1 ≤ m ≤ capacity`; and the four methods
return. The loop of `insert` likewise ends, examines the slots `(h + i) % capacity` for
`i < m` with `1 ≤ m ≤ capacity`, advances `a ≤ m ≤ capacity` times, and `insert` returns. -/
theorem C25_walks_end_within_capacity (t : HashTable) (hc : 0 < t.capacity) (w : Str) :
    (∃ m, 1 ≤ m ∧ m ≤ t.capacity ∧
      lookupWalkTraced t (toLower w) (t.hashCode (toLower w)) t.capacity
          (t.hashCode (toLower w)) 0 []
        = (lookupWalk t (toLower w) (t.hashCode (toLower w)) t.capacity
            (t.hashCode (toLower w)) 0,
           (List.range m).map (fun i => (t.hashCode (toLower w) + i) % t.capacity))) ∧
    lookupWalk t (toLower w) (t.hashCode (toLower w)) t.capacity (t.hashCode (toLower w)) 0
      ≠ LookupWalk.outOfFuel ∧
    (∀ n, lookupWalk t (toLower w) (t.hashCode (toLower w)) (t.capacity + n)
        (t.hashCode (toLower w)) 0
      = lookupWalk t (toLower w) (t.hashCode (toLower w)) t.capacity
        (t.hashCode (toLower w)) 0) ∧
    t.find w ≠ FindResult.outOfFuel ∧
    (t.delWord w).2 ≠ DelResult.outOfFuel ∧
    (∀ l, (t.delTranslation w l).2 ≠ DelResult.outOfFuel) ∧
    (∀ m l, (t.delMeaning w m l).2 ≠ DelResult.outOfFuel) ∧
    (∃ m a, 1 ≤ m ∧ m ≤ t.capacity ∧ a ≤ m ∧
      insertWalkTraced t (toLower w) (t.hashCode (toLower w)) t.capacity
          (t.hashCode (toLower w)) t.collisions 0 [] 0
        = (insertWalk t (toLower w) (t.hashCode (toLower w)) t.capacity
            (t.hashCode (toLower w)) t.collisions 0,
           (List.range m).map (fun i => (t.hashCode (toLower w) + i) % t.capacity), a)) ∧
    insertWalk t (toLower w) (t.hashCode (toLower w)) t.capacity (t.hashCode (toLower w))
      t.collisions 0 ≠ InsertWalk.outOfFuel ∧
    (∀ n, insertWalk t (toLower w) (t.hashCode (toLower w)) (t.capacity + n)
        (t.hashCode (toLower w)) t.collisions 0
      = insertWalk t (toLower w) (t.hashCode (toLower w)) t.capacity
        (t.hashCode (toLower w)) t.collisions 0) ∧
    (∀ m l line silent, (t.insert w m l line silent).2 ≠ InsertOutcome.outOfFuel) :=
  ⟨lookupWalkTraced_run t hc (toLower w),
    lookupWalk_ends t hc w,
    lookupWalk_fuel_add t _ _ _ _ _ (lookupWalk_ends t hc w),
    find_ne_outOfFuel t hc w,
    delWord_ne_outOfFuel t hc w,
    fun l => delTranslation_ne_outOfFuel t hc w l,
    fun m l => delMeaning_ne_outOfFuel t hc w m l,
    insertWalkTraced_run t hc (toLower w),
    insertWalk_ends t hc w,
    insertWalk_fuel_add t _ _ _ _ _ _ (insertWalk_ends t hc w),
    fun m l line silent => insert_ne_outOfFuel t hc w m l line silent⟩

theorem C25_walks_end_within_capacity_witness :
    0 < (run 2 [Op.addWord (ascii "a") (ascii "x") (ascii "en"),
                Op.addWord (ascii "c") (ascii "y") (ascii "en")]).capacity ∧
    liveCount (run 2 [Op.addWord (ascii "a") (ascii "x") (ascii "en"),
                Op.addWord (ascii "c") (ascii "y") (ascii "en")]).buckets = 2 ∧
    lookupWalkTraced (run 2 [Op.addWord (ascii "a") (ascii "x") (ascii "en"),
                Op.addWord (ascii "c") (ascii "y") (ascii "en")]) (ascii "e") 1 2 1 0 []
      = (LookupWalk.miss 2, [1, 0]) ∧
    insertWalkTraced (run 2 [Op.addWord (ascii "a") (ascii "x") (ascii "en"),
                Op.addWord (ascii "c") (ascii "y") (ascii "en")]) (ascii "e") 1 2 1 1 0 [] 0
      = (InsertWalk.full 3 2, [1, 0], 2) ∧
    (run 2 [Op.addWord (ascii "a") (ascii "x") (ascii "en"),
            Op.addWord (ascii "c") (ascii "y") (ascii "en")]).find (ascii "e")
      ≠ FindResult.outOfFuel :=
  ⟨by decide, by decide, by decide, by decide,
    (C25_walks_end_within_capacity
      (run 2 [Op.addWord (ascii "a") (ascii "x") (ascii "en"),
              Op.addWord (ascii "c") (ascii "y") (ascii "en")]) (by decide)
      (ascii "e")).2.2.2.1⟩

/-- C26: every live record is reachable by lookup. In every table reached from a freshly
constructed one (capacity below `2 ^ 32`) by any sequence of `insert`, `addWord`, `import`,
`delWord`, `delTranslation` and `delMeaning` calls: every slot `i` that holds an entry `e`
is at some step `n < capacity` of the probe sequence from `hashCode e.word`, and the slots
at all earlier steps are not empty; no further call turns a slot that is not empty into an
empty one; and for every live entry `e`, `find e.word` succeeds, with the translations of a
live entry that has the key of `e`. -/
theorem C26_live_records_reachable (capacity : Nat) (hcap : capacity < 2 ^ 32)
    (ops : List Op) :
    (∀ i e, (run capacity ops).bucket i = some e →
      ∃ n, n < (run capacity ops).capacity ∧
        ((run capacity ops).hashCode e.word + n) % (run capacity ops).capacity = i ∧
        ∀ k, k < n →
          (run capacity ops).bucket
            (((run capacity ops).hashCode e.word + k) % (run capacity ops).capacity) ≠ none) ∧
    (∀ op i, (run capacity ops).bucket i ≠ none →
      ((run capacity ops).apply op).bucket i ≠ none) ∧
    (∀ more i, (run capacity ops).bucket i ≠ none → (run capacity (ops ++ more)).bucket i ≠ none) ∧
    (∀ i e, (run capacity ops).bucket i = some e → e.deleted = false →
      ∃ j c x, (run capacity ops).bucket j = some x ∧ x.deleted = false ∧
        toLower x.word = toLower e.word ∧
        (run capacity ops).find e.word = FindResult.found c x.translations) := by
  refine ⟨run_pathInv capacity hcap ops, ?_, ?_, ?_⟩
  · intro op i
    exact (apply_slotsKept _ (run_inv capacity hcap ops) op i).1
  · intro more i
    unfold run
    rw [List.foldl_append]
    exact (foldl_apply_slotsKept more _ (run_inv capacity hcap ops) i).1
  · intro i e hb hd
    exact run_find_live capacity hcap ops i e hb hd

theorem C26_live_records_reachable_witness :
    2 < 2 ^ 32 ∧
    (run 2 [Op.addWord (ascii "a") (ascii "x") (ascii "en"),
            Op.addWord (ascii "c") (ascii "y") (ascii "en"),
            Op.delWord (ascii "a")]).bucket 0
      = some { word := ascii "c", originalWord := ascii "c", originalLine := ascii "c:y",
               translations := [{ language := ascii "en", meanings := [ascii "y"] }],
               deleted := false } ∧
    (run 2 [Op.addWord (ascii "a") (ascii "x") (ascii "en"),
            Op.addWord (ascii "c") (ascii "y") (ascii "en"),
            Op.delWord (ascii "a")]).find (ascii "c")
      = FindResult.found 2 [{ language := ascii "en", meanings := [ascii "y"] }] ∧
    (∃ j c x,
      (run 2 [Op.addWord (ascii "a") (ascii "x") (ascii "en"),
            Op.addWord (ascii "c") (ascii "y") (ascii "en"),
            Op.delWord (ascii "a")]).bucket j = some x ∧ x.deleted = false ∧
      toLower x.word = toLower (ascii "c") ∧
      (run 2 [Op.addWord (ascii "a") (ascii "x") (ascii "en"),
            Op.addWord (ascii "c") (ascii "y") (ascii "en"),
            Op.delWord (ascii "a")]).find (ascii "c") = FindResult.found c x.translations) :=
  ⟨by norm_num, by decide, by decide,
    (C26_live_records_reachable 2 (by norm_num)
      [Op.addWord (ascii "a") (ascii "x") (ascii "en"),
       Op.addWord (ascii "c") (ascii "y") (ascii "en"),
       Op.delWord (ascii "a")]).2.2.2 0
      { word := ascii "c", originalWord := ascii "c", originalLine := ascii "c:y",
        translations := [{ language := ascii "en", meanings := [ascii "y"] }],
        deleted := false } (by decide) rfl⟩

end Translator
